import Mathlib

/-!
# hclconv: the HCL serializer `marshal` and the converters around it

A shallow embedding of `src/main.go`.

* Go strings are modelled by Lean strings and the `bytes.Buffer` by the string
  written so far.  `sort.Strings` orders byte-wise; on UTF-8 text that is the
  lexicographic order of the code points, which is what `strLE` compares.
* `cty.Type` is `Ty`, `cty.Value` is `Val`.  Collections are represented by the
  sequence their `ElementIterator` yields, objects and object types by a
  listing of their attributes (a Go map, so the names of a listing are
  pairwise different).
* `cty.Number` wraps a `big.Float`.  `Text('f', -1)` first turns the float into
  its shortest decimal (digits and a decimal exponent) and then prints it;
  a finite number is represented by that decimal, so `fmtF` below is the
  printing step of `math/big`.
* `encoding/json` is an external collaborator: `JSON` holds its two entry
  points as parameters.
* A Go function that returns `error` and writes to a buffer becomes a function
  to `Res`: the buffer after the call together with the error, or a panic.
-/

namespace Hclconv

/-! ## Strings and `sort.Strings` -/

/-- Lexicographic comparison of two character sequences, `a ≤ b`. -/
def lexLE : List Char → List Char → Bool
  | [], _ => true
  | _ :: _, [] => false
  | a :: as, b :: bs => a.toNat < b.toNat || (a.toNat == b.toNat && lexLE as bs)

/-- The order `sort.Strings` sorts by. -/
def strLE (a b : String) : Prop := lexLE a.data b.data = true

instance strLE.decidable : DecidableRel strLE :=
  fun a b => inferInstanceAs (Decidable (lexLE a.data b.data = true))

/-- `sort.Strings(names)`: the ascending rearrangement of `names`. -/
def sortStrings (names : List String) : List String :=
  List.insertionSort strLE names

/-- Lookup in a listing of a Go `map[string]T`. -/
def lookup {α : Type} (k : String) : List (String × α) → Option α
  | [] => none
  | (k', v) :: rest => if k' = k then some v else lookup k rest

/-! ## Types -/

/-- `cty.Type`.  `unsupported` stands for every type that is none of the nine
shapes `marshal` knows: `isPrimitive` says whether `IsPrimitiveType()` holds
for it, `friendlyName` is its `FriendlyName()`. -/
inductive Ty where
  | string
  | number
  | bool
  | list (ety : Ty)
  | set (ety : Ty)
  | map (ety : Ty)
  | tuple (etys : List Ty)
  | object (atys : List (String × Ty))
  | capsule (name : String)
  | unsupported (isPrimitive : Bool) (friendlyName : String)
deriving Repr, Inhabited

/-- `cty.DynamicPseudoType`, the type of a JSON `null`. -/
def Ty.dynamic : Ty := .unsupported false "dynamic"

/-- Whether the type is `cty.DynamicPseudoType`. -/
def Ty.isDynamic : Ty → Bool
  | .unsupported false name => name == "dynamic"
  | _ => false

mutual
/-- Nesting depth of a type. -/
def Ty.depth : Ty → Nat
  | .list e => e.depth + 1
  | .set e => e.depth + 1
  | .map e => e.depth + 1
  | .tuple es => Ty.depthList es + 1
  | .object as => Ty.depthAttrs as + 1
  | _ => 0
/-- Largest depth in a sequence of types. -/
def Ty.depthList : List Ty → Nat
  | [] => 0
  | t :: ts => max t.depth (Ty.depthList ts)
/-- Largest depth among the attribute types of a listing. -/
def Ty.depthAttrs : List (String × Ty) → Nat
  | [] => 0
  | (_, t) :: ts => max t.depth (Ty.depthAttrs ts)
end

/-! ## Numbers -/

/-- The `decimal` of `math/big` that `Text` formats, with the sign of the
float it was made from: `fin neg mant exp` is `± 0.d₁d₂…dₙ × 10^exp` with the
digits `mant = [d₁, …, dₙ]` (`decimal.mant`, `decimal.exp`; zero has no
digits); `inf neg` stands for `±Inf`, which has no digits. -/
inductive Decimal where
  | fin (neg : Bool) (mant : List Nat) (exp : Int)
  | inf (neg : Bool)
deriving Repr, DecidableEq, Inhabited

/-- The character of a decimal digit. -/
def digitChar (d : Nat) : Char := Char.ofNat (48 + d)

/-- `decimal.at(i)`: the digit at position `i`, `'0'` outside the mantissa. -/
def decimalAt (mant : List Nat) (i : Int) : Char :=
  if 0 ≤ i ∧ i < mant.length then digitChar (mant.getD i.toNat 0) else '0'

/-- `fmtF(buf, prec, d)` of `math/big`: `ddddddd.ddddd`. -/
def fmtF (prec : Nat) (mant : List Nat) (exp : Int) : List Char :=
  (if exp > 0 then
      (mant.take (min mant.length exp.toNat)).map digitChar
        ++ List.replicate (exp.toNat - min mant.length exp.toNat) '0'
    else ['0'])
  ++ (if prec > 0 then
        '.' :: (List.range prec).map (fun (i : Nat) => decimalAt mant (exp + (i : Int)))
      else [])

/-- What `Text('f', -1)` writes once the digits are chosen: the sign, then
`Inf` or the digits with precision `max(len(d.mant) - d.exp, 0)`. -/
def Decimal.text : Decimal → String
  | .inf neg => if neg then "-Inf" else "+Inf"
  | .fin neg mant exp =>
    (if neg then "-" else "") ++
      String.mk (fmtF ((mant.length : Int) - exp).toNat mant exp)

/-- Decimal digits of `n`, most significant first, with `fuel` steps. -/
def digitsAux : Nat → Nat → List Nat → List Nat
  | 0, _, acc => acc
  | fuel + 1, n, acc =>
    if n < 10 then n :: acc else digitsAux fuel (n / 10) (n % 10 :: acc)

/-- Removes the zeros at the end of a digit sequence. -/
def dropTrailingZeros (ds : List Nat) : List Nat :=
  (ds.reverse.dropWhile (· == 0)).reverse

/-- The invariants of `decimal` in `math/big`: every digit is below ten, the
mantissa has no zero at its front and none at its end, and zero has exponent
0.  An infinity has no digits to constrain. -/
def Decimal.isNormal : Decimal → Bool
  | .fin _ mant exp =>
    mant.all (· < 10) && mant.head? != some 0 && mant.getLast? != some 0
      && (!mant.isEmpty || exp == 0)
  | .inf _ => true

/-- The invariants of `decimal` on a pair of digits and exponent. -/
def NormalDigits (d : List Nat × Int) : Prop :=
  (∀ x ∈ d.1, x < 10) ∧ d.1.head? ≠ some 0 ∧ d.1.getLast? ≠ some 0 ∧ (d.1 = [] → d.2 = 0)

/-- A `cty.Number`: a `big.Float`.  `fin neg mant exp prec` is the finite
value `± mant × 2^exp` kept with `prec` bits of mantissa (`x.Prec()`);
`inf neg` is `±Inf`.  The JSON parser of `hcl` makes its numbers with 512
bits, `cty.NumberIntVal` with 64, `cty.NumberFloatVal` with 53. -/
inductive Number where
  | fin (neg : Bool) (mant : Nat) (exp : Int) (prec : Nat)
  | inf (neg : Bool)
deriving Repr, DecidableEq, Inhabited

/-- Number of bits of `n`, with `fuel` steps. -/
def bitLenAux : Nat → Nat → Nat
  | 0, _ => 0
  | fuel + 1, n => if n = 0 then 0 else bitLenAux fuel (n / 2) + 1

/-- `nat.bitLen()`: the number of bits of `n`. -/
def bitLen (n : Nat) : Nat := bitLenAux n n

/-- The product `b^k * m`. -/
def mulPow (b : Nat) : Nat → Nat → Nat
  | 0, m => m
  | k + 1, m => mulPow b k (b * m)

/-- The shift `m >> k`. -/
def shrNat : Nat → Nat → Nat
  | 0, m => m
  | k + 1, m => shrNat k (m / 2)

/-- `decimal.init(m, shift)` of `math/big`: the exact decimal of
`m × 2^shift`, digits and decimal exponent, without zeros at the end of the
digits.  For a negative shift `-k` these are the digits of `m × 5^k`, with
the point moved `k` places to the left. -/
def decimalInit (m : Nat) (shift : Int) : List Nat × Int :=
  if m = 0 then ([], 0)
  else
    match shift with
    | .ofNat k =>
      (dropTrailingZeros (digitsAux (mulPow 2 k m + 1) (mulPow 2 k m) []),
        ((digitsAux (mulPow 2 k m + 1) (mulPow 2 k m) []).length : Int))
    | .negSucc k =>
      (dropTrailingZeros (digitsAux (mulPow 5 (k + 1) m + 1) (mulPow 5 (k + 1) m) []),
        ((digitsAux (mulPow 5 (k + 1) m + 1) (mulPow 5 (k + 1) m) []).length : Int)
          - ((k : Int) + 1))

/-- `trim(x)` of `math/big`: cuts the zeros at the end of the digits; without
digits the exponent is 0. -/
def trim (d : List Nat × Int) : List Nat × Int :=
  if (dropTrailingZeros d.1).isEmpty then ([], 0) else (dropTrailingZeros d.1, d.2)

/-- `x.roundDown(n)` of `math/big`: the first `n` digits. -/
def roundDown (n : Nat) (d : List Nat × Int) : List Nat × Int :=
  if n ≥ d.1.length then d else trim (d.1.take n, d.2)

/-- `x.roundUp(n)` of `math/big`: the first `n` digits with one added at the
last of them that is below 9; digits that are all 9 give `1` with the
exponent raised. -/
def roundUp (n : Nat) (d : List Nat × Int) : List Nat × Int :=
  if n ≥ d.1.length then d
  else
    match (d.1.take n).reverse.dropWhile (fun x => decide (9 ≤ x)) with
    | [] => ([1], d.2 + 1)
    | x :: rest => (((x + 1) :: rest).reverse, d.2)

/-- `shouldRoundUp(x, n)` of `math/big`: exactly halfway goes to the even
digit, otherwise the digit at `n` decides. -/
def shouldRoundUp (d : List Nat × Int) (n : Nat) : Bool :=
  if d.1.getD n 0 = 5 ∧ n + 1 = d.1.length then
    decide (n > 0) && decide (d.1.getD (n - 1) 0 % 2 ≠ 0)
  else decide (5 ≤ d.1.getD n 0)

/-- `x.round(n)` of `math/big`: rounds to `n` digits, to the nearest even. -/
def round (n : Nat) (d : List Nat × Int) : List Nat × Int :=
  if n ≥ d.1.length then d
  else if shouldRoundUp d n then roundUp n d else roundDown n d

/-- The loop of `roundShortest` in `math/big` over the digits of `d` from
position `i` on: `lower` and `upper` are the digits of the bounds and
`inclusive` says whether the bounds themselves may be taken.  The first
position at which rounding down or up is allowed ends the loop. -/
def roundShortestLoop (d : List Nat × Int) (lower upper : List Nat) (inclusive : Bool) :
    List Nat → Nat → List Nat × Int
  | [], _ => d
  | m :: rest, i =>
    if (lower.getD i 0 != m || (inclusive && i + 1 == lower.length))
        && (m != upper.getD i 0
          && (inclusive || decide (m + 1 < upper.getD i 0) || decide (i + 1 < upper.length)))
      then round (i + 1) d
    else if lower.getD i 0 != m || (inclusive && i + 1 == lower.length) then roundDown (i + 1) d
    else if m != upper.getD i 0
        && (inclusive || decide (m + 1 < upper.getD i 0) || decide (i + 1 < upper.length))
      then roundUp (i + 1) d
    else roundShortestLoop d lower upper inclusive rest (i + 1)

/-- The mantissa of `roundShortest` in `math/big`: `mant` shifted to
`prec + 1` bits, so that its lowest bit stands for half a unit in the last
place of the precision. -/
def halfUlpMant (mant prec : Nat) : Nat :=
  if bitLen mant ≤ prec + 1 then mulPow 2 (prec + 1 - bitLen mant) mant
  else shrNat (bitLen mant - (prec + 1)) mant

/-- `roundShortest(d, x)` of `math/big` for `x = mant × 2^exp` with `prec`
bits, on the exact decimal `d` of `x`: digits and exponent of the shortest
decimal the loop finds between the bounds half a unit in the last place below
and above `x`. -/
def roundShortest (mant : Nat) (exp : Int) (prec : Nat) : List Nat × Int :=
  if (decimalInit mant exp).1.isEmpty then decimalInit mant exp
  else
    roundShortestLoop (decimalInit mant exp)
      (decimalInit (halfUlpMant mant prec - 1)
        (exp + (bitLen mant : Int) - ((prec : Int) + 1))).1
      (decimalInit (halfUlpMant mant prec + 1)
        (exp + (bitLen mant : Int) - ((prec : Int) + 1))).1
      ((halfUlpMant mant prec / 2) % 2 == 0)
      (decimalInit mant exp).1 0

/-- The decimal `Text('f', -1)` formats: for a negative precision the exact
decimal of the number rounded by `roundShortest`. -/
def Number.decimal : Number → Decimal
  | .inf neg => .inf neg
  | .fin neg mant exp prec =>
    .fin neg (roundShortest mant exp prec).1 (roundShortest mant exp prec).2

/-- `x.Text('f', -1)` of `math/big`. -/
def Number.text (n : Number) : String := n.decimal.text

/-- `cty.NumberIntVal(int64(n))` for a list index `n`. -/
def Number.ofNat (n : Nat) : Number := .fin false n 0 64

/-- Whether the number is finite (`!x.IsInf()`). -/
def Number.isFinite : Number → Bool
  | .fin _ _ _ _ => true
  | .inf _ => false

/-- The digit a character stands for, if it is one of `0` to `9`. -/
def digitOf? (c : Char) : Option Nat :=
  if 48 ≤ c.toNat ∧ c.toNat ≤ 57 then some (c.toNat - 48) else none

/-- The digits a sequence of digit characters stands for. -/
def digitsOf? : List Char → Option (List Nat)
  | [] => some []
  | c :: cs =>
    match digitOf? c, digitsOf? cs with
    | some d, some ds => some (d :: ds)
    | _, _ => none

/-- Number of zeros at the front of a digit sequence. -/
def leadingZeros : List Nat → Nat
  | 0 :: ds => leadingZeros ds + 1
  | _ => 0

/-- The decimal with integer digits `ip` and fraction digits `fp`, in the
normal form of `Decimal`: the digits from the first to the last non-zero one,
and the position of the decimal point relative to the first. -/
def decimalOf (neg : Bool) (ip fp : List Nat) : Decimal :=
  if (dropTrailingZeros ((ip ++ fp).drop (leadingZeros (ip ++ fp)))).isEmpty then
    .fin neg [] 0
  else
    .fin neg (dropTrailingZeros ((ip ++ fp).drop (leadingZeros (ip ++ fp))))
      ((ip.length : Int) - (leadingZeros (ip ++ fp) : Int))

/-- Splits a text at its first `.`: what is before it, and what is behind it
if there is one. -/
def splitAtDot : List Char → List Char × Option (List Char)
  | [] => ([], none)
  | c :: cs =>
    if c = '.' then ([], some cs) else ((c :: (splitAtDot cs).1), (splitAtDot cs).2)

/-- Reads `digits` or `digits.digits`. -/
def parseUnsigned (neg : Bool) (cs : List Char) : Option Decimal :=
  match splitAtDot cs with
  | (ip, none) =>
    if ip.isEmpty then none else (digitsOf? ip).map fun i => decimalOf neg i []
  | (ip, some fp) =>
    if ip.isEmpty || fp.isEmpty then none
    else
      match digitsOf? ip, digitsOf? fp with
      | some i, some f => some (decimalOf neg i f)
      | _, _ => none

/-- Reading the digits back from a text.  Accepted is a plain decimal only: an
optional `-`, one or more digits, and optionally a `.` followed by one or more
digits; no exponent, no other character.  The result is the decimal these
digits denote. -/
def parseDecimal (s : String) : Option Decimal :=
  match s.data with
  | '-' :: cs => parseUnsigned true cs
  | cs => parseUnsigned false cs

/-! ## Values -/

/-- The Go value boxed in a capsule (`interface{}`): a fragment of the values
`json.Marshal` can be handed, enough to write examples down.  `marshal` never
looks inside. -/
inductive GoValue where
  | str (s : String)
  | int (n : Int)
  | bool (b : Bool)
  | mapStringInt (entries : List (String × Int))
  | nan
  | chan (name : String)
  | nil
  | unknownMark
deriving Repr, DecidableEq, Inhabited

/-- `cty.Value`: a known, non-null value of one of the nine kinds, or the
null value `null t` (`cty.NullVal(t)`) or the unknown value `unknown t`
(`cty.UnknownVal(t)`) of a type `t`; a JSON `null` evaluates to
`null Ty.dynamic`.  `list`, `set` and `map` carry their element type and the
sequence their iterator yields.  Values are without marks. -/
inductive Val where
  | str (s : String)
  | num (n : Number)
  | bool (b : Bool)
  | list (ety : Ty) (elems : List Val)
  | set (ety : Ty) (elems : List Val)
  | map (ety : Ty) (elems : List (String × Val))
  | tuple (elems : List Val)
  | object (attrs : List (String × Val))
  | capsule (name : String) (raw : GoValue)
  | null (t : Ty)
  | unknown (t : Ty)
deriving Repr, Inhabited

mutual
/-- `val.Type()`. -/
def Val.type : Val → Ty
  | .str _ => .string
  | .num _ => .number
  | .bool _ => .bool
  | .list ety _ => .list ety
  | .set ety _ => .set ety
  | .map ety _ => .map ety
  | .tuple elems => .tuple (Val.typeList elems)
  | .object attrs => .object (Val.typeAttrs attrs)
  | .capsule name _ => .capsule name
  | .null t => t
  | .unknown t => t
/-- The types of a sequence of values. -/
def Val.typeList : List Val → List Ty
  | [] => []
  | v :: vs => v.type :: Val.typeList vs
/-- The attribute types of a listing of attribute values. -/
def Val.typeAttrs : List (String × Val) → List (String × Ty)
  | [] => []
  | (k, v) :: rest => (k, v.type) :: Val.typeAttrs rest
end

mutual
/-- A bound on the recursion below a value: one more than the largest
`weight + depth of the type` among its elements. -/
def Val.weight : Val → Nat
  | .list _ elems => Val.weightList elems + 1
  | .set _ elems => Val.weightList elems + 1
  | .map _ elems => Val.weightAttrs elems + 1
  | .tuple elems => Val.weightList elems + 1
  | .object attrs => Val.weightAttrs attrs + 1
  | _ => 0
/-- Largest `weight + depth of the type` in a sequence of values. -/
def Val.weightList : List Val → Nat
  | [] => 0
  | v :: vs => max (v.weight + v.type.depth) (Val.weightList vs)
/-- Largest `weight + depth of the type` in a listing. -/
def Val.weightAttrs : List (String × Val) → Nat
  | [] => 0
  | (_, v) :: rest => max (v.weight + v.type.depth) (Val.weightAttrs rest)
end

/-- `val.AsString()`; `none` is the panic on a value that is no string, or
null, or unknown. -/
def Val.asString : Val → Option String
  | .str s => some s
  | _ => none

/-- `val.AsBigFloat()`; `none` is the panic on a value that is no number, or
null, or unknown. -/
def Val.asBigFloat : Val → Option Number
  | .num n => some n
  | _ => none

/-- `val.True()`, which is `val.Equals(cty.True)` read as a Go bool: `false`
on the null value of type Bool; `none` is the panic on a value that is no
bool, or unknown. -/
def Val.isTrue : Val → Option Bool
  | .bool b => some b
  | .null .bool => some false
  | _ => none

/-- `val.EncapsulatedValue()`, which hands out what the value holds: the nil
interface for a null capsule, the marker of cty for an unknown one; `none`
is the panic on a value whose type is no capsule type. -/
def Val.encapsulatedValue : Val → Option GoValue
  | .capsule _ raw => some raw
  | .null (.capsule _) => some .nil
  | .unknown (.capsule _) => some .unknownMark
  | _ => none

/-- `val.GetAttr(k)`; `none` is the panic on a value that is no object, has
no attribute `k`, or is a null object.  On a value of the dynamic pseudo-type
cty answers with `cty.DynamicVal`, the unknown value of that type, and on an
unknown object with the unknown value of the attribute type. -/
def Val.getAttr : Val → String → Option Val
  | .object attrs, k => lookup k attrs
  | .null t, _ => if t.isDynamic then some (.unknown Ty.dynamic) else none
  | .unknown t, k =>
    if t.isDynamic then some (.unknown Ty.dynamic)
    else
      match t with
      | .object atys => (lookup k atys).map .unknown
      | _ => none
  | _, _ => none

/-- Pairs every element with its index as `cty.NumberIntVal`, from `i` on. -/
def indexed : Nat → List Val → List (Val × Val)
  | _, [] => []
  | i, v :: vs => (.num (Number.ofNat i), v) :: indexed (i + 1) vs

/-- The `(key, value)` pairs of an object in the order cty iterates them:
ascending attribute names. -/
def objectElements (attrs : List (String × Val)) : List String → List (Val × Val)
  | [] => []
  | k :: ks =>
    match lookup k attrs with
    | some v => (.str k, v) :: objectElements attrs ks
    | none => objectElements attrs ks

/-- `val.ElementIterator()` run to its end: the `(key, value)` pairs of
`it.Element()`; `none` is the panic on a value that cannot be iterated, among
them the null and the unknown values.  The
key of a list or tuple element is its index, of a set element the element,
of a map element the key string. -/
def Val.elementIterator : Val → Option (List (Val × Val))
  | .list _ elems => some (indexed 0 elems)
  | .set _ elems => some (elems.map fun v => (v, v))
  | .map _ elems => some (elems.map fun kv => (.str kv.1, kv.2))
  | .tuple elems => some (indexed 0 elems)
  | .object attrs => some (objectElements attrs (sortStrings (attrs.map Prod.fst)))
  | _ => none

/-! ## Paths and results -/

/-- `cty.PathStep`: `cty.IndexStep{Key}` or `cty.GetAttrStep{Name}`. -/
inductive PathStep where
  | index (key : Val)
  | getAttr (name : String)
deriving Repr, Inhabited

/-- `cty.Path`. -/
abbrev Path := List PathStep

/-- `cty.PathError`: a message and the path it was created at
(`path.NewErrorf` copies the path). -/
structure PathError where
  msg : String
  path : Path
deriving Repr, Inhabited

/-- Outcome of a call that writes to a buffer and returns `error`:
`ok b` is a `nil` return with buffer `b`, `error e b` the return of `e` with
the buffer left at `b`, `panic` a Go run-time panic. -/
inductive Res where
  | ok (b : String)
  | error (e : PathError) (b : String)
  | panic
deriving Repr, Inhabited

/-- Continues with `k` on the buffer of a `nil` return; an error or a panic
ends the function (`if err != nil { return err }`). -/
def Res.andThen (r : Res) (k : String → Res) : Res :=
  match r with
  | .ok b => k b
  | .error e b => .error e b
  | .panic => .panic

/-- The result with `b` put in front of the buffer. -/
def Res.prepend (b : String) : Res → Res
  | .ok s => .ok (b ++ s)
  | .error e s => .error e (b ++ s)
  | .panic => .panic

/-- The buffer of a `nil` return. -/
def Res.out : Res → Option String
  | .ok s => some s
  | _ => none

/-- The error of an error return. -/
def Res.err : Res → Option PathError
  | .error e _ => some e
  | _ => none

/-- The result with the path of its error forgotten. -/
def Res.forget : Res → Res
  | .ok s => .ok s
  | .error e s => .error ⟨e.msg, []⟩ s
  | .panic => .panic

/-- `encoding/json`: `json.Marshal` on a Go string and on a boxed Go value,
each returning the bytes or the error text. -/
structure JSON where
  marshalString : String → Except String String
  marshalValue : GoValue → Except String String

/-! ## `marshal` -/

/-- The loop of the list/set branch (lines 227-241) over the pairs the
iterator yields; `elem ev path b` is the recursive call
`marshal(ev, ety, path, b, false, true)`. -/
def listLoop (elem : Val → Path → String → Res) (path : Path) :
    List (Val × Val) → Bool → String → Res
  | [], _, b => .ok b
  | (ek, ev) :: rest, first, b =>
    let b := if !first then b ++ ",\n" else b
    (elem ev (path ++ [.index ek]) b).andThen fun b =>
      listLoop elem path rest false (b ++ "\n")

/-- The loop of the map branch (lines 251-266); `key ek path b` is
`marshal(ek, ek.Type(), path, b, true, false)` and `elem ev path b` is
`marshal(ev, ety, path, b, false, false)`. -/
def mapLoop (key : Val → Path → String → Res) (elem : Val → Path → String → Res)
    (path : Path) : List (Val × Val) → String → Res
  | [], b => .ok b
  | (ek, ev) :: rest, b =>
    (key ek (path ++ [.index ek]) b).andThen fun b =>
      (elem ev (path ++ [.index ek]) (b ++ "=")).andThen fun b =>
        mapLoop key elem path rest b

/-- The loop of the tuple branch (lines 277-291) with its counter `i`;
`etys[i]` out of range is a panic; `elem ev ety path b` is
`marshal(ev, ety, path, b, false, true)`. -/
def tupleLoop (elem : Val → Ty → Path → String → Res) (etys : List Ty) (path : Path) :
    List (Val × Val) → Nat → String → Res
  | [], _, b => .ok b
  | (ek, ev) :: rest, i, b =>
    let b := if i > 0 then b ++ ",\n" else b
    match etys[i]? with
    | none => .panic
    | some ety =>
      (elem ev ety (path ++ [.index ek]) b).andThen fun b =>
        tupleLoop elem etys path rest (i + 1) b

/-- The loop of the object branch (lines 308-324) over the sorted names;
`key k path b` is `marshal(cty.StringVal(k), cty.String, path, b, true, false)`
and `attr av aty path b` is `marshal(av, aty, path, b, false, false)`.  Every
name comes from `atys`, so the lookup `atys[k]` finds it. -/
def objectLoop (key : String → Path → String → Res)
    (attr : Val → Ty → Path → String → Res)
    (atys : List (String × Ty)) (val : Val) (path : Path) :
    List String → String → Res
  | [], b => .ok b
  | k :: rest, b =>
    match lookup k atys with
    | none => .panic
    | some aty =>
      match val.getAttr k with
      | none => .panic
      | some av =>
        (key k (path ++ [.getAttr k]) b).andThen fun b =>
          (attr av aty (path ++ [.getAttr k]) (b ++ "=")).andThen fun b =>
            objectLoop key attr atys val path rest b

/-- The body of `marshal` with a bound on the depth of the recursion;
`marshal` below supplies a bound that is never reached. -/
def marshalAux (J : JSON) :
    Nat → Val → Ty → Path → String → Bool → Bool → Res
  | 0, _, _, _, _, _, _ => .panic
  | fuel + 1, val, t, path, b, isMapTupleObjectKey, isListSetItem =>
    match t with
    | .string =>
      match val.asString with
      | none => .panic
      | some s =>
        (if !isMapTupleObjectKey then
            match J.marshalString s with
            | .error err => Res.error ⟨"not able to serialize value: " ++ err, path⟩ b
            | .ok out => Res.ok (b ++ out)
          else Res.ok (b ++ s)).andThen fun b =>
        .ok (if !isMapTupleObjectKey && !isListSetItem then b ++ "\n" else b)
    | .number =>
      match val.asBigFloat with
      | none => .panic
      | some n => .ok (b ++ n.text ++ "\n")
    | .bool =>
      match val.isTrue with
      | none => .panic
      | some v => .ok ((if v then b ++ "true" else b ++ "false") ++ "\n")
    | .unsupported true name =>
      .error ⟨"value has unsupported primitive type: " ++ name, path⟩ b
    | .list ety | .set ety =>
      match val.elementIterator with
      | none => .panic
      | some elems =>
        (listLoop (fun ev p b => marshalAux J fuel ev ety p b false true)
            path elems true (b ++ "[" ++ "\n")).andThen fun b =>
        .ok (b ++ "]" ++ "\n")
    | .map ety =>
      match val.elementIterator with
      | none => .panic
      | some elems =>
        (mapLoop (fun ek p b => marshalAux J fuel ek ek.type p b true false)
            (fun ev p b => marshalAux J fuel ev ety p b false false)
            path elems (b ++ "\x7b" ++ "\n")).andThen fun b =>
        .ok (b ++ "\x7d" ++ "\n")
    | .tuple etys =>
      match val.elementIterator with
      | none => .panic
      | some elems =>
        (tupleLoop (fun ev ety p b => marshalAux J fuel ev ety p b false true)
            etys path elems 0 (b ++ "[" ++ "\n")).andThen fun b =>
        .ok (b ++ "\n" ++ "]" ++ "\n")
    | .object atys =>
      (objectLoop (fun k p b => marshalAux J fuel (.str k) .string p b true false)
          (fun av aty p b => marshalAux J fuel av aty p b false false)
          atys val path (sortStrings (atys.map Prod.fst))
          (b ++ "\x7b" ++ "\n")).andThen fun b =>
      .ok (if !isListSetItem then b ++ "\x7d" ++ "\n" else b ++ "\x7d")
    | .capsule _ =>
      match val.encapsulatedValue with
      | none => .panic
      | some rawVal =>
        match J.marshalValue rawVal with
        | .error err => .error ⟨err, path⟩ b
        | .ok jsonVal => .ok (b ++ jsonVal)
    | .unsupported false name =>
      .error ⟨"cannot convert to HCL " ++ name, path⟩ b

/-- `marshal(val, t, path, b, isMapTupleObjectKey, isListSetItem)` of
`src/main.go`, lines 187-341. -/
def marshal (J : JSON) (val : Val) (t : Ty) (path : Path) (b : String)
    (isMapTupleObjectKey isListSetItem : Bool) : Res :=
  marshalAux J (val.weight + t.depth + 1) val t path b isMapTupleObjectKey isListSetItem

/-! ## A reference `encoding/json` -/

/-- Lower-case hexadecimal digit. -/
def hexChar (n : Nat) : Char :=
  if n < 10 then Char.ofNat (48 + n) else Char.ofNat (87 + n)

/-- How `json.Marshal` writes one character of a string: `"` and `\` get a
backslash, backspace, form feed, line feed, carriage return and tab their
letter, the other control characters and `<`, `>`, `&` the form `\u00XX`,
U+2028 and U+2029 the form `\u202X`, every other character itself. -/
def escapeChar (c : Char) : List Char :=
  if c.toNat = 34 ∨ c.toNat = 92 then [Char.ofNat 92, c]
  else if c.toNat = 8 then [Char.ofNat 92, 'b']
  else if c.toNat = 12 then [Char.ofNat 92, 'f']
  else if c.toNat = 10 then [Char.ofNat 92, 'n']
  else if c.toNat = 13 then [Char.ofNat 92, 'r']
  else if c.toNat = 9 then [Char.ofNat 92, 't']
  else if c.toNat < 32 ∨ c.toNat = 60 ∨ c.toNat = 62 ∨ c.toNat = 38 then
    [Char.ofNat 92, 'u', '0', '0', hexChar (c.toNat / 16), hexChar (c.toNat % 16)]
  else if c.toNat = 8232 ∨ c.toNat = 8233 then
    [Char.ofNat 92, 'u', '2', '0', '2', hexChar (c.toNat % 16)]
  else [c]

/-- All characters of a string escaped. -/
def escape : List Char → List Char
  | [] => []
  | c :: cs => escapeChar c ++ escape cs

/-- The JSON string literal `json.Marshal` returns for a Go string. -/
def quote (s : String) : String :=
  String.mk (Char.ofNat 34 :: (escape s.data ++ [Char.ofNat 34]))

/-- Decimal text of an integer. -/
def intText (n : Int) : String :=
  match n with
  | .ofNat m => String.mk ((digitsAux (m + 1) m []).map digitChar)
  | .negSucc m => "-" ++ String.mk ((digitsAux (m + 2) (m + 1) []).map digitChar)

/-- The members of a JSON object, comma separated. -/
def joinMembers : List (String × Int) → String
  | [] => ""
  | [(k, v)] => quote k ++ ":" ++ intText v
  | (k, v) :: rest => quote k ++ ":" ++ intText v ++ "," ++ joinMembers rest

/-- The reference encoder: strings as JSON string literals, a Go
`map[string]int` as an object with its keys in ascending order; the float
`NaN` and channels are rejected. -/
def refJSON : JSON where
  marshalString s := .ok (quote s)
  marshalValue
    | .str s => .ok (quote s)
    | .int n => .ok (intText n)
    | .bool b => .ok (if b then "true" else "false")
    | .mapStringInt entries =>
      .ok ("\x7b" ++ joinMembers
        ((sortStrings (entries.map Prod.fst)).filterMap fun k =>
          (lookup k entries).map fun v => (k, v)) ++ "\x7d")
    | .nan => .error "json: unsupported value: NaN"
    | .chan name => .error ("json: unsupported type: chan " ++ name)
    | .nil => .ok "null"
    | .unknownMark => .ok "\x7b\x7d"

/-! ## `hclconv` -/

/-- The loop of `hclconv` (lines 102-118) over the attribute names with the
content built so far.  Every name comes with what
`body.Attributes[name].Expr.Value(nil)` returns for it: the value, or the
diagnostics.  `none` is a panic; otherwise the pair is the returned string and
the returned error. -/
def hclconvLoop (J : JSON) :
    List (String × Except String Val) → String → Option (String × Option String)
  | [], content => some (content, none)
  | (name, value) :: rest, content =>
    match value with
    | .error hclDiags =>
      some ("", some ("unable to get value of HCL attribute: " ++ hclDiags))
    | .ok attrVal =>
      match marshal J attrVal attrVal.type [] "" false false with
      | .panic => none
      | .error err _ =>
        some ("", some ("error while marshalling JSON value to HCL: " ++ err.msg))
      | .ok b => hclconvLoop J rest (content ++ (name ++ " = " ++ b))

/-- `hclconv` of `src/main.go` from line 95 on, after the file has been parsed
by `hcl` (a failure of the parser returns `""` and an error before).
`attributes` lists the top-level attributes in the order `range attr` yields
their names: the order of a Go map iteration, which the language leaves
open. -/
def hclconv (J : JSON) (attributes : List (String × Except String Val)) :
    Option (String × Option String) :=
  hclconvLoop J attributes ""

/-! ## `jsonconv` -/

/-- What `jsonconv` calls besides the parser: `ctyjson.Marshal` of go-cty on a
value and its type, and `json.Indent` with the indentation of two blanks, each
returning the bytes or the error text. -/
structure JSONLib where
  ctyMarshal : Val → Ty → Except String String
  indent : String → Except String String

/-- The loop of `jsonconv` (lines 153-171) over the attribute names with the
content built so far; `n` is `len(attributeNames)` and `i` the index of the
first name of the list.  The result is the content after the loop, or the
error `jsonconv` returns from inside the loop. -/
def jsonconvLoop (L : JSONLib) (n : Nat) :
    List (String × Except String Val) → Nat → String → Except String String
  | [], _, content => .ok content
  | (name, value) :: rest, i, content =>
    match value with
    | .error hclDiags => .error ("unable to get value of HCL attribute: " ++ hclDiags)
    | .ok attrVal =>
      match L.ctyMarshal attrVal attrVal.type with
      | .error err => .error ("error while marshalling HCL value to JSON: " ++ err)
      | .ok j =>
        jsonconvLoop L n rest (i + 1)
          (if i != n - 1 then content ++ ("\"" ++ name ++ "\":" ++ j) ++ ","
            else content ++ ("\"" ++ name ++ "\":" ++ j))

/-- The text `jsonconv` hands to `json.Indent` (lines 146-173): the content
after the loop and the closing brace, or the error returned before. -/
def jsonconvContent (L : JSONLib) (attributes : List (String × Except String Val)) :
    Except String String :=
  match jsonconvLoop L attributes.length attributes 0 "\x7b" with
  | .error err => .error err
  | .ok content => .ok (content ++ "\x7d")

/-- `jsonconv` of `src/main.go` from line 146 on, after the file has been
parsed by `hcl`; `attributes` as for `hclconv`.  The pair is the returned
string and the returned error. -/
def jsonconv (L : JSONLib) (attributes : List (String × Except String Val)) :
    String × Option String :=
  match jsonconvContent L attributes with
  | .error err => ("", some err)
  | .ok content =>
    match L.indent content with
    | .error err => ("", some ("error while formatting JSON content: " ++ err))
    | .ok out => (out, none)

/-- A stand-in for the two library functions in examples: booleans and
strings encoded as `ctyjson.Marshal` encodes them, every other value rejected,
and an indenter that returns the text as it is. -/
def plainJSONLib : JSONLib where
  ctyMarshal
    | .bool b, _ => .ok (if b then "true" else "false")
    | .str s, _ => .ok (quote s)
    | _, _ => .error "value not covered by the stand-in"
  indent s := .ok s

/-! ## Texts the theorems speak about -/

/-- The text of `name=value` entries written one after the other. -/
def entriesText : List String → List String → String
  | k :: ks, s :: ss => k ++ "=" ++ s ++ entriesText ks ss
  | _, _ => ""

/-- The value `val` of type `t` serializes successfully and `s` is the text
`marshal` writes for it under the two flags. -/
def Emits (J : JSON) (val : Val) (t : Ty) (isMapTupleObjectKey isListSetItem : Bool)
    (s : String) : Prop :=
  marshal J val t [] "" isMapTupleObjectKey isListSetItem = .ok s

/-- What the list/set loop writes for the element texts `texts`: a comma line
in front of every element but the first, a newline behind every element. -/
def listBody : Bool → List String → String
  | _, [] => ""
  | first, s :: rest => (if first then "" else ",\n") ++ s ++ "\n" ++ listBody false rest

/-- What the tuple loop writes for the element texts `texts` from position `i`
on: a comma line in front of every element but the one at position 0. -/
def tupleBody : Nat → List String → String
  | _, [] => ""
  | i, s :: rest => (if i > 0 then ",\n" else "") ++ s ++ tupleBody (i + 1) rest

/-- The steps from a node `(val, t)` down to the first node, in the order
`marshal` visits them, at which an error arises, and the message of that
error.  An error arises at a node whose type is unsupported, at a string
outside key position that `json.Marshal` rejects, and at a capsule whose boxed
value `json.Marshal` rejects.  Below a collection the failing node is found in
the first element that does not emit a text: all elements in front of it do. -/
inductive FailsAt (J : JSON) : Val → Ty → Bool → List PathStep → String → Prop
  | unsupported (val : Val) (isPrimitive : Bool) (name : String) (isKey : Bool) :
    FailsAt J val (.unsupported isPrimitive name) isKey []
      ((if isPrimitive then "value has unsupported primitive type: "
        else "cannot convert to HCL ") ++ name)
  | string (val : Val) (s err : String) :
    val.asString = some s → J.marshalString s = .error err →
    FailsAt J val .string false [] ("not able to serialize value: " ++ err)
  | capsule (val : Val) (name : String) (rawVal : GoValue) (err : String) (isKey : Bool) :
    val.encapsulatedValue = some rawVal → J.marshalValue rawVal = .error err →
    FailsAt J val (.capsule name) isKey [] err
  | list (val : Val) (ety : Ty) (pre post : List (Val × Val)) (ek ev : Val)
      (steps : List PathStep) (msg : String) (isKey : Bool) :
    val.elementIterator = some (pre ++ (ek, ev) :: post) →
    (∀ x ∈ pre, ∃ s, Emits J x.2 ety false true s) →
    FailsAt J ev ety false steps msg →
    FailsAt J val (.list ety) isKey (.index ek :: steps) msg
  | set (val : Val) (ety : Ty) (pre post : List (Val × Val)) (ek ev : Val)
      (steps : List PathStep) (msg : String) (isKey : Bool) :
    val.elementIterator = some (pre ++ (ek, ev) :: post) →
    (∀ x ∈ pre, ∃ s, Emits J x.2 ety false true s) →
    FailsAt J ev ety false steps msg →
    FailsAt J val (.set ety) isKey (.index ek :: steps) msg
  | mapKey (val : Val) (ety : Ty) (pre post : List (Val × Val)) (ek ev : Val)
      (steps : List PathStep) (msg : String) (isKey : Bool) :
    val.elementIterator = some (pre ++ (ek, ev) :: post) →
    (∀ x ∈ pre, (∃ s, Emits J x.1 x.1.type true false s) ∧
      ∃ s, Emits J x.2 ety false false s) →
    FailsAt J ek ek.type true steps msg →
    FailsAt J val (.map ety) isKey (.index ek :: steps) msg
  | mapValue (val : Val) (ety : Ty) (pre post : List (Val × Val)) (ek ev : Val)
      (steps : List PathStep) (msg : String) (isKey : Bool) :
    val.elementIterator = some (pre ++ (ek, ev) :: post) →
    (∀ x ∈ pre, (∃ s, Emits J x.1 x.1.type true false s) ∧
      ∃ s, Emits J x.2 ety false false s) →
    (∃ s, Emits J ek ek.type true false s) →
    FailsAt J ev ety false steps msg →
    FailsAt J val (.map ety) isKey (.index ek :: steps) msg
  | tuple (val : Val) (etys : List Ty) (pre post : List (Val × Val)) (ek ev : Val) (ety : Ty)
      (steps : List PathStep) (msg : String) (isKey : Bool) :
    val.elementIterator = some (pre ++ (ek, ev) :: post) →
    (∀ j (h : j < pre.length), ∃ t s, etys[j]? = some t ∧
      Emits J (pre.get ⟨j, h⟩).2 t false true s) →
    etys[pre.length]? = some ety →
    FailsAt J ev ety false steps msg →
    FailsAt J val (.tuple etys) isKey (.index ek :: steps) msg
  | object (val : Val) (atys : List (String × Ty)) (pre post : List String) (k : String)
      (av : Val) (aty : Ty) (steps : List PathStep) (msg : String) (isKey : Bool) :
    sortStrings (atys.map Prod.fst) = pre ++ k :: post →
    (∀ k' ∈ pre, ∃ av' aty' s, val.getAttr k' = some av' ∧ lookup k' atys = some aty' ∧
      Emits J av' aty' false false s) →
    val.getAttr k = some av → lookup k atys = some aty →
    FailsAt J av aty false steps msg →
    FailsAt J val (.object atys) isKey (.getAttr k :: steps) msg

/-! ## Values that fit their type -/

mutual
/-- Types built from String, Bool, list, set, tuple and object only: no
Number, no map, no capsule, nothing unsupported. -/
def Ty.plain : Ty → Bool
  | .string => true
  | .bool => true
  | .list e => e.plain
  | .set e => e.plain
  | .tuple es => Ty.plainList es
  | .object as => Ty.plainAttrs as
  | _ => false
/-- All types of a sequence are plain. -/
def Ty.plainList : List Ty → Bool
  | [] => true
  | t :: ts => t.plain && Ty.plainList ts
/-- All attribute types of a listing are plain. -/
def Ty.plainAttrs : List (String × Ty) → Bool
  | [] => true
  | (_, t) :: ts => t.plain && Ty.plainAttrs ts
end

mutual
/-- A value that is known and not null, and neither are the values in it,
with the invariants cty keeps for such a value: the elements of a list, set
or map have the element type, and the attribute names of an object and the
keys of a map are pairwise different. -/
def Val.WF : Val → Prop
  | .null _ => False
  | .unknown _ => False
  | .list ety elems => Val.WFElems ety elems
  | .set ety elems => Val.WFElems ety elems
  | .map ety elems => (elems.map Prod.fst).Nodup ∧ Val.WFEntries ety elems
  | .tuple elems => Val.WFAll elems
  | .object attrs => (attrs.map Prod.fst).Nodup ∧ Val.WFAttrs attrs
  | _ => True
/-- Every element has the type `ety` and is well formed. -/
def Val.WFElems (ety : Ty) : List Val → Prop
  | [] => True
  | v :: vs => v.type = ety ∧ v.WF ∧ Val.WFElems ety vs
/-- Every element is well formed. -/
def Val.WFAll : List Val → Prop
  | [] => True
  | v :: vs => v.WF ∧ Val.WFAll vs
/-- Every entry value has the type `ety` and is well formed. -/
def Val.WFEntries (ety : Ty) : List (String × Val) → Prop
  | [] => True
  | (_, v) :: rest => v.type = ety ∧ v.WF ∧ Val.WFEntries ety rest
/-- Every attribute value is well formed. -/
def Val.WFAttrs : List (String × Val) → Prop
  | [] => True
  | (_, v) :: rest => v.WF ∧ Val.WFAttrs rest
end

/-- What is used of the JSON string literals `json.Marshal` returns: a
literal starts with a double quote, and it ends at its closing quote, so that
a text starts with the literal of at most one string. -/
structure JSON.Delimited (J : JSON) : Prop where
  head : ∀ s out, J.marshalString s = .ok out → ∃ rest, out.data = Char.ofNat 34 :: rest
  inj : ∀ s₁ s₂ o₁ o₂ (x y : List Char), J.marshalString s₁ = .ok o₁ →
    J.marshalString s₂ = .ok o₂ → o₁.data ++ x = o₂.data ++ y → s₁ = s₂

/-- The tuple loop as the arity precondition lets one read it: over the
pairs of the `i`-th element and the `i`-th declared type, with no lookup that
could be out of range; `elem ev ety path b` is
`marshal(ev, ety, path, b, false, true)`, called with the index step of the
position as the last step of the path. -/
def pairLoop (elem : Val → Ty → Path → String → Res) (path : Path) :
    List (Val × Ty) → Nat → String → Res
  | [], _, b => .ok b
  | (ev, ety) :: rest, i, b =>
    (elem ev ety (path ++ [.index (.num (Number.ofNat i))])
        (if i > 0 then b ++ ",\n" else b)).andThen fun b =>
      pairLoop elem path rest (i + 1) b

/-- The value is structurally compatible with the type: a string with String,
a number with Number, a bool with Bool, a list, set or map whose elements are
compatible with the element type, a tuple with as many elements as the tuple
type declares, each compatible with the type at its position, and an object
that has a compatible attribute for every attribute the object type
declares. -/
inductive Fits : Val → Ty → Prop
  | str (s : String) : Fits (.str s) .string
  | num (n : Number) : Fits (.num n) .number
  | bool (v : Bool) : Fits (.bool v) .bool
  | list (ety ety' : Ty) (elems : List Val) :
    (∀ x, x ∈ elems → Fits x ety) → Fits (.list ety' elems) (.list ety)
  | set (ety ety' : Ty) (elems : List Val) :
    (∀ x, x ∈ elems → Fits x ety) → Fits (.set ety' elems) (.set ety)
  | map (ety ety' : Ty) (elems : List (String × Val)) :
    (∀ kv, kv ∈ elems → Fits kv.2 ety) → Fits (.map ety' elems) (.map ety)
  | tuple (elems : List Val) (etys : List Ty) :
    elems.length = etys.length →
    (∀ p, p ∈ elems.zip etys → Fits p.1 p.2) → Fits (.tuple elems) (.tuple etys)
  | object (attrs : List (String × Val)) (atys : List (String × Ty)) :
    (∀ k aty, lookup k atys = some aty → (lookup k attrs).isSome = true) →
    (∀ k aty av, lookup k atys = some aty → lookup k attrs = some av → Fits av aty) →
    Fits (.object attrs) (.object atys)

mutual
/-- The type tree is built from String, Number, Bool, list, set, map, tuple
and object only: no capsule, nothing unsupported. -/
def Ty.supported : Ty → Bool
  | .string => true
  | .number => true
  | .bool => true
  | .list e => e.supported
  | .set e => e.supported
  | .map e => e.supported
  | .tuple es => Ty.supportedList es
  | .object as => Ty.supportedAttrs as
  | _ => false
/-- All types of a sequence are supported. -/
def Ty.supportedList : List Ty → Bool
  | [] => true
  | t :: ts => t.supported && Ty.supportedList ts
/-- All attribute types of a listing are supported. -/
def Ty.supportedAttrs : List (String × Ty) → Bool
  | [] => true
  | (_, t) :: ts => t.supported && Ty.supportedAttrs ts
end

mutual
/-- The type tree contains no capsule type. -/
def Ty.noCapsule : Ty → Bool
  | .capsule _ => false
  | .list e => e.noCapsule
  | .set e => e.noCapsule
  | .map e => e.noCapsule
  | .tuple es => Ty.noCapsuleList es
  | .object as => Ty.noCapsuleAttrs as
  | _ => true
/-- No type of the sequence contains a capsule type. -/
def Ty.noCapsuleList : List Ty → Bool
  | [] => true
  | t :: ts => t.noCapsule && Ty.noCapsuleList ts
/-- No attribute type of the listing contains a capsule type. -/
def Ty.noCapsuleAttrs : List (String × Ty) → Bool
  | [] => true
  | (_, t) :: ts => t.noCapsule && Ty.noCapsuleAttrs ts
end

/-- The text of top-level lines `name = value` written one after the other. -/
def linesText : List String → List String → String
  | name :: names, s :: ss => (name ++ " = " ++ s) ++ linesText names ss
  | _, _ => ""

/-- The text ends with a newline. -/
def EndsWithNewline (s : String) : Prop := s.data.getLast? = some '\n'

/-! ## The recursion bound of `marshal` is never reached -/

theorem Res.andThen_ok (b : String) (k : String → Res) : (Res.ok b).andThen k = k b := rfl

theorem Res.andThen_error (e : PathError) (b : String) (k : String → Res) :
    (Res.error e b).andThen k = .error e b := rfl

theorem Res.andThen_panic (k : String → Res) : Res.panic.andThen k = .panic := rfl

theorem Res.andThen_congr (r : Res) (k₁ k₂ : String → Res) (h : ∀ b, k₁ b = k₂ b) :
    r.andThen k₁ = r.andThen k₂ := by
  cases r <;> simp [Res.andThen, h]

theorem lookup_mem {α : Type} {k : String} {v : α} :
    ∀ {l : List (String × α)}, lookup k l = some v → (k, v) ∈ l
  | [], h => by simp [lookup] at h
  | (k', v') :: rest, h => by
    unfold lookup at h
    split at h
    · rename_i hk
      cases h
      subst hk
      exact List.mem_cons_self _ _
    · exact List.mem_cons_of_mem _ (lookup_mem h)

theorem Ty.depth_le_depthList {t : Ty} : ∀ {ts : List Ty}, t ∈ ts → t.depth ≤ Ty.depthList ts
  | [], h => by cases h
  | t' :: ts, h => by
    rw [Ty.depthList]
    rcases List.mem_cons.1 h with rfl | h
    · exact le_max_left _ _
    · exact le_trans (Ty.depth_le_depthList h) (le_max_right _ _)

theorem Ty.depth_le_depthAttrs {k : String} {t : Ty} :
    ∀ {ts : List (String × Ty)}, (k, t) ∈ ts → t.depth ≤ Ty.depthAttrs ts
  | [], h => by cases h
  | (k', t') :: ts, h => by
    rw [Ty.depthAttrs]
    rcases List.mem_cons.1 h with h | h
    · cases h
      exact le_max_left _ _
    · exact le_trans (Ty.depth_le_depthAttrs h) (le_max_right _ _)

theorem Val.le_weightList {v : Val} :
    ∀ {vs : List Val}, v ∈ vs → v.weight + v.type.depth ≤ Val.weightList vs
  | [], h => by cases h
  | v' :: vs, h => by
    rw [Val.weightList]
    rcases List.mem_cons.1 h with rfl | h
    · exact le_max_left _ _
    · exact le_trans (Val.le_weightList h) (le_max_right _ _)

theorem Val.le_weightAttrs {k : String} {v : Val} :
    ∀ {vs : List (String × Val)}, (k, v) ∈ vs → v.weight + v.type.depth ≤ Val.weightAttrs vs
  | [], h => by cases h
  | (k', v') :: vs, h => by
    rw [Val.weightAttrs]
    rcases List.mem_cons.1 h with h | h
    · cases h
      exact le_max_left _ _
    · exact le_trans (Val.le_weightAttrs h) (le_max_right _ _)

theorem mem_indexed {ek ev : Val} :
    ∀ {vs : List Val} {i : Nat}, (ek, ev) ∈ indexed i vs → ev ∈ vs ∧ ∃ j, ek = .num (Number.ofNat j)
  | [], _, h => by simp [indexed] at h
  | v :: vs, i, h => by
    rw [indexed] at h
    rcases List.mem_cons.1 h with h | h
    · cases h
      exact ⟨List.mem_cons_self _ _, i, rfl⟩
    · obtain ⟨h₁, h₂⟩ := mem_indexed h
      exact ⟨List.mem_cons_of_mem _ h₁, h₂⟩

theorem mem_objectElements {attrs : List (String × Val)} {ek ev : Val} :
    ∀ {ks : List String}, (ek, ev) ∈ objectElements attrs ks →
      ∃ k, ek = .str k ∧ (k, ev) ∈ attrs
  | [], h => by simp [objectElements] at h
  | k :: ks, h => by
    rw [objectElements] at h
    split at h
    · rename_i v hv
      rcases List.mem_cons.1 h with h | h
      · cases h
        exact ⟨k, rfl, lookup_mem hv⟩
      · exact mem_objectElements h
    · exact mem_objectElements h

/-- Every pair the iterator yields lies strictly below the value. -/
theorem Val.elementIterator_lt {val : Val} {elems : List (Val × Val)}
    (h : val.elementIterator = some elems) {ek ev : Val} (hm : (ek, ev) ∈ elems) :
    ev.weight + ev.type.depth < val.weight ∧ ek.weight + ek.type.depth < val.weight := by
  cases val with
  | list ety vs =>
    simp only [Val.elementIterator, Option.some.injEq] at h
    subst h
    obtain ⟨h₁, j, rfl⟩ := mem_indexed hm
    have := Val.le_weightList h₁
    simp only [Val.weight, Val.type, Ty.depth]
    omega
  | tuple vs =>
    simp only [Val.elementIterator, Option.some.injEq] at h
    subst h
    obtain ⟨h₁, j, rfl⟩ := mem_indexed hm
    have := Val.le_weightList h₁
    simp only [Val.weight, Val.type, Ty.depth]
    omega
  | set ety vs =>
    simp only [Val.elementIterator, Option.some.injEq] at h
    subst h
    obtain ⟨v, hv, hEq⟩ := List.mem_map.1 hm
    cases hEq
    have := Val.le_weightList hv
    simp only [Val.weight]
    omega
  | map ety vs =>
    simp only [Val.elementIterator, Option.some.injEq] at h
    subst h
    obtain ⟨⟨k, v⟩, hv, hEq⟩ := List.mem_map.1 hm
    cases hEq
    have := Val.le_weightAttrs hv
    simp only [Val.weight, Val.type, Ty.depth]
    omega
  | object attrs =>
    simp only [Val.elementIterator, Option.some.injEq] at h
    subst h
    obtain ⟨k, rfl, hv⟩ := mem_objectElements hm
    have := Val.le_weightAttrs hv
    simp only [Val.weight, Val.type, Ty.depth]
    omega
  | str _ => simp [Val.elementIterator] at h
  | num _ => simp [Val.elementIterator] at h
  | bool _ => simp [Val.elementIterator] at h
  | capsule _ _ => simp [Val.elementIterator] at h
  | null _ => simp [Val.elementIterator] at h
  | unknown _ => simp [Val.elementIterator] at h

theorem Val.getAttr_le {val av : Val} {k : String} (h : val.getAttr k = some av) :
    av.weight ≤ val.weight := by
  cases val with
  | object attrs =>
    simp only [Val.getAttr] at h
    have := Val.le_weightAttrs (lookup_mem h)
    simp only [Val.weight]
    omega
  | null t =>
    simp only [Val.getAttr] at h
    split at h
    · cases h
      exact le_refl _
    · cases h
  | unknown t =>
    simp only [Val.getAttr] at h
    split at h
    · cases h
      exact le_refl _
    · split at h
      · cases hl : lookup k ‹List (String × Ty)› with
        | none => rw [hl] at h; cases h
        | some aty =>
          rw [hl] at h
          cases h
          exact le_refl _
      · cases h
  | str _ => simp [Val.getAttr] at h
  | num _ => simp [Val.getAttr] at h
  | bool _ => simp [Val.getAttr] at h
  | capsule _ _ => simp [Val.getAttr] at h
  | list _ _ => simp [Val.getAttr] at h
  | set _ _ => simp [Val.getAttr] at h
  | map _ _ => simp [Val.getAttr] at h
  | tuple _ => simp [Val.getAttr] at h

theorem listLoop_congr {f g : Val → Path → String → Res} (path : Path) :
    ∀ (elems : List (Val × Val)) (first : Bool) (b : String),
      (∀ ek ev, (ek, ev) ∈ elems → ∀ p b, f ev p b = g ev p b) →
      listLoop f path elems first b = listLoop g path elems first b
  | [], _, _, _ => rfl
  | (ek, ev) :: rest, first, b, h => by
    simp only [listLoop]
    rw [h ek ev (List.mem_cons_self _ _)]
    exact Res.andThen_congr _ _ _ fun b =>
      listLoop_congr path rest false _ fun ek ev hm => h ek ev (List.mem_cons_of_mem _ hm)

theorem mapLoop_congr {k₁ k₂ f g : Val → Path → String → Res} (path : Path) :
    ∀ (elems : List (Val × Val)) (b : String),
      (∀ ek ev, (ek, ev) ∈ elems → ∀ p b, k₁ ek p b = k₂ ek p b ∧ f ev p b = g ev p b) →
      mapLoop k₁ f path elems b = mapLoop k₂ g path elems b
  | [], _, _ => rfl
  | (ek, ev) :: rest, b, h => by
    simp only [mapLoop]
    rw [(h ek ev (List.mem_cons_self _ _) _ _).1]
    refine Res.andThen_congr _ _ _ fun b => ?_
    rw [(h ek ev (List.mem_cons_self _ _) _ _).2]
    exact Res.andThen_congr _ _ _ fun b =>
      mapLoop_congr path rest _ fun ek ev hm => h ek ev (List.mem_cons_of_mem _ hm)

theorem tupleLoop_congr {f g : Val → Ty → Path → String → Res} (etys : List Ty)
    (path : Path) :
    ∀ (elems : List (Val × Val)) (i : Nat) (b : String),
      (∀ ek ev, (ek, ev) ∈ elems → ∀ ety, ety ∈ etys → ∀ p b, f ev ety p b = g ev ety p b) →
      tupleLoop f etys path elems i b = tupleLoop g etys path elems i b
  | [], _, _, _ => rfl
  | (ek, ev) :: rest, i, b, h => by
    simp only [tupleLoop]
    cases hi : etys[i]? with
    | none => rfl
    | some ety =>
      simp only []
      rw [h ek ev (List.mem_cons_self _ _) ety (List.getElem?_mem hi)]
      exact Res.andThen_congr _ _ _ fun b =>
        tupleLoop_congr etys path rest _ _ fun ek ev hm =>
          h ek ev (List.mem_cons_of_mem _ hm)

theorem objectLoop_congr {k₁ k₂ : String → Path → String → Res}
    {f g : Val → Ty → Path → String → Res} (atys : List (String × Ty)) (val : Val)
    (path : Path) (hk : ∀ k p b, k₁ k p b = k₂ k p b)
    (h : ∀ k aty av, lookup k atys = some aty → val.getAttr k = some av →
      ∀ p b, f av aty p b = g av aty p b) :
    ∀ (names : List String) (b : String),
      objectLoop k₁ f atys val path names b = objectLoop k₂ g atys val path names b
  | [], _ => rfl
  | k :: rest, b => by
    simp only [objectLoop]
    cases ha : lookup k atys with
    | none => rfl
    | some aty =>
      cases hv : val.getAttr k with
      | none => rfl
      | some av =>
        simp only []
        rw [hk]
        refine Res.andThen_congr _ _ _ fun b => ?_
        rw [h k aty av ha hv]
        exact Res.andThen_congr _ _ _ fun b => objectLoop_congr atys val path hk h rest b

/-- Any two bounds above `weight + depth` give the same result. -/
theorem marshalAux_fuel (J : JSON) :
    ∀ (n m : Nat) (val : Val) (t : Ty) (path : Path) (b : String) (isKey isItem : Bool),
      val.weight + t.depth < n → val.weight + t.depth < m →
      marshalAux J n val t path b isKey isItem = marshalAux J m val t path b isKey isItem
  | 0, _, _, _, _, _, _, _, hn, _ => absurd hn (Nat.not_lt_zero _)
  | _ + 1, 0, _, _, _, _, _, _, _, hm => absurd hm (Nat.not_lt_zero _)
  | n + 1, m + 1, val, t, path, b, isKey, isItem, hn, hm => by
    cases t with
    | string => rfl
    | number => rfl
    | bool => rfl
    | capsule _ => rfl
    | unsupported p name => cases p <;> rfl
    | list ety =>
      simp only [marshalAux]
      cases he : val.elementIterator with
      | none => rfl
      | some elems =>
        simp only []
        rw [listLoop_congr path elems true _ fun ek ev hmem p b => ?_]
        have := (Val.elementIterator_lt he hmem).1
        simp only [Ty.depth] at hn hm
        exact marshalAux_fuel J n m ev ety p b false true (by omega) (by omega)
    | set ety =>
      simp only [marshalAux]
      cases he : val.elementIterator with
      | none => rfl
      | some elems =>
        simp only []
        rw [listLoop_congr path elems true _ fun ek ev hmem p b => ?_]
        have := (Val.elementIterator_lt he hmem).1
        simp only [Ty.depth] at hn hm
        exact marshalAux_fuel J n m ev ety p b false true (by omega) (by omega)
    | map ety =>
      simp only [marshalAux]
      cases he : val.elementIterator with
      | none => rfl
      | some elems =>
        simp only []
        rw [mapLoop_congr path elems _ fun ek ev hmem p b => ?_]
        have := Val.elementIterator_lt he hmem
        simp only [Ty.depth] at hn hm
        exact ⟨marshalAux_fuel J n m ek ek.type p b true false (by omega) (by omega),
          marshalAux_fuel J n m ev ety p b false false (by omega) (by omega)⟩
    | tuple etys =>
      simp only [marshalAux]
      cases he : val.elementIterator with
      | none => rfl
      | some elems =>
        simp only []
        rw [tupleLoop_congr etys path elems 0 _ fun ek ev hmem ety hety p b => ?_]
        have := (Val.elementIterator_lt he hmem).1
        have := Ty.depth_le_depthList hety
        simp only [Ty.depth] at hn hm
        exact marshalAux_fuel J n m ev ety p b false true (by omega) (by omega)
    | object atys =>
      simp only [marshalAux]
      simp only [Ty.depth] at hn hm
      rw [objectLoop_congr atys val path (fun k p b => ?_) (fun k aty av ha hv p b => ?_)]
      · exact marshalAux_fuel J n m (.str k) .string p b true false
          (by simp only [Val.weight, Ty.depth]; omega) (by simp only [Val.weight, Ty.depth]; omega)
      · have := Val.getAttr_le hv
        have := Ty.depth_le_depthAttrs (lookup_mem ha)
        exact marshalAux_fuel J n m av aty p b false false (by omega) (by omega)

/-! ## The branches of `marshal` -/

theorem marshal_string (J : JSON) (val : Val) (path : Path) (b : String) (isKey isItem : Bool) :
    marshal J val .string path b isKey isItem =
      match val.asString with
      | none => .panic
      | some s =>
        (if !isKey then
            match J.marshalString s with
            | .error err => Res.error ⟨"not able to serialize value: " ++ err, path⟩ b
            | .ok out => Res.ok (b ++ out)
          else Res.ok (b ++ s)).andThen fun b =>
        .ok (if !isKey && !isItem then b ++ "\n" else b) := rfl

theorem marshal_number (J : JSON) (val : Val) (path : Path) (b : String) (isKey isItem : Bool) :
    marshal J val .number path b isKey isItem =
      match val.asBigFloat with
      | none => .panic
      | some n => .ok (b ++ n.text ++ "\n") := rfl

theorem marshal_bool (J : JSON) (val : Val) (path : Path) (b : String) (isKey isItem : Bool) :
    marshal J val .bool path b isKey isItem =
      match val.isTrue with
      | none => .panic
      | some v => .ok ((if v then b ++ "true" else b ++ "false") ++ "\n") := rfl

theorem marshal_unsupported (J : JSON) (val : Val) (isPrimitive : Bool) (name : String)
    (path : Path) (b : String) (isKey isItem : Bool) :
    marshal J val (.unsupported isPrimitive name) path b isKey isItem =
      .error ⟨(if isPrimitive then "value has unsupported primitive type: "
        else "cannot convert to HCL ") ++ name, path⟩ b := by
  cases isPrimitive <;> rfl

theorem marshal_capsule (J : JSON) (val : Val) (name : String) (path : Path) (b : String)
    (isKey isItem : Bool) :
    marshal J val (.capsule name) path b isKey isItem =
      match val.encapsulatedValue with
      | none => .panic
      | some rawVal =>
        match J.marshalValue rawVal with
        | .error err => .error ⟨err, path⟩ b
        | .ok jsonVal => .ok (b ++ jsonVal) := rfl

/-- With a bound above `weight + depth` the bounded body is `marshal`. -/
theorem marshalAux_eq_marshal (J : JSON) (n : Nat) (val : Val) (t : Ty) (path : Path)
    (b : String) (isKey isItem : Bool) (h : val.weight + t.depth < n) :
    marshalAux J n val t path b isKey isItem = marshal J val t path b isKey isItem :=
  marshalAux_fuel J n _ val t path b isKey isItem h (Nat.lt_succ_self _)

theorem marshalAux_list (J : JSON) (n : Nat) (val : Val) (ety : Ty) (path : Path) (b : String)
    (isKey isItem : Bool) :
    marshalAux J (n + 1) val (.list ety) path b isKey isItem =
      match val.elementIterator with
      | none => .panic
      | some elems =>
        (listLoop (fun ev p b => marshalAux J n ev ety p b false true)
            path elems true (b ++ "[" ++ "\n")).andThen fun b =>
        .ok (b ++ "]" ++ "\n") := rfl

theorem marshalAux_set (J : JSON) (n : Nat) (val : Val) (ety : Ty) (path : Path) (b : String)
    (isKey isItem : Bool) :
    marshalAux J (n + 1) val (.set ety) path b isKey isItem =
      match val.elementIterator with
      | none => .panic
      | some elems =>
        (listLoop (fun ev p b => marshalAux J n ev ety p b false true)
            path elems true (b ++ "[" ++ "\n")).andThen fun b =>
        .ok (b ++ "]" ++ "\n") := rfl

theorem marshalAux_map (J : JSON) (n : Nat) (val : Val) (ety : Ty) (path : Path) (b : String)
    (isKey isItem : Bool) :
    marshalAux J (n + 1) val (.map ety) path b isKey isItem =
      match val.elementIterator with
      | none => .panic
      | some elems =>
        (mapLoop (fun ek p b => marshalAux J n ek ek.type p b true false)
            (fun ev p b => marshalAux J n ev ety p b false false)
            path elems (b ++ "\x7b" ++ "\n")).andThen fun b =>
        .ok (b ++ "\x7d" ++ "\n") := rfl

theorem marshalAux_tuple (J : JSON) (n : Nat) (val : Val) (etys : List Ty) (path : Path)
    (b : String) (isKey isItem : Bool) :
    marshalAux J (n + 1) val (.tuple etys) path b isKey isItem =
      match val.elementIterator with
      | none => .panic
      | some elems =>
        (tupleLoop (fun ev ety p b => marshalAux J n ev ety p b false true)
            etys path elems 0 (b ++ "[" ++ "\n")).andThen fun b =>
        .ok (b ++ "\n" ++ "]" ++ "\n") := rfl

theorem marshalAux_object (J : JSON) (n : Nat) (val : Val) (atys : List (String × Ty))
    (path : Path) (b : String) (isKey isItem : Bool) :
    marshalAux J (n + 1) val (.object atys) path b isKey isItem =
      (objectLoop (fun k p b => marshalAux J n (.str k) .string p b true false)
          (fun av aty p b => marshalAux J n av aty p b false false)
          atys val path (sortStrings (atys.map Prod.fst))
          (b ++ "\x7b" ++ "\n")).andThen fun b =>
      .ok (if !isItem then b ++ "\x7d" ++ "\n" else b ++ "\x7d") := rfl

theorem marshal_list (J : JSON) (val : Val) (ety : Ty) (path : Path) (b : String)
    (isKey isItem : Bool) :
    marshal J val (.list ety) path b isKey isItem =
      match val.elementIterator with
      | none => .panic
      | some elems =>
        (listLoop (fun ev p b => marshal J ev ety p b false true)
            path elems true (b ++ "[" ++ "\n")).andThen fun b =>
        .ok (b ++ "]" ++ "\n") := by
  rw [show marshal J val (.list ety) path b isKey isItem =
    marshalAux J ((val.weight + ety.depth + 1) + 1) val (.list ety) path b isKey isItem from rfl,
    marshalAux_list]
  cases he : val.elementIterator with
  | none => rfl
  | some elems =>
    simp only []
    rw [listLoop_congr path elems true _ fun ek ev hmem p b => ?_]
    have := (Val.elementIterator_lt he hmem).1
    exact marshalAux_eq_marshal J _ ev ety p b false true (by omega)

theorem marshal_set (J : JSON) (val : Val) (ety : Ty) (path : Path) (b : String)
    (isKey isItem : Bool) :
    marshal J val (.set ety) path b isKey isItem =
      match val.elementIterator with
      | none => .panic
      | some elems =>
        (listLoop (fun ev p b => marshal J ev ety p b false true)
            path elems true (b ++ "[" ++ "\n")).andThen fun b =>
        .ok (b ++ "]" ++ "\n") := by
  rw [show marshal J val (.set ety) path b isKey isItem =
    marshalAux J ((val.weight + ety.depth + 1) + 1) val (.set ety) path b isKey isItem from rfl,
    marshalAux_set]
  cases he : val.elementIterator with
  | none => rfl
  | some elems =>
    simp only []
    rw [listLoop_congr path elems true _ fun ek ev hmem p b => ?_]
    have := (Val.elementIterator_lt he hmem).1
    exact marshalAux_eq_marshal J _ ev ety p b false true (by omega)

theorem marshal_map (J : JSON) (val : Val) (ety : Ty) (path : Path) (b : String)
    (isKey isItem : Bool) :
    marshal J val (.map ety) path b isKey isItem =
      match val.elementIterator with
      | none => .panic
      | some elems =>
        (mapLoop (fun ek p b => marshal J ek ek.type p b true false)
            (fun ev p b => marshal J ev ety p b false false)
            path elems (b ++ "\x7b" ++ "\n")).andThen fun b =>
        .ok (b ++ "\x7d" ++ "\n") := by
  rw [show marshal J val (.map ety) path b isKey isItem =
    marshalAux J ((val.weight + ety.depth + 1) + 1) val (.map ety) path b isKey isItem from rfl,
    marshalAux_map]
  cases he : val.elementIterator with
  | none => rfl
  | some elems =>
    simp only []
    rw [mapLoop_congr path elems _ fun ek ev hmem p b => ?_]
    have := Val.elementIterator_lt he hmem
    exact ⟨marshalAux_eq_marshal J _ ek ek.type p b true false (by omega),
      marshalAux_eq_marshal J _ ev ety p b false false (by omega)⟩

theorem marshal_tuple (J : JSON) (val : Val) (etys : List Ty) (path : Path) (b : String)
    (isKey isItem : Bool) :
    marshal J val (.tuple etys) path b isKey isItem =
      match val.elementIterator with
      | none => .panic
      | some elems =>
        (tupleLoop (fun ev ety p b => marshal J ev ety p b false true)
            etys path elems 0 (b ++ "[" ++ "\n")).andThen fun b =>
        .ok (b ++ "\n" ++ "]" ++ "\n") := by
  rw [show marshal J val (.tuple etys) path b isKey isItem =
    marshalAux J ((val.weight + Ty.depthList etys + 1) + 1) val (.tuple etys) path b isKey isItem from rfl,
    marshalAux_tuple]
  cases he : val.elementIterator with
  | none => rfl
  | some elems =>
    simp only []
    rw [tupleLoop_congr etys path elems 0 _ fun ek ev hmem ety hety p b => ?_]
    have := (Val.elementIterator_lt he hmem).1
    have := Ty.depth_le_depthList hety
    exact marshalAux_eq_marshal J _ ev ety p b false true (by omega)

theorem marshal_object (J : JSON) (val : Val) (atys : List (String × Ty)) (path : Path)
    (b : String) (isKey isItem : Bool) :
    marshal J val (.object atys) path b isKey isItem =
      (objectLoop (fun k p b => marshal J (.str k) .string p b true false)
          (fun av aty p b => marshal J av aty p b false false)
          atys val path (sortStrings (atys.map Prod.fst))
          (b ++ "\x7b" ++ "\n")).andThen fun b =>
      .ok (if !isItem then b ++ "\x7d" ++ "\n" else b ++ "\x7d") := by
  rw [show marshal J val (.object atys) path b isKey isItem =
    marshalAux J ((val.weight + Ty.depthAttrs atys + 1) + 1) val (.object atys) path b isKey isItem from rfl,
    marshalAux_object]
  rw [objectLoop_congr atys val path (fun k p b => ?_) (fun k aty av ha hv p b => ?_)]
  · exact marshalAux_eq_marshal J _ (.str k) .string p b true false
      (by simp only [Val.weight, Ty.depth]; omega)
  · have := Val.getAttr_le hv
    have := Ty.depth_le_depthAttrs (lookup_mem ha)
    exact marshalAux_eq_marshal J _ av aty p b false false (by omega)

/-- In key position a string is written as it is. -/
theorem marshal_key (J : JSON) (k : String) (path : Path) (b : String) (isItem : Bool) :
    marshal J (.str k) .string path b true isItem = .ok (b ++ k) := rfl

/-! ## The buffer is only appended to -/

theorem Res.prepend_andThen (r : Res) (b : String) (k k' : String → Res)
    (h : ∀ s, k (b ++ s) = (k' s).prepend b) :
    (r.prepend b).andThen k = (r.andThen k').prepend b := by
  cases r <;> simp [Res.prepend, Res.andThen, h]

theorem listLoop_append {f : Val → Path → String → Res} (path : Path)
    (hf : ∀ ev p b c, f ev p (b ++ c) = (f ev p c).prepend b) :
    ∀ (elems : List (Val × Val)) (first : Bool) (b c : String),
      listLoop f path elems first (b ++ c) = (listLoop f path elems first c).prepend b
  | [], _, _, _ => rfl
  | (ek, ev) :: rest, first, b, c => by
    simp only [listLoop]
    have h1 : (if (!first) = true then b ++ c ++ ",\n" else b ++ c)
        = b ++ (if (!first) = true then c ++ ",\n" else c) := by
      split <;> simp [String.append_assoc]
    rw [h1, hf]
    refine Res.prepend_andThen _ _ _ _ fun s => ?_
    rw [String.append_assoc]
    exact listLoop_append path hf rest false b (s ++ "\n")

theorem mapLoop_append {key f : Val → Path → String → Res} (path : Path)
    (hk : ∀ ek p b c, key ek p (b ++ c) = (key ek p c).prepend b)
    (hf : ∀ ev p b c, f ev p (b ++ c) = (f ev p c).prepend b) :
    ∀ (elems : List (Val × Val)) (b c : String),
      mapLoop key f path elems (b ++ c) = (mapLoop key f path elems c).prepend b
  | [], _, _ => rfl
  | (ek, ev) :: rest, b, c => by
    simp only [mapLoop]
    rw [hk]
    refine Res.prepend_andThen _ _ _ _ fun s => ?_
    rw [String.append_assoc, hf]
    exact Res.prepend_andThen _ _ _ _ fun s => mapLoop_append path hk hf rest b s

theorem tupleLoop_append {f : Val → Ty → Path → String → Res} (etys : List Ty) (path : Path)
    (hf : ∀ ev ety p b c, f ev ety p (b ++ c) = (f ev ety p c).prepend b) :
    ∀ (elems : List (Val × Val)) (i : Nat) (b c : String),
      tupleLoop f etys path elems i (b ++ c) = (tupleLoop f etys path elems i c).prepend b
  | [], _, _, _ => rfl
  | (ek, ev) :: rest, i, b, c => by
    simp only [tupleLoop]
    cases etys[i]? with
    | none => rfl
    | some ety =>
      simp only []
      have h1 : (if i > 0 then b ++ c ++ ",\n" else b ++ c)
          = b ++ (if i > 0 then c ++ ",\n" else c) := by
        split <;> simp [String.append_assoc]
      rw [h1, hf]
      exact Res.prepend_andThen _ _ _ _ fun s => tupleLoop_append etys path hf rest (i + 1) b s

theorem objectLoop_append {key : String → Path → String → Res}
    {f : Val → Ty → Path → String → Res} (atys : List (String × Ty)) (val : Val) (path : Path)
    (hk : ∀ k p b c, key k p (b ++ c) = (key k p c).prepend b)
    (hf : ∀ av aty p b c, f av aty p (b ++ c) = (f av aty p c).prepend b) :
    ∀ (names : List String) (b c : String),
      objectLoop key f atys val path names (b ++ c)
        = (objectLoop key f atys val path names c).prepend b
  | [], _, _ => rfl
  | k :: rest, b, c => by
    simp only [objectLoop]
    cases lookup k atys with
    | none => rfl
    | some aty =>
      cases val.getAttr k with
      | none => rfl
      | some av =>
        simp only []
        rw [hk]
        refine Res.prepend_andThen _ _ _ _ fun s => ?_
        rw [String.append_assoc, hf]
        exact Res.prepend_andThen _ _ _ _ fun s => objectLoop_append atys val path hk hf rest b s

theorem marshalAux_append (J : JSON) :
    ∀ (n : Nat) (val : Val) (t : Ty) (path : Path) (b c : String) (isKey isItem : Bool),
      marshalAux J n val t path (b ++ c) isKey isItem
        = (marshalAux J n val t path c isKey isItem).prepend b
  | 0, _, _, _, _, _, _, _ => rfl
  | n + 1, val, t, path, b, c, isKey, isItem => by
    have ih := marshalAux_append J n
    cases t with
    | string =>
      simp only [marshalAux]
      cases val.asString with
      | none => rfl
      | some s =>
        simp only []
        cases isKey with
        | true => simp [Res.andThen, Res.prepend, String.append_assoc]
        | false =>
          cases J.marshalString s with
          | error e => simp [Res.andThen, Res.prepend]
          | ok out =>
            cases isItem <;> simp [Res.andThen, Res.prepend, String.append_assoc]
    | number =>
      simp only [marshalAux]
      cases val.asBigFloat with
      | none => rfl
      | some x => simp [Res.prepend, String.append_assoc]
    | bool =>
      simp only [marshalAux]
      cases val.isTrue with
      | none => rfl
      | some x => cases x <;> simp [Res.prepend, String.append_assoc]
    | capsule _ =>
      simp only [marshalAux]
      cases val.encapsulatedValue with
      | none => rfl
      | some raw =>
        simp only []
        cases J.marshalValue raw <;> simp [Res.prepend, String.append_assoc]
    | unsupported p name => cases p <;> rfl
    | list ety =>
      rw [marshalAux_list, marshalAux_list]
      cases val.elementIterator with
      | none => rfl
      | some elems =>
        simp only []
        rw [show b ++ c ++ "[" ++ "\n" = b ++ (c ++ "[" ++ "\n") by simp [String.append_assoc],
          listLoop_append path (fun ev p b c => ih ev ety p b c false true)]
        exact Res.prepend_andThen _ _ _ _ fun s => by simp [Res.prepend, String.append_assoc]
    | set ety =>
      rw [marshalAux_set, marshalAux_set]
      cases val.elementIterator with
      | none => rfl
      | some elems =>
        simp only []
        rw [show b ++ c ++ "[" ++ "\n" = b ++ (c ++ "[" ++ "\n") by simp [String.append_assoc],
          listLoop_append path (fun ev p b c => ih ev ety p b c false true)]
        exact Res.prepend_andThen _ _ _ _ fun s => by simp [Res.prepend, String.append_assoc]
    | map ety =>
      rw [marshalAux_map, marshalAux_map]
      cases val.elementIterator with
      | none => rfl
      | some elems =>
        simp only []
        rw [show b ++ c ++ "\x7b" ++ "\n" = b ++ (c ++ "\x7b" ++ "\n") by simp [String.append_assoc],
          mapLoop_append path (fun ek p b c => ih ek ek.type p b c true false)
            (fun ev p b c => ih ev ety p b c false false)]
        exact Res.prepend_andThen _ _ _ _ fun s => by simp [Res.prepend, String.append_assoc]
    | tuple etys =>
      rw [marshalAux_tuple, marshalAux_tuple]
      cases val.elementIterator with
      | none => rfl
      | some elems =>
        simp only []
        rw [show b ++ c ++ "[" ++ "\n" = b ++ (c ++ "[" ++ "\n") by simp [String.append_assoc],
          tupleLoop_append etys path (fun ev ety p b c => ih ev ety p b c false true)]
        exact Res.prepend_andThen _ _ _ _ fun s => by simp [Res.prepend, String.append_assoc]
    | object atys =>
      rw [marshalAux_object, marshalAux_object]
      rw [show b ++ c ++ "\x7b" ++ "\n" = b ++ (c ++ "\x7b" ++ "\n") by simp [String.append_assoc],
        objectLoop_append atys val path (fun k p b c => ih (.str k) .string p b c true false)
          (fun av aty p b c => ih av aty p b c false false)]
      exact Res.prepend_andThen _ _ _ _ fun s => by
        cases isItem <;> simp [Res.prepend, String.append_assoc]

/-- What `marshal` does on a buffer holding `b` is what it does on an empty
buffer, written after `b`. -/
theorem marshal_prepend (J : JSON) (val : Val) (t : Ty) (path : Path) (b : String)
    (isKey isItem : Bool) :
    marshal J val t path b isKey isItem = (marshal J val t path "" isKey isItem).prepend b := by
  have := marshalAux_append J (val.weight + t.depth + 1) val t path b "" isKey isItem
  rwa [String.append_empty] at this

/-! ## The path only shows in the error -/

theorem Res.forget_andThen (r r' : Res) (k k' : String → Res) (h : r.forget = r'.forget)
    (hk : ∀ b, (k b).forget = (k' b).forget) :
    (r.andThen k).forget = (r'.andThen k').forget := by
  cases r <;> cases r' <;> simp [Res.forget, Res.andThen] at h ⊢
  · subst h
    exact hk _
  · exact h

theorem listLoop_forget {f : Val → Path → String → Res} (path path' : Path)
    (hf : ∀ ev p p' b, (f ev p b).forget = (f ev p' b).forget) :
    ∀ (elems elems' : List (Val × Val)) (first : Bool) (b : String),
      elems.map Prod.snd = elems'.map Prod.snd →
      (listLoop f path elems first b).forget = (listLoop f path' elems' first b).forget
  | [], [], _, _, _ => rfl
  | [], _ :: _, _, _, h => by simp at h
  | _ :: _, [], _, _, h => by simp at h
  | (ek, ev) :: rest, (ek', ev') :: rest', first, b, h => by
    simp only [List.map_cons, List.cons.injEq] at h
    obtain ⟨h₁, h₂⟩ := h
    subst h₁
    simp only [listLoop]
    exact Res.forget_andThen _ _ _ _ (hf _ _ _ _) fun b =>
      listLoop_forget path path' hf rest rest' false _ h₂

theorem mapLoop_forget {key f : Val → Path → String → Res} (path path' : Path)
    (hk : ∀ ek p p' b, (key ek p b).forget = (key ek p' b).forget)
    (hf : ∀ ev p p' b, (f ev p b).forget = (f ev p' b).forget) :
    ∀ (elems : List (Val × Val)) (b : String),
      (mapLoop key f path elems b).forget = (mapLoop key f path' elems b).forget
  | [], _ => rfl
  | (ek, ev) :: rest, b => by
    simp only [mapLoop]
    exact Res.forget_andThen _ _ _ _ (hk _ _ _ _) fun b =>
      Res.forget_andThen _ _ _ _ (hf _ _ _ _) fun b => mapLoop_forget path path' hk hf rest b

theorem tupleLoop_forget {f : Val → Ty → Path → String → Res} (etys : List Ty)
    (path path' : Path)
    (hf : ∀ ev ety p p' b, (f ev ety p b).forget = (f ev ety p' b).forget) :
    ∀ (elems : List (Val × Val)) (i : Nat) (b : String),
      (tupleLoop f etys path elems i b).forget = (tupleLoop f etys path' elems i b).forget
  | [], _, _ => rfl
  | (ek, ev) :: rest, i, b => by
    simp only [tupleLoop]
    cases etys[i]? with
    | none => rfl
    | some ety =>
      exact Res.forget_andThen _ _ _ _ (hf _ _ _ _ _) fun b =>
        tupleLoop_forget etys path path' hf rest (i + 1) b

theorem objectLoop_forget {key : String → Path → String → Res}
    {f : Val → Ty → Path → String → Res} (atys : List (String × Ty)) (val : Val)
    (path path' : Path)
    (hk : ∀ k p p' b, (key k p b).forget = (key k p' b).forget)
    (hf : ∀ av aty p p' b, (f av aty p b).forget = (f av aty p' b).forget) :
    ∀ (names : List String) (b : String),
      (objectLoop key f atys val path names b).forget
        = (objectLoop key f atys val path' names b).forget
  | [], _ => rfl
  | k :: rest, b => by
    simp only [objectLoop]
    cases lookup k atys with
    | none => rfl
    | some aty =>
      cases val.getAttr k with
      | none => rfl
      | some av =>
        exact Res.forget_andThen _ _ _ _ (hk _ _ _ _) fun b =>
          Res.forget_andThen _ _ _ _ (hf _ _ _ _ _) fun b =>
            objectLoop_forget atys val path path' hk hf rest b

theorem marshalAux_forget (J : JSON) :
    ∀ (n : Nat) (val : Val) (t : Ty) (path path' : Path) (b : String) (isKey isItem : Bool),
      (marshalAux J n val t path b isKey isItem).forget
        = (marshalAux J n val t path' b isKey isItem).forget
  | 0, _, _, _, _, _, _, _ => rfl
  | n + 1, val, t, path, path', b, isKey, isItem => by
    have ih := marshalAux_forget J n
    cases t with
    | string =>
      simp only [marshalAux]
      cases val.asString with
      | none => rfl
      | some s =>
        simp only []
        cases isKey with
        | true => rfl
        | false =>
          cases J.marshalString s with
          | error e => rfl
          | ok out => rfl
    | number => rfl
    | bool => rfl
    | capsule _ =>
      simp only [marshalAux]
      cases val.encapsulatedValue with
      | none => rfl
      | some raw =>
        simp only []
        cases J.marshalValue raw <;> rfl
    | unsupported p name => cases p <;> rfl
    | list ety =>
      rw [marshalAux_list, marshalAux_list]
      cases val.elementIterator with
      | none => rfl
      | some elems =>
        exact Res.forget_andThen _ _ _ _
          (listLoop_forget path path' (fun ev p p' b => ih ev ety p p' b false true)
            elems elems true _ rfl) fun b => rfl
    | set ety =>
      rw [marshalAux_set, marshalAux_set]
      cases val.elementIterator with
      | none => rfl
      | some elems =>
        exact Res.forget_andThen _ _ _ _
          (listLoop_forget path path' (fun ev p p' b => ih ev ety p p' b false true)
            elems elems true _ rfl) fun b => rfl
    | map ety =>
      rw [marshalAux_map, marshalAux_map]
      cases val.elementIterator with
      | none => rfl
      | some elems =>
        exact Res.forget_andThen _ _ _ _
          (mapLoop_forget path path' (fun ek p p' b => ih ek ek.type p p' b true false)
            (fun ev p p' b => ih ev ety p p' b false false) elems _) fun b => rfl
    | tuple etys =>
      rw [marshalAux_tuple, marshalAux_tuple]
      cases val.elementIterator with
      | none => rfl
      | some elems =>
        exact Res.forget_andThen _ _ _ _
          (tupleLoop_forget etys path path' (fun ev ety p p' b => ih ev ety p p' b false true)
            elems 0 _) fun b => rfl
    | object atys =>
      rw [marshalAux_object, marshalAux_object]
      exact Res.forget_andThen _ _ _ _
        (objectLoop_forget atys val path path'
          (fun k p p' b => ih (.str k) .string p p' b true false)
          (fun av aty p p' b => ih av aty p p' b false false) _ _) fun b => rfl

/-- Two calls that differ in the path only differ in the path of the error. -/
theorem marshal_forget (J : JSON) (val : Val) (t : Ty) (path path' : Path) (b : String)
    (isKey isItem : Bool) :
    (marshal J val t path b isKey isItem).forget
      = (marshal J val t path' b isKey isItem).forget :=
  marshalAux_forget J _ val t path path' b isKey isItem

theorem Res.forget_eq_ok {r : Res} {s : String} : r.forget = .ok s ↔ r = .ok s := by
  cases r <;> simp [Res.forget]

/-- A successful call succeeds with the same text from every path. -/
theorem marshal_ok_path (J : JSON) {val : Val} {t : Ty} {path : Path} {b : String}
    {isKey isItem : Bool} {s : String} (h : marshal J val t path b isKey isItem = .ok s)
    (path' : Path) : marshal J val t path' b isKey isItem = .ok s := by
  have := marshal_forget J val t path path' b isKey isItem
  rw [h] at this
  exact Res.forget_eq_ok.1 this.symm

/-! ## `sort.Strings` and lookups under rearrangement -/

theorem Char.toNat_eq {a b : Char} (h : a.toNat = b.toNat) : a = b := by
  rw [← Char.ofNat_toNat a, ← Char.ofNat_toNat b, h]

theorem lexLE_total : ∀ a b : List Char, lexLE a b = true ∨ lexLE b a = true
  | [], _ => Or.inl rfl
  | _ :: _, [] => Or.inr rfl
  | a :: as, b :: bs => by
    simp only [lexLE, Bool.or_eq_true, decide_eq_true_eq, Bool.and_eq_true, beq_iff_eq]
    rcases Nat.lt_trichotomy a.toNat b.toNat with h | h | h
    · exact Or.inl (Or.inl h)
    · rcases lexLE_total as bs with h' | h'
      · exact Or.inl (Or.inr ⟨h, h'⟩)
      · exact Or.inr (Or.inr ⟨h.symm, h'⟩)
    · exact Or.inr (Or.inl h)

theorem lexLE_trans : ∀ a b c : List Char, lexLE a b = true → lexLE b c = true →
    lexLE a c = true
  | [], _, _, _, _ => rfl
  | _ :: _, [], _, h, _ => by simp [lexLE] at h
  | _ :: _, _ :: _, [], _, h => by simp [lexLE] at h
  | a :: as, b :: bs, c :: cs, h₁, h₂ => by
    simp only [lexLE, Bool.or_eq_true, decide_eq_true_eq, Bool.and_eq_true, beq_iff_eq]
      at h₁ h₂ ⊢
    rcases h₁ with h₁ | ⟨h₁, h₁'⟩ <;> rcases h₂ with h₂ | ⟨h₂, h₂'⟩
    · exact Or.inl (by omega)
    · exact Or.inl (by omega)
    · exact Or.inl (by omega)
    · exact Or.inr ⟨by omega, lexLE_trans as bs cs h₁' h₂'⟩

theorem lexLE_antisymm : ∀ a b : List Char, lexLE a b = true → lexLE b a = true → a = b
  | [], [], _, _ => rfl
  | [], _ :: _, _, h => by simp [lexLE] at h
  | _ :: _, [], h, _ => by simp [lexLE] at h
  | a :: as, b :: bs, h₁, h₂ => by
    simp only [lexLE, Bool.or_eq_true, decide_eq_true_eq, Bool.and_eq_true, beq_iff_eq]
      at h₁ h₂
    rcases h₁ with h₁ | ⟨h₁, h₁'⟩ <;> rcases h₂ with h₂ | ⟨h₂, h₂'⟩
    · omega
    · omega
    · omega
    · rw [Char.toNat_eq h₁, lexLE_antisymm as bs h₁' h₂']

theorem strLE_total : IsTotal String strLE := ⟨fun a b => lexLE_total a.data b.data⟩

theorem strLE_trans : IsTrans String strLE :=
  ⟨fun a b c => lexLE_trans a.data b.data c.data⟩

theorem strLE_antisymm : IsAntisymm String strLE :=
  ⟨fun a b h₁ h₂ => String.ext (lexLE_antisymm a.data b.data h₁ h₂)⟩

/-- The sorted names are in ascending order. -/
theorem sortStrings_sorted (names : List String) : (sortStrings names).Sorted strLE := by
  haveI := strLE_total
  haveI := strLE_trans
  exact List.sorted_insertionSort strLE names

/-- The sorted names are the names, rearranged. -/
theorem sortStrings_perm (names : List String) : (sortStrings names).Perm names :=
  List.perm_insertionSort strLE names

/-- Sorting does not depend on the order the names come in. -/
theorem sortStrings_eq_of_perm {l₁ l₂ : List String} (h : l₁.Perm l₂) :
    sortStrings l₁ = sortStrings l₂ := by
  haveI := strLE_antisymm
  exact List.eq_of_perm_of_sorted
    (((sortStrings_perm l₁).trans h).trans (sortStrings_perm l₂).symm)
    (sortStrings_sorted l₁) (sortStrings_sorted l₂)

theorem lookup_eq_some_iff {α : Type} {k : String} {v : α} :
    ∀ {l : List (String × α)}, (l.map Prod.fst).Nodup → (lookup k l = some v ↔ (k, v) ∈ l)
  | [], _ => by simp [lookup]
  | (k', v') :: rest, hnd => by
    simp only [List.map_cons, List.nodup_cons] at hnd
    unfold lookup
    by_cases hk : k' = k
    · subst hk
      simp only [if_true, Option.some.injEq, List.mem_cons, Prod.mk.injEq, true_and]
      constructor
      · intro h
        exact Or.inl h.symm
      · rintro (h | h)
        · exact h.symm
        · exact absurd (List.mem_map_of_mem Prod.fst h) hnd.1
    · simp only [hk, if_false, List.mem_cons, Prod.mk.injEq]
      rw [lookup_eq_some_iff hnd.2]
      constructor
      · exact Or.inr
      · rintro (⟨h, -⟩ | h)
        · exact absurd h.symm hk
        · exact h

/-- A lookup does not depend on the order of a listing without repeated names. -/
theorem lookup_perm {α : Type} {l₁ l₂ : List (String × α)} (h : l₁.Perm l₂)
    (hnd : (l₁.map Prod.fst).Nodup) (k : String) : lookup k l₁ = lookup k l₂ := by
  have hnd₂ : (l₂.map Prod.fst).Nodup := (h.map Prod.fst).nodup_iff.1 hnd
  ext v
  rw [Option.mem_def, Option.mem_def, lookup_eq_some_iff hnd, lookup_eq_some_iff hnd₂, h.mem_iff]

theorem objectLoop_listing {key : String → Path → String → Res}
    {f : Val → Ty → Path → String → Res} {atys₁ atys₂ : List (String × Ty)} (val₁ val₂ : Val)
    (path : Path) (ht : ∀ k, lookup k atys₁ = lookup k atys₂)
    (hv : ∀ k, val₁.getAttr k = val₂.getAttr k) :
    ∀ (names : List String) (b : String),
      objectLoop key f atys₁ val₁ path names b = objectLoop key f atys₂ val₂ path names b
  | [], _ => rfl
  | k :: rest, b => by
    simp only [objectLoop, ht, hv]
    cases lookup k atys₂ with
    | none => rfl
    | some aty =>
      cases val₂.getAttr k with
      | none => rfl
      | some av =>
        exact Res.andThen_congr _ _ _ fun b =>
          Res.andThen_congr _ _ _ fun b => objectLoop_listing val₁ val₂ path ht hv rest b

/-- What a successful run of the object loop has written: for every name, in
the order of `names`, the name, `=`, and the text of the attribute value. -/
theorem objectLoop_ok (J : JSON) (atys : List (String × Ty)) (val : Val) (path : Path) :
    ∀ (names : List String) (b out : String),
      objectLoop (fun k p b => marshal J (.str k) .string p b true false)
          (fun av aty p b => marshal J av aty p b false false) atys val path names b = .ok out →
      ∃ texts : List String,
        List.Forall₂ (fun k s => ∃ av aty, val.getAttr k = some av ∧ lookup k atys = some aty ∧
          marshal J av aty (path ++ [.getAttr k]) "" false false = .ok s) names texts ∧
        out = b ++ entriesText names texts
  | [], b, out, h => by
    simp only [objectLoop, Res.ok.injEq] at h
    exact ⟨[], List.Forall₂.nil, by simp [entriesText, h]⟩
  | k :: rest, b, out, h => by
    simp only [objectLoop] at h
    cases ha : lookup k atys with
    | none => simp [ha] at h
    | some aty =>
      cases hv : val.getAttr k with
      | none => simp [ha, hv] at h
      | some av =>
        simp only [ha, hv, marshal_key, Res.andThen_ok] at h
        rw [marshal_prepend] at h
        cases hs : marshal J av aty (path ++ [.getAttr k]) "" false false with
        | panic => simp [hs, Res.prepend, Res.andThen] at h
        | error e x => simp [hs, Res.prepend, Res.andThen] at h
        | ok s =>
          simp only [hs, Res.prepend, Res.andThen_ok] at h
          obtain ⟨texts, hall, hout⟩ := objectLoop_ok J atys val path rest _ out h
          refine ⟨s :: texts, List.Forall₂.cons ⟨av, aty, hv, ha, hs⟩ hall, ?_⟩
          rw [hout]
          simp [entriesText, String.append_assoc]

/-! ## Objects are written in the order of their sorted names -/

/-- C2. Determinism for Object: two listings of the attribute types and two
listings of the attribute values that are rearrangements of each other give the
same result of `marshal`, byte for byte; and the text of a successful call is
the opening brace, then `name=value` for the attribute names in ascending
order (`names` is sorted and a rearrangement of the attribute names), then the
closing brace. -/
theorem object_deterministic (J : JSON) (attrs₁ attrs₂ : List (String × Val))
    (atys₁ atys₂ : List (String × Ty)) (path : Path) (b : String) (isKey isItem : Bool)
    (hv : attrs₁.Perm attrs₂) (hvn : (attrs₁.map Prod.fst).Nodup)
    (ht : atys₁.Perm atys₂) (htn : (atys₁.map Prod.fst).Nodup) :
    marshal J (.object attrs₁) (.object atys₁) path b isKey isItem
        = marshal J (.object attrs₂) (.object atys₂) path b isKey isItem ∧
      ∀ out, marshal J (.object attrs₁) (.object atys₁) path b isKey isItem = .ok out →
        ∃ names texts : List String,
          names.Sorted strLE ∧ names.Perm (atys₁.map Prod.fst) ∧
          List.Forall₂ (fun k s => ∃ av aty, lookup k attrs₁ = some av ∧
            lookup k atys₁ = some aty ∧
            marshal J av aty (path ++ [.getAttr k]) "" false false = .ok s) names texts ∧
          out = b ++ "\x7b\n" ++ entriesText names texts ++ (if isItem then "\x7d" else "\x7d\n") := by
  constructor
  · rw [marshal_object, marshal_object, sortStrings_eq_of_perm (ht.map Prod.fst),
      objectLoop_listing (.object attrs₁) (.object attrs₂) path (fun k => lookup_perm ht htn k)
        (fun k => lookup_perm hv hvn k)]
  · intro out h
    rw [marshal_object] at h
    cases hl : objectLoop (fun k p b => marshal J (.str k) .string p b true false)
        (fun av aty p b => marshal J av aty p b false false) atys₁ (.object attrs₁) path
        (sortStrings (atys₁.map Prod.fst)) (b ++ "\x7b" ++ "\n") with
    | panic => simp [hl, Res.andThen] at h
    | error e x => simp [hl, Res.andThen] at h
    | ok s =>
      simp only [hl, Res.andThen_ok, Res.ok.injEq] at h
      obtain ⟨texts, hall, hs⟩ := objectLoop_ok J atys₁ (.object attrs₁) path _ _ _ hl
      refine ⟨_, texts, sortStrings_sorted _, sortStrings_perm _, hall, ?_⟩
      subst hs
      rw [← h]
      cases isItem <;> simp [String.append_assoc]

/-- C2, at an object with the attributes `b` and `a` listed in both orders. -/
theorem object_deterministic_witness :
    marshal refJSON (.object [("b", .bool true), ("a", .str "x")])
        (.object [("b", .bool), ("a", .string)]) [] "" false false
      = marshal refJSON (.object [("a", .str "x"), ("b", .bool true)])
        (.object [("a", .string), ("b", .bool)]) [] "" false false :=
  (object_deterministic refJSON [("b", .bool true), ("a", .str "x")]
    [("a", .str "x"), ("b", .bool true)] [("b", .bool), ("a", .string)]
    [("a", .string), ("b", .bool)] [] "" false false
    (List.Perm.swap _ _ _) (by decide) (List.Perm.swap _ _ _) (by decide)).1

/-! ## `hclconv` follows the iteration order of the attribute map -/

/-- C3. The document with the attributes `a = true` and `b = true`: `hclconv`
returns the entries in the order the attribute map was iterated in, so the
two iteration orders return two different strings. -/
theorem hclconv_order_dependent :
    hclconv refJSON [("a", .ok (.bool true)), ("b", .ok (.bool true))]
        = some ("a = true\nb = true\n", none) ∧
      hclconv refJSON [("b", .ok (.bool true)), ("a", .ok (.bool true))]
        = some ("b = true\na = true\n", none) ∧
      hclconv refJSON [("a", .ok (.bool true)), ("b", .ok (.bool true))]
        ≠ hclconv refJSON [("b", .ok (.bool true)), ("a", .ok (.bool true))] := by
  refine ⟨rfl, rfl, ?_⟩
  rw [show hclconv refJSON [("a", .ok (.bool true)), ("b", .ok (.bool true))]
        = some ("a = true\nb = true\n", none) from rfl,
    show hclconv refJSON [("b", .ok (.bool true)), ("a", .ok (.bool true))]
        = some ("b = true\na = true\n", none) from rfl]
  decide

/-! ## The text of a number -/

theorem digitOf?_digitChar : ∀ d, d < 10 → digitOf? (digitChar d) = some d := by decide

theorem digitChar_ne_dot : ∀ d, d < 10 → digitChar d ≠ '.' := by decide

theorem digitChar_ne_minus : ∀ d, d < 10 → digitChar d ≠ '-' := by decide

theorem digitsOf?_map : ∀ ds : List Nat, (∀ d ∈ ds, d < 10) →
    digitsOf? (ds.map digitChar) = some ds
  | [], _ => rfl
  | d :: ds, h => by
    simp only [List.map_cons, digitsOf?,
      digitOf?_digitChar d (h d (List.mem_cons_self _ _)),
      digitsOf?_map ds fun x hx => h x (List.mem_cons_of_mem _ hx)]

theorem splitAtDot_digits : ∀ ds : List Nat, (∀ d ∈ ds, d < 10) →
    splitAtDot (ds.map digitChar) = (ds.map digitChar, none)
  | [], _ => rfl
  | d :: ds, h => by
    simp only [List.map_cons, splitAtDot,
      digitChar_ne_dot d (h d (List.mem_cons_self _ _)), if_false,
      splitAtDot_digits ds fun x hx => h x (List.mem_cons_of_mem _ hx)]

theorem splitAtDot_digits_dot (rest : List Char) : ∀ ds : List Nat, (∀ d ∈ ds, d < 10) →
    splitAtDot (ds.map digitChar ++ '.' :: rest) = (ds.map digitChar, some rest)
  | [], _ => by simp [splitAtDot]
  | d :: ds, h => by
    have ih := splitAtDot_digits_dot rest ds fun x hx => h x (List.mem_cons_of_mem _ hx)
    rw [List.map_cons, List.cons_append, splitAtDot,
      if_neg (digitChar_ne_dot d (h d (List.mem_cons_self _ _))), ih]

theorem leadingZeros_replicate_append (l : List Nat) :
    ∀ j, leadingZeros (List.replicate j 0 ++ l) = j + leadingZeros l
  | 0 => by simp
  | j + 1 => by
    rw [List.replicate_succ, List.cons_append, leadingZeros,
      leadingZeros_replicate_append l j]
    omega

theorem leadingZeros_eq_zero : ∀ l : List Nat, l.head? ≠ some 0 → leadingZeros l = 0
  | [], _ => rfl
  | 0 :: _, h => by simp at h
  | (d + 1) :: _, _ => rfl

theorem dropWhile_zero_replicate_append (l : List Nat) :
    ∀ j, (List.replicate j 0 ++ l).dropWhile (· == 0) = l.dropWhile (· == 0)
  | 0 => by simp
  | j + 1 => by
    simp only [List.replicate_succ, List.cons_append]
    rw [List.dropWhile_cons_of_pos (by simp)]
    exact dropWhile_zero_replicate_append l j

theorem dropWhile_zero_of_head : ∀ l : List Nat, l.head? ≠ some 0 →
    l.dropWhile (· == 0) = l
  | [], _ => rfl
  | 0 :: _, h => by simp at h
  | (d + 1) :: _, _ => by
    rw [List.dropWhile_cons_of_neg (by simp)]

theorem dropTrailingZeros_append_replicate (l : List Nat) (h : l.getLast? ≠ some 0) (j : Nat) :
    dropTrailingZeros (l ++ List.replicate j 0) = l := by
  unfold dropTrailingZeros
  rw [List.reverse_append, List.reverse_replicate, dropWhile_zero_replicate_append,
    dropWhile_zero_of_head _ (by rwa [List.head?_reverse]), List.reverse_reverse]

theorem dropTrailingZeros_of_getLast (l : List Nat) (h : l.getLast? ≠ some 0) :
    dropTrailingZeros l = l := by
  have := dropTrailingZeros_append_replicate l h 0
  simpa using this

/-- What `decimalOf` makes of the digits of a normal decimal with zeros
around them. -/
theorem decimalOf_normal (neg : Bool) (mant ip fp : List Nat) (exp : Int) (j z : Nat)
    (hn : (Decimal.fin neg mant exp).isNormal = true)
    (hd : ip ++ fp = List.replicate z 0 ++ (mant ++ List.replicate j 0))
    (he : mant ≠ [] → (ip.length : Int) - z = exp) :
    decimalOf neg ip fp = .fin neg mant exp := by
  simp only [Decimal.isNormal, Bool.and_eq_true, List.all_eq_true, decide_eq_true_eq,
    bne_iff_ne, ne_eq, Bool.or_eq_true, Bool.not_eq_true', List.isEmpty_eq_true,
    beq_iff_eq] at hn
  obtain ⟨⟨⟨-, hhead⟩, hlast⟩, hzero⟩ := hn
  by_cases hm : mant = []
  · subst hm
    have hexp : exp = 0 := by
      rcases hzero with h | h
      · simp at h
      · exact h
    subst hexp
    have : leadingZeros (ip ++ fp) = z + j := by
      rw [hd, List.nil_append, ← List.replicate_add, ← List.append_nil (List.replicate _ 0),
        leadingZeros_replicate_append]
      rfl
    unfold decimalOf
    rw [this, hd]
    simp [← List.replicate_add, dropTrailingZeros]
  · have hz : leadingZeros (ip ++ fp) = z := by
      rw [hd, leadingZeros_replicate_append, leadingZeros_eq_zero]
      · rfl
      · cases mant with
        | nil => exact absurd rfl hm
        | cons d ds => simpa using hhead
    unfold decimalOf
    rw [hz, hd, List.drop_left' (List.length_replicate _ _),
      dropTrailingZeros_append_replicate mant hlast j]
    simp [hm, he hm]

theorem fraction_of_pos (mant : List Nat) (e : Nat) :
    (List.range (mant.length - e)).map (fun (i : Nat) => decimalAt mant ((e : Int) + (i : Int)))
      = (mant.drop e).map digitChar := by
  apply List.ext_getElem
  · simp
  · intro i h₁ h₂
    simp only [List.length_map, List.length_range] at h₁
    simp only [List.getElem_map, List.getElem_range, List.getElem_drop, decimalAt]
    rw [if_pos ⟨by omega, by omega⟩]
    congr 1
    rw [show ((e : Int) + (i : Int)).toNat = e + i by omega]
    exact List.getD_eq_getElem _ _ (by omega)

theorem fraction_of_nonpos (mant : List Nat) (k : Nat) :
    (List.range (mant.length + k)).map (fun (i : Nat) => decimalAt mant (-(k : Int) + (i : Int)))
      = (List.replicate k 0 ++ mant).map digitChar := by
  apply List.ext_getElem
  · simp
    omega
  · intro i h₁ h₂
    simp only [List.length_map, List.length_range] at h₁
    simp only [List.getElem_map, List.getElem_range, decimalAt]
    by_cases hi : i < k
    · rw [if_neg (by omega), List.getElem_append_left (by simpa using hi)]
      simp [digitChar]
    · rw [if_pos ⟨by omega, by omega⟩, List.getElem_append_right (by simpa using hi)]
      congr 1
      simp only [List.length_replicate]
      rw [show (-(k : Int) + (i : Int)).toNat = i - k by omega]
      exact List.getD_eq_getElem _ _ (by omega)

theorem parseUnsigned_digits (neg : Bool) (ip fp : List Nat) (hip : ∀ d ∈ ip, d < 10)
    (hfp : ∀ d ∈ fp, d < 10) (hne : ip ≠ []) :
    parseUnsigned neg (ip.map digitChar ++ (if fp.isEmpty then [] else '.' :: fp.map digitChar))
      = some (decimalOf neg ip fp) := by
  unfold parseUnsigned
  cases fp with
  | nil =>
    simp only [List.isEmpty_nil, if_true, List.append_nil, splitAtDot_digits ip hip,
      digitsOf?_map ip hip]
    simp [hne]
  | cons d ds =>
    simp only [List.isEmpty_cons, Bool.false_eq_true, if_false,
      splitAtDot_digits_dot _ ip hip, digitsOf?_map ip hip, digitsOf?_map _ hfp]
    simp [hne]

theorem parseDecimal_of_head {s : String} {c : Char} {cs : List Char} (h : s.data = c :: cs)
    (hc : c ≠ '-') : parseDecimal s = parseUnsigned false (c :: cs) := by
  unfold parseDecimal
  rw [h]
  split
  · rename_i heq
    simp only [List.cons.injEq] at heq
    exact absurd heq.1 hc
  · rfl

/-- The printed digits of a finite decimal in normal form: the digits `ip` in
front of the decimal point and `fp` behind it are the mantissa with zeros
around it. -/
theorem fmtF_digits (neg : Bool) (mant : List Nat) (exp : Int)
    (hn : (Decimal.fin neg mant exp).isNormal = true) :
    ∃ ip fp : List Nat, ∃ z j : Nat,
      fmtF ((mant.length : Int) - exp).toNat mant exp
        = ip.map digitChar ++ (if fp.isEmpty then [] else '.' :: fp.map digitChar) ∧
      (∀ d ∈ ip, d < 10) ∧ (∀ d ∈ fp, d < 10) ∧ ip ≠ [] ∧
      ip ++ fp = List.replicate z 0 ++ (mant ++ List.replicate j 0) ∧
      (mant ≠ [] → (ip.length : Int) - z = exp) := by
  have hn' := hn
  simp only [Decimal.isNormal, Bool.and_eq_true, List.all_eq_true, decide_eq_true_eq,
    bne_iff_ne, ne_eq, Bool.or_eq_true, Bool.not_eq_true', List.isEmpty_eq_true,
    beq_iff_eq] at hn'
  obtain ⟨⟨⟨hdig, -⟩, -⟩, hzero⟩ := hn'
  by_cases hpos : exp > 0
  · obtain ⟨e, rfl⟩ : ∃ e : Nat, exp = e := ⟨exp.toNat, by omega⟩
    have he0 : 0 < e := by omega
    have hm : mant ≠ [] := by
      rintro rfl
      rcases hzero with h | h
      · simp at h
      · omega
    refine ⟨mant.take e ++ List.replicate (e - mant.length) 0, mant.drop e, 0,
      e - mant.length, ?_, ?_, ?_, ?_, ?_, ?_⟩
    · unfold fmtF
      rw [if_pos hpos, show ((mant.length : Int) - (e : Int)).toNat = mant.length - e by omega,
        Int.toNat_ofNat, fraction_of_pos]
      congr 1
      · rw [List.map_append, List.map_replicate, List.take_eq_take.2 (by omega : min (min mant.length e) mant.length = min e mant.length), show e - min mant.length e = e - mant.length by omega]
        rfl
      · by_cases hlt : mant.length - e > 0
        · rw [if_pos hlt, if_neg]
          simp only [List.isEmpty_eq_true, List.drop_eq_nil_iff]
          omega
        · rw [if_neg hlt, if_pos]
          simp only [List.isEmpty_eq_true, List.drop_eq_nil_iff]
          omega
    · intro d hd
      rcases List.mem_append.1 hd with h | h
      · exact hdig d (List.mem_of_mem_take h)
      · rw [(List.mem_replicate.1 h).2]
        omega
    · intro d hd
      exact hdig d (List.mem_of_mem_drop hd)
    · intro h
      have := congrArg List.length h
      simp only [List.length_append, List.length_take, List.length_replicate,
        List.length_nil] at this
      have : 0 < mant.length := List.length_pos.2 hm
      omega
    · rw [List.replicate_zero, List.nil_append]
      by_cases hle : mant.length ≤ e
      · rw [List.take_of_length_le hle, List.drop_of_length_le hle, List.append_nil]
      · rw [show e - mant.length = 0 by omega, List.replicate_zero, List.append_nil,
          List.append_nil, List.take_append_drop]
    · intro _
      simp only [List.length_append, List.length_take, List.length_replicate]
      omega
  · obtain ⟨k, rfl⟩ : ∃ k : Nat, exp = -(k : Int) := ⟨(-exp).toNat, by omega⟩
    refine ⟨[0], List.replicate k 0 ++ mant, k + 1, 0, ?_, ?_, ?_, ?_, ?_, ?_⟩
    · unfold fmtF
      rw [if_neg hpos,
        show ((mant.length : Int) - -(k : Int)).toNat = mant.length + k by omega,
        fraction_of_nonpos]
      congr 1
      by_cases hlt : mant.length + k > 0
      · rw [if_pos hlt, if_neg]
        simp only [List.isEmpty_eq_true, List.append_eq_nil, List.replicate_eq_nil_iff]
        rintro ⟨h₁, h₂⟩
        rw [h₂] at hlt
        simp at hlt
        omega
      · rw [if_neg hlt, if_pos]
        simp only [List.isEmpty_eq_true, List.append_eq_nil, List.replicate_eq_nil_iff]
        exact ⟨by omega, List.length_eq_zero.1 (by omega)⟩
    · intro d hd
      rw [List.mem_singleton.1 hd]
      omega
    · intro d hd
      rcases List.mem_append.1 hd with h | h
      · rw [(List.mem_replicate.1 h).2]
        omega
      · exact hdig d h
    · simp
    · rw [List.replicate_succ, List.replicate_zero, List.append_nil]
      rfl
    · intro _
      simp only [List.length_singleton]
      push_cast
      omega

/-- The text of a finite decimal in normal form reads back as that decimal. -/
theorem parseDecimal_text_fin (neg : Bool) (mant : List Nat) (exp : Int)
    (hn : (Decimal.fin neg mant exp).isNormal = true) :
    parseDecimal (Decimal.fin neg mant exp).text = some (.fin neg mant exp) := by
  obtain ⟨ip, fp, z, j, hfmt, hip, hfp, hne, hd, he⟩ := fmtF_digits neg mant exp hn
  have hdec := decimalOf_normal neg mant ip fp exp j z hn hd he
  have hpu := parseUnsigned_digits neg ip fp hip hfp hne
  rw [← hfmt, hdec] at hpu
  cases neg with
  | true =>
    rw [← hpu]
    rfl
  | false =>
    cases ip with
    | nil => exact absurd rfl hne
    | cons d ds =>
      rw [← hpu, hfmt]
      refine parseDecimal_of_head ?_ (digitChar_ne_minus d (hip d (List.mem_cons_self _ _)))
      simp [Decimal.text, hfmt]

/-! ## The digits of the shortest decimal -/

theorem normalDigits_isNormal (neg : Bool) {d : List Nat × Int} (h : NormalDigits d) :
    (Decimal.fin neg d.1 d.2).isNormal = true := by
  obtain ⟨h1, h2, h3, h4⟩ := h
  simp only [Decimal.isNormal, Bool.and_eq_true, List.all_eq_true, decide_eq_true_eq,
    bne_iff_ne, ne_eq, Bool.or_eq_true, Bool.not_eq_true', beq_iff_eq]
  refine ⟨⟨⟨h1, h2⟩, h3⟩, ?_⟩
  cases hd : d.1 with
  | nil => exact Or.inr (h4 hd)
  | cons a l => exact Or.inl rfl

theorem digitsAux_lt : ∀ (fuel n : Nat) (acc : List Nat), (∀ x ∈ acc, x < 10) →
    ∀ x ∈ digitsAux fuel n acc, x < 10
  | 0, _, _, h => h
  | fuel + 1, n, acc, h => by
    rw [digitsAux]
    split
    · intro x hx
      rcases List.mem_cons.1 hx with rfl | hx
      · assumption
      · exact h x hx
    · exact digitsAux_lt fuel (n / 10) _ (by
        intro x hx
        rcases List.mem_cons.1 hx with rfl | hx
        · exact Nat.mod_lt _ (by decide)
        · exact h x hx)

theorem digitsAux_head : ∀ (fuel n : Nat) (acc : List Nat), 0 < n → n < fuel →
    ∃ a l, digitsAux fuel n acc = a :: l ∧ a ≠ 0
  | 0, _, _, _, h => by omega
  | fuel + 1, n, acc, hn, hf => by
    rw [digitsAux]
    split
    · exact ⟨n, acc, rfl, by omega⟩
    · exact digitsAux_head fuel (n / 10) _ (by omega) (by omega)

theorem dropTrailingZeros_initial (ds : List Nat) : dropTrailingZeros ds <+: ds := by
  unfold dropTrailingZeros
  have h := List.dropWhile_suffix (fun x : Nat => x == 0) (l := ds.reverse)
  have := List.reverse_prefix.2 h
  rwa [List.reverse_reverse] at this

theorem dropTrailingZeros_getLast (ds : List Nat) : (dropTrailingZeros ds).getLast? ≠ some 0 := by
  unfold dropTrailingZeros
  rw [List.getLast?_reverse]
  intro h
  have := List.head?_dropWhile_not (fun x : Nat => x == 0) ds.reverse
  rw [h] at this
  simp at this

theorem dropTrailingZeros_cons {a : Nat} (l : List Nat) (ha : a ≠ 0) :
    ∃ l', dropTrailingZeros (a :: l) = a :: l' := by
  have hp := dropTrailingZeros_initial (a :: l)
  cases hd : dropTrailingZeros (a :: l) with
  | nil =>
    exfalso
    unfold dropTrailingZeros at hd
    rw [List.reverse_eq_nil_iff, List.dropWhile_eq_nil_iff] at hd
    have := hd a (by simp)
    simp at this
    exact ha this
  | cons b l' =>
    rw [hd] at hp
    obtain ⟨t, ht⟩ := hp
    simp only [List.cons_append, List.cons.injEq] at ht
    exact ⟨l', by rw [ht.1]⟩

theorem normalDigits_nil : NormalDigits ([], 0) :=
  ⟨by simp, by simp, by simp, fun _ => rfl⟩

/-- Digits below ten that start with a non-zero digit are normal once the
zeros at their end are dropped. -/
theorem normalDigits_drop {a : Nat} {l : List Nat} (e : Int) (ha : a ≠ 0)
    (hl : ∀ x ∈ a :: l, x < 10) : NormalDigits (dropTrailingZeros (a :: l), e) := by
  obtain ⟨l', hl'⟩ := dropTrailingZeros_cons l ha
  refine ⟨fun x hx => hl x ((dropTrailingZeros_initial _).subset hx), ?_,
    dropTrailingZeros_getLast _, ?_⟩
  · simp only [hl', List.head?_cons, ne_eq, Option.some.injEq]
    exact ha
  · intro h
    simp only [hl'] at h
    cases h

theorem mulPow_pos (b : Nat) (hb : 0 < b) : ∀ (k m : Nat), 0 < m → 0 < mulPow b k m
  | 0, _, h => h
  | k + 1, m, h => mulPow_pos b hb k (b * m) (Nat.mul_pos hb h)

theorem digits_normal (n : Nat) (hn : 0 < n) (e : Int) :
    NormalDigits (dropTrailingZeros (digitsAux (n + 1) n []), e) := by
  obtain ⟨a, l, hd, ha⟩ := digitsAux_head (n + 1) n [] hn (Nat.lt_succ_self n)
  have hl := digitsAux_lt (n + 1) n [] (by simp)
  rw [hd] at hl ⊢
  exact normalDigits_drop e ha hl

theorem decimalInit_normal (m : Nat) (shift : Int) : NormalDigits (decimalInit m shift) := by
  unfold decimalInit
  split
  · exact normalDigits_nil
  · rename_i hm
    cases shift with
    | ofNat k => exact digits_normal _ (mulPow_pos 2 (by decide) k m (Nat.pos_of_ne_zero hm)) _
    | negSucc k =>
      exact digits_normal _ (mulPow_pos 5 (by decide) (k + 1) m (Nat.pos_of_ne_zero hm)) _

theorem trim_normal (d : List Nat × Int) (h1 : ∀ x ∈ d.1, x < 10) (h2 : d.1.head? ≠ some 0) :
    NormalDigits (trim d) := by
  unfold trim
  split
  · exact normalDigits_nil
  · rename_i hne
    cases hd : d.1 with
    | nil => simp [hd, dropTrailingZeros] at hne
    | cons a l =>
      rw [hd] at h1 h2
      exact normalDigits_drop d.2 (by simpa using h2) h1

theorem roundDown_normal (n : Nat) (d : List Nat × Int) (h : NormalDigits d) :
    NormalDigits (roundDown n d) := by
  unfold roundDown
  split
  · exact h
  · refine trim_normal _ (fun x hx => h.1 x (List.mem_of_mem_take hx)) ?_
    simp only
    cases hd : d.1 with
    | nil => simp
    | cons a l =>
      cases n with
      | zero => simp
      | succ n =>
        have := h.2.1
        rw [hd] at this
        simpa using this

theorem roundUp_normal (n : Nat) (d : List Nat × Int) (h : NormalDigits d) :
    NormalDigits (roundUp n d) := by
  unfold roundUp
  split
  · exact h
  · split
    · exact ⟨by simp, by simp, by simp, by simp⟩
    · rename_i x rest hx
      have hsuf : x :: rest <:+ (d.1.take n).reverse := by
        rw [← hx]
        exact List.dropWhile_suffix _
      have hpre : (x :: rest).reverse <+: d.1.take n := by
        have := List.reverse_prefix.2 hsuf
        rwa [List.reverse_reverse] at this
      have hpre' : (x :: rest).reverse <+: d.1 := hpre.trans (List.take_prefix _ _)
      have hx9 : x < 9 := by
        have := List.head?_dropWhile_not (fun y : Nat => decide (9 ≤ y)) (d.1.take n).reverse
        rw [hx] at this
        simpa using this
      have hmem : ∀ y ∈ rest, y < 10 := fun y hy =>
        h.1 y (hpre'.subset (by simp [hy]))
      refine ⟨?_, ?_, ?_, ?_⟩
      · intro y hy
        simp only [List.reverse_cons, List.mem_append, List.mem_reverse, List.mem_singleton] at hy
        rcases hy with hy | rfl
        · exact hmem y hy
        · omega
      · simp only [List.reverse_cons]
        cases hr : rest.reverse with
        | nil => simp
        | cons a l =>
          have h0 := h.2.1
          obtain ⟨t, ht⟩ := hpre'
          rw [List.reverse_cons, hr] at ht
          rw [← ht] at h0
          simpa using h0
      · simp [List.reverse_cons]
      · simp [List.reverse_cons]

theorem round_normal (n : Nat) (d : List Nat × Int) (h : NormalDigits d) :
    NormalDigits (round n d) := by
  unfold round
  split
  · exact h
  · split
    · exact roundUp_normal n d h
    · exact roundDown_normal n d h

theorem roundShortestLoop_normal (d : List Nat × Int) (lower upper : List Nat)
    (inclusive : Bool) (h : NormalDigits d) :
    ∀ (rest : List Nat) (i : Nat),
      NormalDigits (roundShortestLoop d lower upper inclusive rest i)
  | [], _ => h
  | m :: rest, i => by
    rw [roundShortestLoop]
    split
    · exact round_normal _ d h
    · split
      · exact roundDown_normal _ d h
      · split
        · exact roundUp_normal _ d h
        · exact roundShortestLoop_normal d lower upper inclusive h rest (i + 1)

theorem roundShortest_normal (mant : Nat) (exp : Int) (prec : Nat) :
    NormalDigits (roundShortest mant exp prec) := by
  unfold roundShortest
  split
  · exact decimalInit_normal mant exp
  · exact roundShortestLoop_normal _ _ _ _ (decimalInit_normal mant exp) _ _

/-- What `roundShortest` returns is the exact decimal it was given, whole or
cut behind at least one digit and rounded down or up. -/
theorem roundShortestLoop_rounding (d : List Nat × Int) (lower upper : List Nat)
    (inclusive : Bool) :
    ∀ (rest : List Nat) (i : Nat), ∃ k,
      roundShortestLoop d lower upper inclusive rest i = d ∨
        roundShortestLoop d lower upper inclusive rest i = roundDown (k + 1) d ∨
        roundShortestLoop d lower upper inclusive rest i = roundUp (k + 1) d
  | [], _ => ⟨0, Or.inl rfl⟩
  | m :: rest, i => by
    rw [roundShortestLoop]
    split
    · refine ⟨i, ?_⟩
      unfold round
      split
      · exact Or.inl rfl
      · split
        · exact Or.inr (Or.inr rfl)
        · exact Or.inr (Or.inl rfl)
    · split
      · exact ⟨i, Or.inr (Or.inl rfl)⟩
      · split
        · exact ⟨i, Or.inr (Or.inr rfl)⟩
        · exact roundShortestLoop_rounding d lower upper inclusive rest (i + 1)

theorem roundShortest_rounding (mant : Nat) (exp : Int) (prec : Nat) :
    ∃ k, roundShortest mant exp prec = decimalInit mant exp ∨
      roundShortest mant exp prec = roundDown (k + 1) (decimalInit mant exp) ∨
      roundShortest mant exp prec = roundUp (k + 1) (decimalInit mant exp) := by
  unfold roundShortest
  split
  · exact ⟨0, Or.inl rfl⟩
  · exact roundShortestLoop_rounding _ _ _ _ _ _

theorem Number.decimal_isNormal (n : Number) : n.decimal.isNormal = true := by
  cases n with
  | inf neg => rfl
  | fin neg mant exp prec => exact normalDigits_isNormal neg (roundShortest_normal mant exp prec)

/-- The text of a finite number read as a plain decimal gives the digits
`roundShortest` has kept, each at its place. -/
theorem Number.parseDecimal_text (n : Number) (hf : n.isFinite = true) :
    parseDecimal n.text = some n.decimal := by
  cases n with
  | inf neg => simp [Number.isFinite] at hf
  | fin neg mant exp prec =>
    exact parseDecimal_text_fin neg _ _
      (normalDigits_isNormal neg (roundShortest_normal mant exp prec))

/-! ## The text of a successful call -/

/-- A value that emits `s` makes `marshal` append `s`, whatever the path and
the buffer. -/
theorem marshal_of_emits (J : JSON) {val : Val} {t : Ty} {isKey isItem : Bool} {s : String}
    (h : Emits J val t isKey isItem s) (path : Path) (b : String) :
    marshal J val t path b isKey isItem = .ok (b ++ s) := by
  rw [marshal_prepend, marshal_ok_path J h path]
  rfl

/-- A successful call appends the text the value emits. -/
theorem emits_of_marshal (J : JSON) {val : Val} {t : Ty} {path : Path} {b out : String}
    {isKey isItem : Bool} (h : marshal J val t path b isKey isItem = .ok out) :
    ∃ s, Emits J val t isKey isItem s ∧ out = b ++ s := by
  rw [marshal_prepend] at h
  cases hs : marshal J val t path "" isKey isItem with
  | panic => simp [hs, Res.prepend] at h
  | error e x => simp [hs, Res.prepend] at h
  | ok s =>
    simp only [hs, Res.prepend, Res.ok.injEq] at h
    exact ⟨s, marshal_ok_path J hs [], h.symm⟩

theorem listLoop_emits (J : JSON) (ety : Ty) (path : Path) :
    ∀ (elems : List (Val × Val)) (texts : List String) (first : Bool) (b : String),
      List.Forall₂ (fun e s => Emits J e.2 ety false true s) elems texts →
      listLoop (fun ev p b => marshal J ev ety p b false true) path elems first b
        = .ok (b ++ listBody first texts)
  | _, _, _, b, .nil => by simp [listLoop, listBody]
  | (ek, ev) :: rest, s :: texts, first, b, .cons h hrest => by
    simp only [listLoop, marshal_of_emits J h, Res.andThen_ok,
      listLoop_emits J ety path rest texts false _ hrest, listBody]
    cases first <;> simp [String.append_assoc]

theorem mapLoop_emits (J : JSON) (ety : Ty) (path : Path) :
    ∀ (entries : List (String × Val)) (texts : List String) (b : String),
      List.Forall₂ (fun kv s => Emits J kv.2 ety false false s) entries texts →
      mapLoop (fun ek p b => marshal J ek ek.type p b true false)
          (fun ev p b => marshal J ev ety p b false false) path
          (entries.map fun kv => (.str kv.1, kv.2)) b
        = .ok (b ++ entriesText (entries.map Prod.fst) texts)
  | _, _, b, .nil => by simp [mapLoop, entriesText]
  | (k, v) :: rest, s :: texts, b, .cons h hrest => by
    simp only [List.map_cons, mapLoop, Val.type, marshal_key, marshal_of_emits J h,
      Res.andThen_ok, mapLoop_emits J ety path rest texts _ hrest, entriesText]
    simp [String.append_assoc]

theorem tupleLoop_emits (J : JSON) (etys : List Ty) (path : Path) :
    ∀ (elems : List (Val × Val)) (texts : List String) (i : Nat) (b : String),
      List.Forall₂ (fun (e : (Val × Val) × Ty) s => Emits J e.1.2 e.2 false true s)
        (elems.zip (etys.drop i)) texts →
      elems.length ≤ (etys.drop i).length →
      tupleLoop (fun ev ety p b => marshal J ev ety p b false true) etys path elems i b
        = .ok (b ++ tupleBody i texts)
  | [], texts, i, b, h, _ => by
    simp only [List.zip_nil_left] at h
    cases h
    simp [tupleLoop, tupleBody]
  | (ek, ev) :: rest, texts, i, b, h, hlen => by
    cases hd : etys.drop i with
    | nil => simp [hd] at hlen
    | cons ety tl =>
      have hi : i < etys.length := by
        by_contra hc
        rw [List.drop_eq_nil_of_le (by omega)] at hd
        cases hd
      have hcons := List.drop_eq_getElem_cons hi
      rw [hd] at hcons
      have hget : etys[i]? = some ety := by
        rw [List.getElem?_eq_getElem hi, (List.cons.inj hcons).1]
      have htl : etys.drop (i + 1) = tl := (List.cons.inj hcons).2.symm
      rw [hd] at h hlen
      simp only [List.zip_cons_cons] at h
      cases h with
      | cons h hrest =>
        rename_i s texts
        simp only [tupleLoop, hget, marshal_of_emits J h, Res.andThen_ok, tupleBody]
        rw [tupleLoop_emits J etys path rest texts (i + 1) _ (by rwa [htl])
          (by rw [htl]; simpa using hlen)]
        by_cases h0 : i > 0 <;> simp [h0, String.append_assoc]

theorem forall₂_indexed {R : Val → String → Prop} :
    ∀ (xs : List Val) (texts : List String) (i : Nat), List.Forall₂ R xs texts →
      List.Forall₂ (fun (e : Val × Val) s => R e.2 s) (indexed i xs) texts
  | _, _, _, .nil => .nil
  | _ :: xs, _ :: texts, i, .cons h hrest => .cons h (forall₂_indexed xs texts (i + 1) hrest)

theorem length_indexed : ∀ (xs : List Val) (i : Nat), (indexed i xs).length = xs.length
  | [], _ => rfl
  | _ :: xs, i => by simp [indexed, length_indexed xs (i + 1)]

theorem intercalate_go (sep : String) : ∀ (rest : List String) (acc x : String),
    String.intercalate.go (acc ++ x) sep rest = acc ++ String.intercalate.go x sep rest
  | [], _, _ => rfl
  | a :: rest, acc, x => by
    simp only [String.intercalate.go]
    rw [String.append_assoc, String.append_assoc, intercalate_go sep rest acc,
      ← String.append_assoc]

theorem intercalate_cons_cons (sep a c : String) (rest : List String) :
    String.intercalate sep (a :: c :: rest) = a ++ sep ++ String.intercalate sep (c :: rest) := by
  simp only [String.intercalate, String.intercalate.go]
  rw [String.append_assoc, intercalate_go, intercalate_go, String.append_assoc]

theorem listBody_false_cons (c : String) (rest : List String) :
    listBody false (c :: rest) = ",\n" ++ listBody true (c :: rest) := by
  simp only [listBody, String.append_assoc, String.empty_append, if_true, Bool.false_eq_true,
    if_false]

/-- The list/set loop writes the element texts, each followed by a newline,
with a comma line between consecutive ones. -/
theorem listBody_eq : ∀ texts : List String,
    listBody true texts = String.intercalate ",\n" (texts.map fun s => s ++ "\n")
  | [] => rfl
  | [s] => by
    simp only [listBody, List.map_cons, List.map_nil, String.intercalate,
      String.intercalate.go, String.append_empty, String.empty_append, if_true]
  | s :: c :: rest => by
    have ih := listBody_eq (c :: rest)
    rw [List.map_cons] at ih
    rw [List.map_cons, List.map_cons, intercalate_cons_cons, ← ih, listBody,
      listBody_false_cons]
    simp only [String.append_assoc, String.empty_append, if_true]

theorem tupleBody_succ : ∀ (texts : List String) (i : Nat),
    tupleBody (i + 1) texts = tupleBody 1 texts
  | [], _ => rfl
  | s :: rest, i => by
    simp only [tupleBody, tupleBody_succ rest (i + 1), tupleBody_succ rest 1]
    simp

/-- The tuple loop writes the element texts with a comma line between
consecutive ones. -/
theorem tupleBody_eq : ∀ texts : List String,
    tupleBody 0 texts = String.intercalate ",\n" texts
  | [] => rfl
  | [s] => by
    simp only [tupleBody, String.intercalate, String.intercalate.go, String.append_empty,
      String.empty_append, Nat.lt_irrefl, if_false, gt_iff_lt]
  | s :: c :: rest => by
    have ih := tupleBody_eq (c :: rest)
    rw [intercalate_cons_cons, ← ih]
    simp only [tupleBody, tupleBody_succ rest 1, Nat.lt_irrefl, if_false, gt_iff_lt,
      Nat.zero_add, Nat.lt_add_one, if_true, String.append_assoc, String.empty_append]

/-! ## Numbers -/

set_option maxRecDepth 100000 in
/-- The number parsed from `123456789012345678901.5` with 512 bits. -/
theorem number_text_parsed :
    (Number.fin false 246913578024691357803 (-1) 512).text = "123456789012345678901.5" := rfl

set_option maxRecDepth 100000 in
/-- The number `cty.NumberFloatVal(0.1)` makes. -/
theorem number_text_float : (Number.fin false 3602879701896397 (-55) 53).text = "0.1" := rfl

set_option maxRecDepth 100000 in
/-- The value of `cty.NumberFloatVal(0.1)` kept with 512 bits. -/
theorem number_text_float_wide :
    (Number.fin false 3602879701896397 (-55) 512).text
      = "0.1000000000000000055511151231257827021181583404541015625" := rfl

/-- C4, as stated, fails at an infinity: `marshal` writes `+Inf`, which is no
plain decimal and does not read back. -/
theorem number_infinity_text :
    marshal refJSON (.num (.inf false)) .number [] "" false false = .ok "+Inf\n" ∧
      parseDecimal (Number.inf false).text = none := by
  constructor
  · rfl
  · decide

/-- C4, amended. For every finite number `marshal` writes `Text('f', -1)` of
the number and a newline, whatever the flags.  That text is a plain decimal
(optional `-`, digits, at most one `.`, no exponent) that holds every digit
of the decimal `math/big` formats.  This decimal is the shortest one
`roundShortest` finds for the number at its precision: the exact decimal of
the value, whole or cut behind at least one digit and rounded down or up, so
not always the exact decimal: the number `cty.NumberFloatVal(0.1)` makes, with 53
bits, is written `0.1` though ten times it is not one, and the same value with
512 bits is written with all its 55 digits.  The number the JSON parser makes
of `123456789012345678901.5`, exact with 512 bits, is written
`123456789012345678901.5`. -/
theorem number_fidelity (J : JSON) (n : Number) (path : Path) (b : String)
    (isKey isItem : Bool) (hf : n.isFinite = true) :
    marshal J (.num n) .number path b isKey isItem = .ok (b ++ n.text ++ "\n") ∧
      parseDecimal n.text = some n.decimal ∧
      (∀ neg mant exp prec, n = .fin neg mant exp prec →
        ∃ k, roundShortest mant exp prec = decimalInit mant exp ∨
          roundShortest mant exp prec = roundDown (k + 1) (decimalInit mant exp) ∨
          roundShortest mant exp prec = roundUp (k + 1) (decimalInit mant exp)) ∧
      (246913578024691357803 * 5 = 1234567890123456789015 ∧
        (Number.fin false 246913578024691357803 (-1) 512).text = "123456789012345678901.5") ∧
      (3602879701896397 * 10 ≠ 2 ^ 55 ∧
        (Number.fin false 3602879701896397 (-55) 53).text = "0.1" ∧
        (Number.fin false 3602879701896397 (-55) 512).text
          = "0.1000000000000000055511151231257827021181583404541015625") := by
  refine ⟨rfl, Number.parseDecimal_text n hf,
    fun neg mant exp prec _ => roundShortest_rounding mant exp prec,
    ⟨by decide, ?_⟩, by decide, ?_, ?_⟩
  · exact number_text_parsed
  · exact number_text_float
  · exact number_text_float_wide

set_option maxRecDepth 100000 in
/-- C4, amended, at the number `cty.NumberFloatVal(12.5)` makes. -/
theorem number_fidelity_witness :
    marshal refJSON (.num (.fin false 25 (-1) 53)) .number [] "" false false
        = .ok ("" ++ "12.5" ++ "\n") ∧
      parseDecimal "12.5" = some (.fin false [1, 2, 5] 2) := by
  have h := number_fidelity refJSON (.fin false 25 (-1) 53) [] "" false false rfl
  have ht : (Number.fin false 25 (-1) 53).text = "12.5" := rfl
  have hd : (Number.fin false 25 (-1) 53).decimal = .fin false [1, 2, 5] 2 := rfl
  rw [ht, hd] at h
  exact ⟨h.1, h.2.1⟩

/-! ## Strings: keys are written raw, values quoted -/

/-- C5. Key quoting: in key position `marshal` writes exactly the characters of
the string, under either setting of the other flag; outside key position it
writes what `json.Marshal` returns for the string, followed by a newline
unless the string is a sequence element; so `Object{"a b": true}` has the key
`a b` right in front of `=`, and the element of `List["a b"]` is `"a b"` in
quotes. -/
theorem key_quoting (J : JSON) (s : String) (path : Path) (b : String) (isItem : Bool) :
    marshal J (.str s) .string path b true isItem = .ok (b ++ s) ∧
      (∀ out, J.marshalString s = .ok out →
        marshal J (.str s) .string path b false isItem
          = .ok (if isItem then b ++ out else b ++ out ++ "\n")) ∧
      marshal refJSON (.object [("a b", .bool true)]) (.object [("a b", .bool)]) [] "" false false
        = .ok "\x7b\na b=true\n\x7d\n" ∧
      marshal refJSON (.list .string [.str "a b"]) (.list .string) [] "" false false
        = .ok "[\n\"a b\"\n]\n" := by
  refine ⟨rfl, ?_, rfl, rfl⟩
  intro out h
  rw [marshal_string]
  simp only [Val.asString, h]
  cases isItem <;> rfl

/-- C5, at the string `a b` and the reference encoder. -/
theorem key_quoting_witness :
    marshal refJSON (.str "a b") .string [] "" true false = .ok "a b" ∧
      marshal refJSON (.str "a b") .string [] "" false true = .ok "\"a b\"" :=
  ⟨(key_quoting refJSON "a b" [] "" false).1,
    (key_quoting refJSON "a b" [] "" true).2.1 "\"a b\"" rfl⟩

/-! ## Lists, sets, maps, tuples, capsules -/

/-- The text of a list whose elements emit the texts `texts`. -/
theorem marshal_list_emits (J : JSON) (ety : Ty) (xs : List Val) (texts : List String)
    (path : Path) (b : String) (isKey isItem : Bool)
    (h : List.Forall₂ (fun x s => Emits J x ety false true s) xs texts) :
    marshal J (.list ety xs) (.list ety) path b isKey isItem
      = .ok (b ++ "[\n" ++ String.intercalate ",\n" (texts.map fun s => s ++ "\n") ++ "]\n") := by
  rw [marshal_list]
  simp only [Val.elementIterator]
  rw [listLoop_emits J ety path _ texts true _ (forall₂_indexed xs texts 0 h), listBody_eq]
  simp only [Res.andThen_ok, String.append_assoc]
  rfl

/-- C8. List/Set emission: when every element emits a text as a sequence
element, a list and a set with that iteration sequence both emit `[` and a
newline, the element texts in iteration order, each followed by a newline and
consecutive ones separated by a comma line, then `]` and a newline; the empty
list emits `[\n]\n`. -/
theorem list_set_emission (J : JSON) (ety : Ty) (xs : List Val) (texts : List String)
    (path : Path) (b : String) (isKey isItem : Bool)
    (h : List.Forall₂ (fun x s => Emits J x ety false true s) xs texts) :
    marshal J (.list ety xs) (.list ety) path b isKey isItem
        = .ok (b ++ "[\n" ++ String.intercalate ",\n" (texts.map fun s => s ++ "\n") ++ "]\n") ∧
      marshal J (.set ety xs) (.set ety) path b isKey isItem
        = marshal J (.list ety xs) (.list ety) path b isKey isItem ∧
      marshal J (.list ety []) (.list ety) path b isKey isItem = .ok (b ++ "[\n]\n") := by
  have hl := marshal_list_emits J ety xs texts path b isKey isItem h
  refine ⟨hl, ?_, ?_⟩
  · rw [hl, marshal_set]
    simp only [Val.elementIterator]
    have hs : List.Forall₂ (fun (e : Val × Val) s => Emits J e.2 ety false true s)
        (xs.map fun v => (v, v)) texts := by
      rw [List.forall₂_map_left_iff]
      exact h
    rw [listLoop_emits J ety path _ texts true _ hs, listBody_eq]
    simp only [Res.andThen_ok, String.append_assoc]
    rfl
  · rw [marshal_list]
    simp only [Val.elementIterator, indexed, listLoop, Res.andThen_ok, String.append_assoc]
    rfl

/-- C8, at the list and the set with the elements `"a"`, `"a"`. -/
theorem list_set_emission_witness :
    marshal refJSON (.set .string [.str "a", .str "a"]) (.set .string) [] "" false false
      = marshal refJSON (.list .string [.str "a", .str "a"]) (.list .string) [] "" false false :=
  (list_set_emission refJSON .string [.str "a", .str "a"] ["\"a\"", "\"a\""] [] "" false false
    (.cons rfl (.cons rfl .nil))).2.1

/-- C9. Map emission: when every value emits a text in the default context, the
map emits `\x7b` and a newline, then for every entry, in the order the iterator
yields them, the raw key, `=` and the text of the value, with nothing between
the entries, then `\x7d` and a newline. -/
theorem map_emission (J : JSON) (ety : Ty) (entries : List (String × Val))
    (texts : List String) (path : Path) (b : String) (isKey isItem : Bool)
    (h : List.Forall₂ (fun kv s => Emits J kv.2 ety false false s) entries texts) :
    marshal J (.map ety entries) (.map ety) path b isKey isItem
      = .ok (b ++ "\x7b\n" ++ entriesText (entries.map Prod.fst) texts ++ "\x7d\n") := by
  rw [marshal_map]
  simp only [Val.elementIterator]
  rw [mapLoop_emits J ety path entries texts _ h]
  simp only [Res.andThen_ok, String.append_assoc]
  rfl

/-- C9, at the map with the entries `b = true`, `a = false` in this order. -/
theorem map_emission_witness :
    marshal refJSON (.map .bool [("b", .bool true), ("a", .bool false)]) (.map .bool) [] ""
        false false
      = .ok ("" ++ "\x7b\n" ++ entriesText ["b", "a"] ["true\n", "false\n"] ++ "\x7d\n") :=
  map_emission refJSON .bool [("b", .bool true), ("a", .bool false)] ["true\n", "false\n"]
    [] "" false false (.cons rfl (.cons rfl .nil))

/-- C10. Capsule passthrough: under both flags and every path, when
`json.Marshal` succeeds on the boxed value `marshal` appends exactly its bytes;
when it fails `marshal` returns an error carrying the path it was given and
leaves the buffer as it was; a capsule boxing `{"k":1}` emits `{"k":1}`. -/
theorem capsule_passthrough (J : JSON) (name : String) (raw : GoValue) (path : Path)
    (b : String) (isKey isItem : Bool) :
    (∀ jsonVal, J.marshalValue raw = .ok jsonVal →
        marshal J (.capsule name raw) (.capsule name) path b isKey isItem = .ok (b ++ jsonVal)) ∧
      (∀ err, J.marshalValue raw = .error err →
        marshal J (.capsule name raw) (.capsule name) path b isKey isItem
          = .error ⟨err, path⟩ b) ∧
      marshal refJSON (.capsule "c" (.mapStringInt [("k", 1)])) (.capsule "c") [] "" false false
        = .ok "\x7b\"k\":1\x7d" := by
  refine ⟨?_, ?_, rfl⟩
  · intro jsonVal h
    rw [marshal_capsule]
    simp only [Val.encapsulatedValue, h]
  · intro err h
    rw [marshal_capsule]
    simp only [Val.encapsulatedValue, h]

/-- C10, at a boxed string that encodes and a boxed channel that does not. -/
theorem capsule_passthrough_witness :
    marshal refJSON (.capsule "c" (.str "v")) (.capsule "c") [] "x" true true = .ok "x\"v\"" ∧
      marshal refJSON (.capsule "c" (.chan "int")) (.capsule "c") [.getAttr "a"] "x" false false
        = .error ⟨"json: unsupported type: chan int", [.getAttr "a"]⟩ "x" :=
  ⟨(capsule_passthrough refJSON "c" (.str "v") [] "x" true true).1 "\"v\"" rfl,
    (capsule_passthrough refJSON "c" (.chan "int") [.getAttr "a"] "x" false false).2.1
      "json: unsupported type: chan int" rfl⟩

/-! ## Tuples against lists -/

theorem forall₂_indexed_zip_replicate (R : Val → Ty → String → Prop) (T : Ty) :
    ∀ (xs : List Val) (texts : List String) (i : Nat),
      List.Forall₂ (fun x s => R x T s) xs texts →
      List.Forall₂ (fun (e : (Val × Val) × Ty) s => R e.1.2 e.2 s)
        ((indexed i xs).zip (List.replicate xs.length T)) texts
  | _, _, _, .nil => .nil
  | _ :: xs, _ :: texts, i, .cons h hrest =>
    .cons h (forall₂_indexed_zip_replicate R T xs texts (i + 1) hrest)

/-- C7, as stated, fails: for the empty sequence, and for a sequence of two
strings, the tuple and the list emit different texts. -/
theorem tuple_list_texts_differ :
    marshal refJSON (.tuple []) (.tuple []) [] "" false false = .ok "[\n\n]\n" ∧
      marshal refJSON (.list .string []) (.list .string) [] "" false false = .ok "[\n]\n" ∧
      marshal refJSON (.tuple [.str "a", .str "b"]) (.tuple [.string, .string]) [] "" false false
        = .ok "[\n\"a\",\n\"b\"\n]\n" ∧
      marshal refJSON (.list .string [.str "a", .str "b"]) (.list .string) [] "" false false
        = .ok "[\n\"a\"\n,\n\"b\"\n]\n" :=
  ⟨rfl, rfl, rfl, rfl⟩

/-- C7, amended. For a sequence of values that all emit a text as sequence
elements of type `T`, the tuple (every position of type `T`) and the list of
`T` emit the same element texts in the same order between `[\n` and `]\n`,
with a comma line between consecutive elements; they differ in newlines only:
the tuple writes one newline in front of the closing bracket, the list one
behind every element. -/
theorem tuple_list_emission (J : JSON) (T : Ty) (xs : List Val) (texts : List String)
    (path : Path) (b : String) (isKey isItem : Bool)
    (h : List.Forall₂ (fun x s => Emits J x T false true s) xs texts) :
    marshal J (.tuple xs) (.tuple (List.replicate xs.length T)) path b isKey isItem
        = .ok (b ++ "[\n" ++ String.intercalate ",\n" texts ++ "\n" ++ "]\n") ∧
      marshal J (.list T xs) (.list T) path b isKey isItem
        = .ok (b ++ "[\n" ++ String.intercalate ",\n" (texts.map fun s => s ++ "\n") ++ "]\n") := by
  constructor
  · have hz := forall₂_indexed_zip_replicate (fun x t s => Emits J x t false true s) T xs texts 0 h
    have hlen : (indexed 0 xs).length ≤ ((List.replicate xs.length T).drop 0).length := by
      rw [List.drop_zero, length_indexed, List.length_replicate]
    rw [marshal_tuple]
    simp only [Val.elementIterator]
    rw [tupleLoop_emits J _ path _ texts 0 _ (by rw [List.drop_zero]; exact hz) hlen,
      tupleBody_eq]
    simp only [Res.andThen_ok, String.append_assoc]
    rfl
  · exact marshal_list_emits J T xs texts path b isKey isItem h

/-- C7, amended, at the sequence `"a"`, `"b"`. -/
theorem tuple_list_emission_witness :
    marshal refJSON (.tuple [.str "a", .str "b"]) (.tuple (List.replicate 2 .string)) [] ""
        false false
      = .ok ("" ++ "[\n" ++ String.intercalate ",\n" ["\"a\"", "\"b\""] ++ "\n" ++ "]\n") :=
  (tuple_list_emission refJSON .string [.str "a", .str "b"] ["\"a\"", "\"b\""] [] "" false false
    (.cons rfl (.cons rfl .nil))).1

/-! ## The path of an error -/

theorem listLoop_error {f : Val → Path → String → Res} (path : Path) {e : PathError}
    {b' : String} :
    ∀ (elems : List (Val × Val)) (first : Bool) (b : String),
      listLoop f path elems first b = .error e b' →
      ∃ pre ek ev post b₀, elems = pre ++ (ek, ev) :: post ∧
        (∀ x ∈ pre, ∃ b₁ s, f x.2 (path ++ [.index x.1]) b₁ = .ok s) ∧
        f ev (path ++ [.index ek]) b₀ = .error e b'
  | [], _, _, h => by simp [listLoop] at h
  | (ek, ev) :: rest, first, b, h => by
    rw [listLoop] at h
    generalize (if (!first) = true then b ++ ",\n" else b) = b₂ at h
    cases hr : f ev (path ++ [.index ek]) b₂ with
    | panic =>
      rw [hr] at h
      cases h
    | error e₁ b₁ =>
      rw [hr] at h
      cases h
      exact ⟨[], ek, ev, rest, _, rfl, by simp, hr⟩
    | ok s =>
      rw [hr, Res.andThen_ok] at h
      obtain ⟨pre, ek', ev', post, b₀, hrest, hpre, hf⟩ := listLoop_error path rest false _ h
      refine ⟨(ek, ev) :: pre, ek', ev', post, b₀, by rw [hrest]; rfl, ?_, hf⟩
      intro x hx
      rcases List.mem_cons.1 hx with rfl | hx
      · exact ⟨_, s, hr⟩
      · exact hpre x hx

theorem mapLoop_error {key f : Val → Path → String → Res} (path : Path) {e : PathError}
    {b' : String} :
    ∀ (elems : List (Val × Val)) (b : String),
      mapLoop key f path elems b = .error e b' →
      ∃ pre ek ev post b₀, elems = pre ++ (ek, ev) :: post ∧
        (∀ x ∈ pre, (∃ b₁ s, key x.1 (path ++ [.index x.1]) b₁ = .ok s) ∧
          ∃ b₁ s, f x.2 (path ++ [.index x.1]) b₁ = .ok s) ∧
        (key ek (path ++ [.index ek]) b₀ = .error e b' ∨
          ((∃ b₁ s, key ek (path ++ [.index ek]) b₁ = .ok s) ∧
            f ev (path ++ [.index ek]) b₀ = .error e b'))
  | [], _, h => by simp [mapLoop] at h
  | (ek, ev) :: rest, b, h => by
    rw [mapLoop] at h
    cases hk : key ek (path ++ [.index ek]) b with
    | panic =>
      rw [hk] at h
      cases h
    | error e₁ b₁ =>
      rw [hk] at h
      cases h
      exact ⟨[], ek, ev, rest, _, rfl, by simp, Or.inl hk⟩
    | ok s =>
      rw [hk, Res.andThen_ok] at h
      cases hr : f ev (path ++ [.index ek]) (s ++ "=") with
      | panic =>
      rw [hr] at h
      cases h
      | error e₁ b₁ =>
        rw [hr] at h
        cases h
        exact ⟨[], ek, ev, rest, _, rfl, by simp, Or.inr ⟨⟨_, s, hk⟩, hr⟩⟩
      | ok s' =>
        rw [hr, Res.andThen_ok] at h
        obtain ⟨pre, ek', ev', post, b₀, hrest, hpre, hf⟩ := mapLoop_error path rest _ h
        refine ⟨(ek, ev) :: pre, ek', ev', post, b₀, by rw [hrest]; rfl, ?_, hf⟩
        intro x hx
        rcases List.mem_cons.1 hx with rfl | hx
        · exact ⟨⟨_, s, hk⟩, _, s', hr⟩
        · exact hpre x hx

theorem tupleLoop_error {f : Val → Ty → Path → String → Res} (etys : List Ty) (path : Path)
    {e : PathError} {b' : String} :
    ∀ (elems : List (Val × Val)) (i : Nat) (b : String),
      tupleLoop f etys path elems i b = .error e b' →
      ∃ pre ek ev post ety b₀, elems = pre ++ (ek, ev) :: post ∧
        (∀ j (h : j < pre.length), ∃ t b₁ s, etys[i + j]? = some t ∧
          f (pre.get ⟨j, h⟩).2 t (path ++ [.index (pre.get ⟨j, h⟩).1]) b₁ = .ok s) ∧
        etys[i + pre.length]? = some ety ∧
        f ev ety (path ++ [.index ek]) b₀ = .error e b'
  | [], _, _, h => by simp [tupleLoop] at h
  | (ek, ev) :: rest, i, b, h => by
    rw [tupleLoop] at h
    generalize (if i > 0 then b ++ ",\n" else b) = b₂ at h
    cases hi : etys[i]? with
    | none =>
      rw [hi] at h
      cases h
    | some ety =>
      rw [hi] at h
      simp only [] at h
      cases hr : f ev ety (path ++ [.index ek]) b₂ with
      | panic =>
      rw [hr] at h
      cases h
      | error e₁ b₁ =>
        rw [hr] at h
        cases h
        exact ⟨[], ek, ev, rest, ety, _, rfl, fun j hj => absurd hj (Nat.not_lt_zero _),
          by simpa using hi, hr⟩
      | ok s =>
        rw [hr, Res.andThen_ok] at h
        obtain ⟨pre, ek', ev', post, ety', b₀, hrest, hpre, hty, hf⟩ :=
          tupleLoop_error etys path rest (i + 1) _ h
        refine ⟨(ek, ev) :: pre, ek', ev', post, ety', b₀, by rw [hrest]; rfl, ?_, ?_, hf⟩
        · intro j hj
          cases j with
          | zero => exact ⟨ety, _, s, by simpa using hi, hr⟩
          | succ j =>
            obtain ⟨t, b₁, s', ht, hs⟩ := hpre j (by simpa using hj)
            exact ⟨t, b₁, s', by rw [← ht]; congr 1; omega, hs⟩
        · rw [← hty]
          congr 1
          simp only [List.length_cons]
          omega

theorem objectLoop_error (J : JSON) {f : Val → Ty → Path → String → Res}
    (atys : List (String × Ty)) (val : Val) (path : Path) {e : PathError} {b' : String} :
    ∀ (names : List String) (b : String),
      objectLoop (fun k p b => marshal J (.str k) .string p b true false) f atys val path
        names b = .error e b' →
      ∃ pre k post av aty b₀, names = pre ++ k :: post ∧
        (∀ k' ∈ pre, ∃ av' aty' b₁ s, val.getAttr k' = some av' ∧ lookup k' atys = some aty' ∧
          f av' aty' (path ++ [.getAttr k']) b₁ = .ok s) ∧
        val.getAttr k = some av ∧ lookup k atys = some aty ∧
        f av aty (path ++ [.getAttr k]) b₀ = .error e b'
  | [], _, h => by simp [objectLoop] at h
  | k :: rest, b, h => by
    rw [objectLoop] at h
    cases ha : lookup k atys with
    | none =>
      rw [ha] at h
      cases h
    | some aty =>
      cases hv : val.getAttr k with
      | none =>
        rw [ha, hv] at h
        cases h
      | some av =>
        rw [ha, hv] at h
        simp only [marshal_key, Res.andThen_ok] at h
        cases hr : f av aty (path ++ [.getAttr k]) (b ++ k ++ "=") with
        | panic =>
      rw [hr] at h
      cases h
        | error e₁ b₁ =>
          rw [hr] at h
          cases h
          exact ⟨[], k, rest, av, aty, _, rfl, by simp, hv, ha, hr⟩
        | ok s =>
          rw [hr, Res.andThen_ok] at h
          obtain ⟨pre, k', post, av', aty', b₀, hrest, hpre, hv', ha', hf⟩ :=
            objectLoop_error J atys val path rest _ h
          refine ⟨k :: pre, k', post, av', aty', b₀, by rw [hrest]; rfl, ?_, hv', ha', hf⟩
          intro x hx
          rcases List.mem_cons.1 hx with rfl | hx
          · exact ⟨av, aty, _, s, hv, ha, hr⟩
          · exact hpre x hx

theorem Res.andThen_eq_error {r : Res} {k : String → Res} {e : PathError} {b' : String}
    (hk : ∀ b, ∃ s, k b = .ok s) (h : r.andThen k = .error e b') : r = .error e b' := by
  cases r with
  | panic => simp [Res.andThen] at h
  | error e₁ b₁ => simpa [Res.andThen] using h
  | ok s =>
    obtain ⟨s', hs⟩ := hk s
    simp [Res.andThen, hs] at h

theorem emits_of_ok (J : JSON) {val : Val} {t : Ty} {path : Path} {b out : String}
    {isKey isItem : Bool} (h : marshal J val t path b isKey isItem = .ok out) :
    ∃ s, Emits J val t isKey isItem s := by
  obtain ⟨s, hs, -⟩ := emits_of_marshal J h
  exact ⟨s, hs⟩

/-- Every error `marshal` returns arises at the first failing node below the
value; it carries the message of that node and the given path extended by the
steps down to it. -/
theorem marshal_error_fails (J : JSON) :
    ∀ (n : Nat) (val : Val) (t : Ty) (path : Path) (b : String) (isKey isItem : Bool)
      (e : PathError) (b' : String), val.weight + t.depth = n →
      marshal J val t path b isKey isItem = .error e b' →
      ∃ steps msg, FailsAt J val t isKey steps msg ∧ e = ⟨msg, path ++ steps⟩ := by
  intro n
  induction n using Nat.strong_induction_on with
  | _ n ih =>
    intro val t path b isKey isItem e b' hn h
    subst hn
    cases t with
    | string =>
      rw [marshal_string] at h
      cases hs : val.asString with
      | none =>
        rw [hs] at h
        cases h
      | some s =>
        rw [hs] at h
        cases isKey with
        | true => cases h
        | false =>
          cases hj : J.marshalString s with
          | ok out =>
            simp only [hj] at h
            cases h
          | error err =>
            simp only [hj] at h
            cases h
            exact ⟨[], _, FailsAt.string val s err hs hj, by rw [List.append_nil]⟩
    | number =>
      rw [marshal_number] at h
      cases hs : val.asBigFloat <;> rw [hs] at h <;> cases h
    | bool =>
      rw [marshal_bool] at h
      cases hs : val.isTrue <;> rw [hs] at h <;> cases h
    | unsupported p name =>
      rw [marshal_unsupported] at h
      cases h
      exact ⟨[], _, FailsAt.unsupported val p name isKey, by rw [List.append_nil]⟩
    | capsule name =>
      rw [marshal_capsule] at h
      cases hs : val.encapsulatedValue with
      | none =>
        rw [hs] at h
        cases h
      | some raw =>
        rw [hs] at h
        cases hj : J.marshalValue raw with
        | ok out =>
          simp only [hj] at h
          cases h
        | error err =>
          simp only [hj] at h
          cases h
          exact ⟨[], _, FailsAt.capsule val name raw err isKey hs hj, by rw [List.append_nil]⟩
    | list ety =>
      rw [marshal_list] at h
      cases he : val.elementIterator with
      | none =>
        rw [he] at h
        cases h
      | some elems =>
        rw [he] at h
        obtain ⟨pre, ek, ev, post, b₀, hel, hpre, hf⟩ :=
          listLoop_error path elems true _ (Res.andThen_eq_error (fun b => ⟨_, rfl⟩) h)
        subst hel
        have hlt := (Val.elementIterator_lt he (List.mem_append_right _
          (List.mem_cons_self _ _))).1
        obtain ⟨steps, msg, hfa, rfl⟩ := ih (ev.weight + ety.depth)
          (by simp only [Ty.depth]; omega) ev ety _ b₀ false true e b' rfl hf
        refine ⟨.index ek :: steps, msg,
          FailsAt.list val ety pre post ek ev steps msg isKey he
            (fun x hx => ?_) hfa, by rw [List.append_assoc]; rfl⟩
        obtain ⟨b₁, s, hs⟩ := hpre x hx
        exact emits_of_ok J hs
    | set ety =>
      rw [marshal_set] at h
      cases he : val.elementIterator with
      | none =>
        rw [he] at h
        cases h
      | some elems =>
        rw [he] at h
        obtain ⟨pre, ek, ev, post, b₀, hel, hpre, hf⟩ :=
          listLoop_error path elems true _ (Res.andThen_eq_error (fun b => ⟨_, rfl⟩) h)
        subst hel
        have hlt := (Val.elementIterator_lt he (List.mem_append_right _
          (List.mem_cons_self _ _))).1
        obtain ⟨steps, msg, hfa, rfl⟩ := ih (ev.weight + ety.depth)
          (by simp only [Ty.depth]; omega) ev ety _ b₀ false true e b' rfl hf
        refine ⟨.index ek :: steps, msg,
          FailsAt.set val ety pre post ek ev steps msg isKey he
            (fun x hx => ?_) hfa, by rw [List.append_assoc]; rfl⟩
        obtain ⟨b₁, s, hs⟩ := hpre x hx
        exact emits_of_ok J hs
    | map ety =>
      rw [marshal_map] at h
      cases he : val.elementIterator with
      | none =>
        rw [he] at h
        cases h
      | some elems =>
        rw [he] at h
        obtain ⟨pre, ek, ev, post, b₀, hel, hpre, hf⟩ :=
          mapLoop_error path elems _ (Res.andThen_eq_error (fun b => ⟨_, rfl⟩) h)
        subst hel
        have hlt := Val.elementIterator_lt he (List.mem_append_right _
          (List.mem_cons_self _ _))
        have hpre' : ∀ x ∈ pre, (∃ s, Emits J x.1 x.1.type true false s) ∧
            ∃ s, Emits J x.2 ety false false s := by
          intro x hx
          obtain ⟨⟨b₁, s, hs⟩, b₂, s', hs'⟩ := hpre x hx
          exact ⟨emits_of_ok J hs, emits_of_ok J hs'⟩
        rcases hf with hf | ⟨⟨b₁, s, hs⟩, hf⟩
        · obtain ⟨steps, msg, hfa, rfl⟩ := ih (ek.weight + ek.type.depth)
            (by simp only [Ty.depth]; omega) ek ek.type _ b₀ true false e b' rfl hf
          exact ⟨.index ek :: steps, msg,
            FailsAt.mapKey val ety pre post ek ev steps msg isKey he hpre' hfa,
            by rw [List.append_assoc]; rfl⟩
        · obtain ⟨steps, msg, hfa, rfl⟩ := ih (ev.weight + ety.depth)
            (by simp only [Ty.depth]; omega) ev ety _ b₀ false false e b' rfl hf
          exact ⟨.index ek :: steps, msg,
            FailsAt.mapValue val ety pre post ek ev steps msg isKey he hpre'
              (emits_of_ok J hs) hfa,
            by rw [List.append_assoc]; rfl⟩
    | tuple etys =>
      rw [marshal_tuple] at h
      cases he : val.elementIterator with
      | none =>
        rw [he] at h
        cases h
      | some elems =>
        rw [he] at h
        obtain ⟨pre, ek, ev, post, ety, b₀, hel, hpre, hty, hf⟩ :=
          tupleLoop_error etys path elems 0 _ (Res.andThen_eq_error (fun b => ⟨_, rfl⟩) h)
        subst hel
        rw [Nat.zero_add] at hty
        have hlt := (Val.elementIterator_lt he (List.mem_append_right _
          (List.mem_cons_self _ _))).1
        have hd := Ty.depth_le_depthList (List.getElem?_mem hty)
        obtain ⟨steps, msg, hfa, rfl⟩ := ih (ev.weight + ety.depth)
          (by simp only [Ty.depth]; omega) ev ety _ b₀ false true e b' rfl hf
        refine ⟨.index ek :: steps, msg,
          FailsAt.tuple val etys pre post ek ev ety steps msg isKey he
            (fun j hj => ?_) hty hfa, by rw [List.append_assoc]; rfl⟩
        obtain ⟨t, b₁, s, ht, hs⟩ := hpre j hj
        rw [Nat.zero_add] at ht
        obtain ⟨s', hs'⟩ := emits_of_ok J hs
        exact ⟨t, s', ht, hs'⟩
    | object atys =>
      rw [marshal_object] at h
      obtain ⟨pre, k, post, av, aty, b₀, hel, hpre, hv, ha, hf⟩ :=
        objectLoop_error J atys val path _ _
          (Res.andThen_eq_error (fun b => by cases isItem <;> exact ⟨_, rfl⟩) h)
      have hw := Val.getAttr_le hv
      have hd := Ty.depth_le_depthAttrs (lookup_mem ha)
      obtain ⟨steps, msg, hfa, rfl⟩ := ih (av.weight + aty.depth)
        (by simp only [Ty.depth]; omega) av aty _ b₀ false false e b' rfl hf
      refine ⟨.getAttr k :: steps, msg,
        FailsAt.object val atys pre post k av aty steps msg isKey hel
          (fun k' hk' => ?_) hv ha hfa, by rw [List.append_assoc]; rfl⟩
      obtain ⟨av', aty', b₁, s, hv', ha', hs⟩ := hpre k' hk'
      obtain ⟨s', hs'⟩ := emits_of_ok J hs
      exact ⟨av', aty', s', hv', ha', hs'⟩

/-- C6, as stated, fails: in the tuple of a capsule boxing the float `NaN`
and a `null`, the only node whose type is unsupported is the `null` at index
1, but `marshal` fails at index 0, where `json.Marshal` rejects the boxed
value. -/
theorem error_path_not_unsupported_type :
    marshal refJSON (.tuple [.capsule "c" .nan, .null Ty.dynamic]) (.tuple [.capsule "c", Ty.dynamic])
        [] "" false false
      = .error ⟨"json: unsupported value: NaN", [.index (.num (Number.ofNat 0))]⟩ "[\n" :=
  rfl

/-- C6, amended. Path precision: whenever `marshal` fails, the error is the one
arising at the first node, in traversal order, at which an error arises (a node
whose type is unsupported, or a string or capsule that `json.Marshal`
rejects): it has that node's message, and its path is the start path extended
by exactly the steps from the root to that node, an attribute step for an
object attribute and an index step with the element key for a list, set,
tuple or map element; for `Object{"x": Tuple[String, UnsupportedKind]}` and
the empty start path the error path is `[GetAttr "x", Index 1]`. -/
theorem error_path_precise (J : JSON) (val : Val) (t : Ty) (path : Path) (b : String)
    (isKey isItem : Bool) (e : PathError) (b' : String)
    (h : marshal J val t path b isKey isItem = .error e b') :
    (∃ steps msg, FailsAt J val t isKey steps msg ∧ e = ⟨msg, path ++ steps⟩) ∧
      (marshal refJSON (.object [("x", .tuple [.str "s", .null Ty.dynamic])])
          (.object [("x", .tuple [.string, Ty.dynamic])]) [] "" false false).err
        = some ⟨"cannot convert to HCL dynamic",
            [.getAttr "x", .index (.num (Number.ofNat 1))]⟩ :=
  ⟨marshal_error_fails J _ val t path b isKey isItem e b' rfl h, rfl⟩

/-- C6, amended, at the object `x = ["s", null]` started with the path `.doc`. -/
theorem error_path_precise_witness :
    ∃ steps msg,
      FailsAt refJSON (.object [("x", .tuple [.str "s", .null Ty.dynamic])])
        (.object [("x", .tuple [.string, Ty.dynamic])]) false steps msg ∧
      (⟨"cannot convert to HCL dynamic",
          [.getAttr "doc", .getAttr "x", .index (.num (Number.ofNat 1))]⟩ : PathError)
        = ⟨msg, [.getAttr "doc"] ++ steps⟩ :=
  (error_path_precise refJSON (.object [("x", .tuple [.str "s", .null Ty.dynamic])])
    (.object [("x", .tuple [.string, Ty.dynamic])]) [.getAttr "doc"] "" false false
    ⟨"cannot convert to HCL dynamic",
      [.getAttr "doc", .getAttr "x", .index (.num (Number.ofNat 1))]⟩
    "\x7b\nx=[\n\"s\",\n" rfl).1

/-! ## A text determines the value it was written for -/

theorem Ty.plainList_iff : ∀ {ts : List Ty}, Ty.plainList ts = true ↔ ∀ t ∈ ts, t.plain = true
  | [] => by simp [Ty.plainList]
  | t :: ts => by simp [Ty.plainList, @Ty.plainList_iff ts]

theorem Ty.plainAttrs_iff : ∀ {ts : List (String × Ty)},
    Ty.plainAttrs ts = true ↔ ∀ kt ∈ ts, kt.2.plain = true
  | [] => by simp [Ty.plainAttrs]
  | (k, t) :: ts => by simp [Ty.plainAttrs, @Ty.plainAttrs_iff ts]

theorem Val.WFElems_iff (ety : Ty) : ∀ {vs : List Val},
    Val.WFElems ety vs ↔ ∀ v ∈ vs, v.type = ety ∧ v.WF
  | [] => by simp [Val.WFElems]
  | v :: vs => by simp [Val.WFElems, @Val.WFElems_iff ety vs, and_assoc]

theorem Val.WFAll_iff : ∀ {vs : List Val}, Val.WFAll vs ↔ ∀ v ∈ vs, v.WF
  | [] => by simp [Val.WFAll]
  | v :: vs => by simp [Val.WFAll, @Val.WFAll_iff vs]

theorem Val.WFAttrs_iff : ∀ {vs : List (String × Val)},
    Val.WFAttrs vs ↔ ∀ kv ∈ vs, kv.2.WF
  | [] => by simp [Val.WFAttrs]
  | (k, v) :: vs => by simp [Val.WFAttrs, @Val.WFAttrs_iff vs]

theorem Val.typeList_eq : ∀ vs : List Val, Val.typeList vs = vs.map Val.type
  | [] => rfl
  | v :: vs => by simp [Val.typeList, Val.typeList_eq vs]

theorem Val.typeAttrs_eq : ∀ vs : List (String × Val),
    Val.typeAttrs vs = vs.map fun kv => (kv.1, kv.2.type)
  | [] => rfl
  | (k, v) :: vs => by simp [Val.typeAttrs, Val.typeAttrs_eq vs]

/-- Two texts that agree up to a character occurring in neither agree. -/
theorem split_unique (c : Char) : ∀ (a b x y : List Char), c ∉ a → c ∉ b →
    a ++ c :: x = b ++ c :: y → a = b ∧ x = y
  | [], [], _, _, _, _, h => by simpa using h
  | [], d :: b, _, _, _, hb, h => by
    simp only [List.nil_append, List.cons_append, List.cons.injEq] at h
    exact absurd (h.1 ▸ List.mem_cons_self _ _) hb
  | d :: a, [], _, _, ha, _, h => by
    simp only [List.nil_append, List.cons_append, List.cons.injEq] at h
    exact absurd (h.1 ▸ List.mem_cons_self _ _) ha
  | d :: a, d' :: b, x, y, ha, hb, h => by
    simp only [List.cons_append, List.cons.injEq] at h
    obtain ⟨h₁, h₂⟩ := split_unique c a b x y (fun hc => ha (List.mem_cons_of_mem _ hc))
      (fun hc => hb (List.mem_cons_of_mem _ hc)) h.2
    exact ⟨by rw [h.1, h₁], h₂⟩

theorem digitChar_ne_newline : ∀ d, d < 10 → digitChar d ≠ '\n' := by decide

theorem digitChar_ne_bracket : ∀ d, d < 10 → digitChar d ≠ ']' := by decide

theorem Decimal.text_data_fin (neg : Bool) (mant : List Nat) (exp : Int) :
    (Decimal.fin neg mant exp).text.data
      = (if neg then ['-'] else []) ++ fmtF ((mant.length : Int) - exp).toNat mant exp := by
  cases neg <;> rfl

/-- The text of a normal decimal has no newline in it. -/
theorem Decimal.text_no_newline (n : Decimal) (hn : n.isNormal = true) : '\n' ∉ n.text.data := by
  cases n with
  | inf neg => cases neg <;> decide
  | fin neg mant exp =>
    obtain ⟨ip, fp, z, j, hfmt, hip, hfp, -, -, -⟩ := fmtF_digits neg mant exp hn
    rw [Decimal.text_data_fin, hfmt]
    intro hmem
    rcases List.mem_append.1 hmem with h | h
    · cases neg
      · simp at h
      · simp at h
    · rcases List.mem_append.1 h with h | h
      · obtain ⟨d, hd, hc⟩ := List.mem_map.1 h
        exact digitChar_ne_newline d (hip d hd) hc
      · split at h
        · simp at h
        · rcases List.mem_cons.1 h with h | h
          · simp at h
          · obtain ⟨d, hd, hc⟩ := List.mem_map.1 h
            exact digitChar_ne_newline d (hfp d hd) hc

/-- The text of a normal decimal starts with a sign or a digit. -/
theorem Decimal.text_head (n : Decimal) (hn : n.isNormal = true) :
    ∃ c r, n.text.data = c :: r ∧ c ≠ ']' := by
  cases n with
  | inf neg => cases neg <;> exact ⟨_, _, rfl, by decide⟩
  | fin neg mant exp =>
    obtain ⟨ip, fp, z, j, hfmt, hip, -, hne, -, -⟩ := fmtF_digits neg mant exp hn
    rw [Decimal.text_data_fin, hfmt]
    cases neg with
    | true => exact ⟨'-', _, rfl, by decide⟩
    | false =>
      cases ip with
      | nil => exact absurd rfl hne
      | cons d ds =>
        exact ⟨digitChar d, _, rfl, digitChar_ne_bracket d (hip d (List.mem_cons_self _ _))⟩

/-- Two normal decimals with the same text are the same decimal. -/
theorem Decimal.text_inj (n₁ n₂ : Decimal) (h₁ : n₁.isNormal = true) (h₂ : n₂.isNormal = true)
    (h : n₁.text = n₂.text) : n₁ = n₂ := by
  cases n₁ with
  | inf neg₁ =>
    cases n₂ with
    | inf neg₂ =>
      cases neg₁ <;> cases neg₂ <;> first | rfl | exact absurd h (by decide)
    | fin neg₂ mant₂ exp₂ =>
      have hp := parseDecimal_text_fin neg₂ mant₂ exp₂ h₂
      rw [← h] at hp
      have hnone : parseDecimal (Decimal.inf neg₁).text = none := by cases neg₁ <;> decide
      rw [hnone] at hp
      cases hp
  | fin neg₁ mant₁ exp₁ =>
    have hp₁ := parseDecimal_text_fin neg₁ mant₁ exp₁ h₁
    cases n₂ with
    | inf neg₂ =>
      rw [h] at hp₁
      have hnone : parseDecimal (Decimal.inf neg₂).text = none := by cases neg₂ <;> decide
      rw [hnone] at hp₁
      cases hp₁
    | fin neg₂ mant₂ exp₂ =>
      have hp₂ := parseDecimal_text_fin neg₂ mant₂ exp₂ h₂
      rw [h, hp₂] at hp₁
      exact (Option.some.inj hp₁).symm

/-- A text starts with the text of at most one normal decimal followed by a
newline. -/
theorem Decimal.text_prefix_inj (n₁ n₂ : Decimal) (h₁ : n₁.isNormal = true)
    (h₂ : n₂.isNormal = true) (x y : List Char)
    (h : n₁.text.data ++ '\n' :: x = n₂.text.data ++ '\n' :: y) : n₁ = n₂ :=
  Decimal.text_inj n₁ n₂ h₁ h₂ (String.ext
    (split_unique '\n' _ _ x y (Decimal.text_no_newline n₁ h₁) (Decimal.text_no_newline n₂ h₂) h).1)

/-- The text of a number has no newline in it. -/
theorem Number.no_newline_in_text (n : Number) : '\n' ∉ n.text.data :=
  Decimal.text_no_newline n.decimal (Number.decimal_isNormal n)

/-- The text of a number starts with a sign or a digit. -/
theorem Number.head_of_text (n : Number) : ∃ c r, n.text.data = c :: r ∧ c ≠ ']' :=
  Decimal.text_head n.decimal (Number.decimal_isNormal n)

theorem listLoop_ok (J : JSON) (ety : Ty) (path : Path) :
    ∀ (elems : List (Val × Val)) (first : Bool) (b out : String),
      listLoop (fun ev p b => marshal J ev ety p b false true) path elems first b = .ok out →
      ∃ texts, List.Forall₂ (fun e s => Emits J e.2 ety false true s) elems texts ∧
        out = b ++ listBody first texts
  | [], _, b, out, h => by
    rw [listLoop] at h
    cases h
    exact ⟨[], .nil, by simp [listBody]⟩
  | (ek, ev) :: rest, first, b, out, h => by
    rw [listLoop] at h
    cases hr : marshal J ev ety (path ++ [.index ek]) (if (!first) = true then b ++ ",\n" else b)
        false true with
    | panic =>
      rw [hr] at h
      cases h
    | error e₁ b₁ =>
      rw [hr] at h
      cases h
    | ok s =>
      rw [hr, Res.andThen_ok] at h
      obtain ⟨t, ht, hs⟩ := emits_of_marshal J hr
      obtain ⟨texts, hall, hout⟩ := listLoop_ok J ety path rest false _ out h
      refine ⟨t :: texts, .cons ht hall, ?_⟩
      rw [hout, hs, listBody]
      cases first <;>
        simp only [Bool.not_true, Bool.not_false, if_true, if_false, Bool.false_eq_true,
          String.append_assoc, String.empty_append]

theorem tupleLoop_ok (J : JSON) (etys : List Ty) (path : Path) :
    ∀ (elems : List (Val × Val)) (i : Nat) (b out : String),
      tupleLoop (fun ev ety p b => marshal J ev ety p b false true) etys path elems i b
        = .ok out →
      ∃ texts, List.Forall₂ (fun (e : (Val × Val) × Ty) s => Emits J e.1.2 e.2 false true s)
          (elems.zip (etys.drop i)) texts ∧
        elems.length ≤ (etys.drop i).length ∧ out = b ++ tupleBody i texts
  | [], i, b, out, h => by
    rw [tupleLoop] at h
    cases h
    exact ⟨[], by simp, by simp, by simp [tupleBody]⟩
  | (ek, ev) :: rest, i, b, out, h => by
    rw [tupleLoop] at h
    cases hi : etys[i]? with
    | none =>
      rw [hi] at h
      cases h
    | some ety =>
      rw [hi] at h
      simp only [] at h
      have hlt : i < etys.length := by
        by_contra hc
        rw [List.getElem?_eq_none (by omega)] at hi
        cases hi
      have hdrop : etys.drop i = ety :: etys.drop (i + 1) := by
        rw [List.drop_eq_getElem_cons hlt]
        rw [List.getElem?_eq_getElem hlt] at hi
        rw [Option.some.inj hi]
      cases hr : marshal J ev ety (path ++ [.index ek]) (if i > 0 then b ++ ",\n" else b)
          false true with
      | panic =>
        rw [hr] at h
        cases h
      | error e₁ b₁ =>
        rw [hr] at h
        cases h
      | ok s =>
        rw [hr, Res.andThen_ok] at h
        obtain ⟨t, ht, hs⟩ := emits_of_marshal J hr
        obtain ⟨texts, hall, hlen, hout⟩ := tupleLoop_ok J etys path rest (i + 1) _ out h
        refine ⟨t :: texts, ?_, ?_, ?_⟩
        · rw [hdrop, List.zip_cons_cons]
          exact .cons ht hall
        · rw [hdrop]
          simpa using hlen
        · rw [hout, hs, tupleBody]
          by_cases h0 : i > 0 <;>
            simp only [h0, if_true, if_false, String.append_assoc, String.empty_append]

/-- The text of a list or set: the texts of the elements between brackets. -/
theorem emits_sequence (J : JSON) {val : Val} {t ety : Ty} {elems : List (Val × Val)}
    {isKey isItem : Bool} {s : String} (ht : t = .list ety ∨ t = .set ety)
    (he : val.elementIterator = some elems) (h : Emits J val t isKey isItem s) :
    ∃ texts, List.Forall₂ (fun e s => Emits J e.2 ety false true s) elems texts ∧
      s = "[\n" ++ listBody true texts ++ "]\n" := by
  unfold Emits at h
  have h' : (listLoop (fun ev p b => marshal J ev ety p b false true) [] elems true
      ("" ++ "[" ++ "\n")).andThen (fun b => .ok (b ++ "]" ++ "\n")) = .ok s := by
    rcases ht with rfl | rfl
    · rw [marshal_list, he] at h
      exact h
    · rw [marshal_set, he] at h
      exact h
  cases hl : listLoop (fun ev p b => marshal J ev ety p b false true) [] elems true
      ("" ++ "[" ++ "\n") with
  | panic =>
    rw [hl] at h'
    cases h'
  | error e₁ b₁ =>
    rw [hl] at h'
    cases h'
  | ok out =>
    rw [hl, Res.andThen_ok] at h'
    obtain ⟨texts, hall, hout⟩ := listLoop_ok J ety [] elems true _ out hl
    refine ⟨texts, hall, ?_⟩
    cases h'
    rw [hout]
    simp only [String.append_assoc, String.empty_append]
    rfl

/-- The text of a tuple: the texts of the elements between brackets. -/
theorem emits_tuple (J : JSON) {val : Val} {etys : List Ty} {elems : List (Val × Val)}
    {isKey isItem : Bool} {s : String}
    (he : val.elementIterator = some elems) (h : Emits J val (.tuple etys) isKey isItem s) :
    ∃ texts, List.Forall₂ (fun (e : (Val × Val) × Ty) s => Emits J e.1.2 e.2 false true s)
        (elems.zip etys) texts ∧
      elems.length ≤ etys.length ∧ s = "[\n" ++ tupleBody 0 texts ++ "\n]\n" := by
  unfold Emits at h
  rw [marshal_tuple, he] at h
  simp only [] at h
  cases hl : tupleLoop (fun ev ety p b => marshal J ev ety p b false true) etys [] elems 0
      ("" ++ "[" ++ "\n") with
  | panic =>
    rw [hl] at h
    cases h
  | error e₁ b₁ =>
    rw [hl] at h
    cases h
  | ok out =>
    rw [hl, Res.andThen_ok] at h
    obtain ⟨texts, hall, hlen, hout⟩ := tupleLoop_ok J etys [] elems 0 _ out hl
    rw [List.drop_zero] at hall hlen
    refine ⟨texts, hall, hlen, ?_⟩
    cases h
    rw [hout]
    simp only [String.append_assoc, String.empty_append]
    rfl

/-- The text of an object: `name=value` for the sorted names between braces. -/
theorem emits_object (J : JSON) {val : Val} {atys : List (String × Ty)}
    {isKey isItem : Bool} {s : String} (h : Emits J val (.object atys) isKey isItem s) :
    ∃ texts, List.Forall₂ (fun k s => ∃ av aty, val.getAttr k = some av ∧
        lookup k atys = some aty ∧ Emits J av aty false false s)
        (sortStrings (atys.map Prod.fst)) texts ∧
      s = "\x7b\n" ++ entriesText (sortStrings (atys.map Prod.fst)) texts
        ++ (if isItem then "\x7d" else "\x7d\n") := by
  unfold Emits at h
  rw [marshal_object] at h
  cases hl : objectLoop (fun k p b => marshal J (.str k) .string p b true false)
      (fun av aty p b => marshal J av aty p b false false) atys val []
      (sortStrings (atys.map Prod.fst)) ("" ++ "\x7b" ++ "\n") with
  | panic =>
    rw [hl] at h
    cases h
  | error e₁ b₁ =>
    rw [hl] at h
    cases h
  | ok out =>
    rw [hl, Res.andThen_ok] at h
    obtain ⟨texts, hall, hout⟩ := objectLoop_ok J atys val [] _ _ out hl
    refine ⟨texts, ?_, ?_⟩
    · refine hall.imp ?_
      rintro k s ⟨av, aty, hv, ha, hs⟩
      exact ⟨av, aty, hv, ha, marshal_ok_path J hs []⟩
    · cases h
      rw [hout]
      cases isItem <;>
        simp only [Bool.not_true, Bool.not_false, if_true, if_false, Bool.false_eq_true,
          String.append_assoc, String.empty_append] <;> rfl

theorem listBody_data (first : Bool) (s : String) (rest : List String) :
    (listBody first (s :: rest)).data
      = (if first then [] else [',', '\n']) ++ (s.data ++ '\n' :: (listBody false rest).data) := by
  cases first <;> simp [listBody, String.data_append]

theorem tupleBody_data (i : Nat) (s : String) (rest : List String) :
    (tupleBody i (s :: rest)).data
      = (if i > 0 then [',', '\n'] else []) ++ (s.data ++ (tupleBody (i + 1) rest).data) := by
  by_cases h : i > 0 <;> simp [tupleBody, String.data_append, h]

theorem entriesText_data (k s : String) (ks ss : List String) :
    (entriesText (k :: ks) (s :: ss)).data
      = k.data ++ '=' :: (s.data ++ (entriesText ks ss).data) := by
  simp [entriesText, String.data_append]

theorem forall₂_imp_mem {α β : Type} {R R' : α → β → Prop} :
    ∀ {l₁ : List α} {l₂ : List β}, List.Forall₂ R l₁ l₂ →
      (∀ a ∈ l₁, ∀ b, R a b → R' a b) → List.Forall₂ R' l₁ l₂
  | _, _, .nil, _ => .nil
  | _, _, .cons h hrest, himp =>
    .cons (himp _ (List.mem_cons_self _ _) _ h)
      (forall₂_imp_mem hrest fun a ha b hab => himp a (List.mem_cons_of_mem _ ha) b hab)

/-- The element texts of a list can be read off the text of the list. -/
theorem listBody_inj {P : Val → String → Prop}
    (hfun : ∀ v s₁ s₂, P v s₁ → P v s₂ → s₁ = s₂)
    (hhead : ∀ v s, P v s → ∃ c r, s.data = c :: r ∧ c ≠ ']') :
    ∀ (es₁ es₂ : List (Val × Val)) (texts₁ texts₂ : List String) (first : Bool)
      (x y : List Char),
      (∀ e₁ ∈ es₁, ∀ v₂ s₁ s₂ x y, P e₁.2 s₁ → P v₂ s₂ → s₁.data ++ x = s₂.data ++ y →
        e₁.2 = v₂) →
      List.Forall₂ (fun e s => P e.2 s) es₁ texts₁ →
      List.Forall₂ (fun e s => P e.2 s) es₂ texts₂ →
      (listBody first texts₁).data ++ ']' :: x = (listBody first texts₂).data ++ ']' :: y →
      es₁.map Prod.snd = es₂.map Prod.snd
  | [], [], _, _, _, _, _, _, _, _, _ => rfl
  | [], e₂ :: r₂, _, _, first, x, y, _, .nil, .cons h₂ _, h => by
    exfalso
    obtain ⟨c, r, hc, hne⟩ := hhead _ _ h₂
    rw [listBody_data, hc] at h
    cases first
    · simp [listBody] at h
    · simp only [listBody, if_true, List.nil_append, List.cons_append] at h
      exact hne (List.cons.inj h).1.symm
  | e₁ :: r₁, [], _, _, first, x, y, _, .cons h₁ _, .nil, h => by
    exfalso
    obtain ⟨c, r, hc, hne⟩ := hhead _ _ h₁
    rw [listBody_data, hc] at h
    cases first
    · simp [listBody] at h
    · simp only [listBody, if_true, List.nil_append, List.cons_append] at h
      exact hne (List.cons.inj h).1
  | e₁ :: r₁, e₂ :: r₂, _, _, first, x, y, hinj, .cons h₁ hr₁, .cons h₂ hr₂, h => by
    simp only [listBody_data, List.append_assoc, List.append_cancel_left_eq] at h
    have hv := hinj e₁ (List.mem_cons_self _ _) _ _ _ _ _ h₁ h₂ h
    rw [← hv] at h₂
    rw [hfun _ _ _ h₂ h₁] at h
    simp only [List.append_cancel_left_eq, List.cons_append, List.cons.injEq, true_and] at h
    have ih := listBody_inj hfun hhead r₁ r₂ _ _ false x y
      (fun e he => hinj e (List.mem_cons_of_mem _ he)) hr₁ hr₂ h
    rw [List.map_cons, List.map_cons, hv, ih]

/-- The element texts of a tuple can be read off the text of the tuple. -/
theorem tupleBody_inj {P : Val → Ty → String → Prop}
    (hfun : ∀ v t s₁ s₂, P v t s₁ → P v t s₂ → s₁ = s₂) :
    ∀ (tys : List Ty) (es₁ es₂ : List (Val × Val)) (texts₁ texts₂ : List String) (i : Nat)
      (x y : List Char), es₁.length = tys.length → es₂.length = tys.length →
      (∀ e₁ ∈ es₁, ∀ v₂ t s₁ s₂ x y, P e₁.2 t s₁ → P v₂ t s₂ → s₁.data ++ x = s₂.data ++ y →
        e₁.2 = v₂) →
      List.Forall₂ (fun (e : (Val × Val) × Ty) s => P e.1.2 e.2 s) (es₁.zip tys) texts₁ →
      List.Forall₂ (fun (e : (Val × Val) × Ty) s => P e.1.2 e.2 s) (es₂.zip tys) texts₂ →
      (tupleBody i texts₁).data ++ x = (tupleBody i texts₂).data ++ y →
      es₁.map Prod.snd = es₂.map Prod.snd
  | [], [], [], _, _, _, _, _, _, _, _, _, _, _ => rfl
  | [], _ :: _, _, _, _, _, _, _, h, _, _, _, _, _ => by simp at h
  | [], [], _ :: _, _, _, _, _, _, _, h, _, _, _, _ => by simp at h
  | _ :: _, [], _, _, _, _, _, _, h, _, _, _, _, _ => by simp at h
  | _ :: _, _ :: _, [], _, _, _, _, _, _, h, _, _, _, _ => by simp at h
  | t :: tys, e₁ :: r₁, e₂ :: r₂, _, _, i, x, y, hl₁, hl₂, hinj, .cons h₁ hr₁, .cons h₂ hr₂,
      h => by
    simp only [tupleBody_data, List.append_assoc, List.append_cancel_left_eq] at h
    have hv := hinj e₁ (List.mem_cons_self _ _) _ _ _ _ _ _ h₁ h₂ h
    rw [← hv] at h₂
    rw [hfun _ _ _ _ h₂ h₁] at h
    simp only [List.append_cancel_left_eq] at h
    have ih := tupleBody_inj hfun tys r₁ r₂ _ _ (i + 1) x y (by simpa using hl₁)
      (by simpa using hl₂) (fun e he => hinj e (List.mem_cons_of_mem _ he)) hr₁ hr₂ h
    rw [List.map_cons, List.map_cons, hv, ih]

/-- The attribute texts of an object can be read off the text of the object. -/
theorem entriesText_inj {Q₁ Q₂ : String → String → Prop} {R : String → Prop} :
    ∀ (names : List String) (texts₁ texts₂ : List String) (x y : List Char),
      (∀ k ∈ names, ∀ s₁ s₂ x y, Q₁ k s₁ → Q₂ k s₂ → s₁.data ++ x = s₂.data ++ y →
        s₁ = s₂ ∧ R k) →
      List.Forall₂ Q₁ names texts₁ → List.Forall₂ Q₂ names texts₂ →
      (entriesText names texts₁).data ++ x = (entriesText names texts₂).data ++ y →
      ∀ k ∈ names, R k
  | [], _, _, _, _, _, _, _, _ => fun k hk => absurd hk (List.not_mem_nil _)
  | k :: ks, _, _, x, y, hstep, .cons h₁ hr₁, .cons h₂ hr₂, h => by
    simp only [entriesText_data, List.append_assoc, List.append_cancel_left_eq,
      List.cons_append, List.cons.injEq, true_and] at h
    obtain ⟨hs, hR⟩ := hstep k (List.mem_cons_self _ _) _ _ _ _ h₁ h₂ h
    have h' := h
    rw [hs] at h'
    simp only [List.append_cancel_left_eq] at h'
    have ih := entriesText_inj ks _ _ x y
      (fun k' hk' => hstep k' (List.mem_cons_of_mem _ hk')) hr₁ hr₂ h'
    intro k' hk'
    rcases List.mem_cons.1 hk' with rfl | hk'
    · exact hR
    · exact ih k' hk'

theorem emits_fun (J : JSON) {val : Val} {t : Ty} {isKey isItem : Bool} {s₁ s₂ : String}
    (h₁ : Emits J val t isKey isItem s₁) (h₂ : Emits J val t isKey isItem s₂) : s₁ = s₂ := by
  unfold Emits at h₁ h₂
  rw [h₁] at h₂
  exact Res.ok.inj h₂

theorem emits_str (J : JSON) {a : String} {isItem : Bool} {s : String}
    (h : Emits J (.str a) .string false isItem s) :
    ∃ out, J.marshalString a = .ok out ∧
      s.data = out.data ++ (if isItem then [] else ['\n']) := by
  unfold Emits at h
  rw [marshal_string] at h
  simp only [Val.asString] at h
  cases hj : J.marshalString a with
  | error err =>
    rw [hj] at h
    cases h
  | ok out =>
    rw [hj] at h
    refine ⟨out, rfl, ?_⟩
    cases isItem
    · cases h
      simp [String.data_append]
    · cases h
      simp [String.data_append]

theorem emits_num (J : JSON) {n : Number} {isKey isItem : Bool} {s : String}
    (h : Emits J (.num n) .number isKey isItem s) : s.data = n.text.data ++ ['\n'] := by
  unfold Emits at h
  rw [marshal_number] at h
  simp only [Val.asBigFloat] at h
  cases h
  simp [String.data_append]

theorem emits_bool (J : JSON) {v : Bool} {isKey isItem : Bool} {s : String}
    (h : Emits J (.bool v) .bool isKey isItem s) :
    s.data = if v then ['t', 'r', 'u', 'e', '\n'] else ['f', 'a', 'l', 's', 'e', '\n'] := by
  unfold Emits at h
  rw [marshal_bool] at h
  simp only [Val.isTrue] at h
  cases v <;> cases h <;> rfl

theorem map_snd_indexed : ∀ (xs : List Val) (i : Nat), (indexed i xs).map Prod.snd = xs
  | [], _ => rfl
  | x :: xs, i => by rw [indexed, List.map_cons, map_snd_indexed xs (i + 1)]

theorem mem_zip_indexed {e : (Val × Val) × Ty} :
    ∀ {xs : List Val} {i : Nat}, e ∈ (indexed i xs).zip (xs.map Val.type) →
      e.1.2 ∈ xs ∧ e.2 = e.1.2.type
  | [], _, h => by simp [indexed] at h
  | x :: xs, i, h => by
    rw [indexed, List.map_cons, List.zip_cons_cons] at h
    rcases List.mem_cons.1 h with rfl | h
    · exact ⟨List.mem_cons_self _ _, rfl⟩
    · exact ⟨List.mem_cons_of_mem _ (mem_zip_indexed h).1, (mem_zip_indexed h).2⟩

theorem lookup_map_type (k : String) : ∀ attrs : List (String × Val),
    lookup k (attrs.map fun kv => (kv.1, kv.2.type)) = (lookup k attrs).map Val.type
  | [] => rfl
  | (k', v) :: rest => by
    simp only [List.map_cons, lookup]
    split
    · rfl
    · exact lookup_map_type k rest

/-- Two listings with the same names in the same order, pairwise different,
and the same value under every name are the same listing. -/
theorem attrs_eq_of_lookup : ∀ (attrs₁ attrs₂ : List (String × Val)),
    attrs₁.map Prod.fst = attrs₂.map Prod.fst → (attrs₁.map Prod.fst).Nodup →
    (∀ k ∈ attrs₁.map Prod.fst, lookup k attrs₁ = lookup k attrs₂) → attrs₁ = attrs₂
  | [], [], _, _, _ => rfl
  | [], _ :: _, h, _, _ => by simp at h
  | _ :: _, [], h, _, _ => by simp at h
  | (k₁, v₁) :: r₁, (k₂, v₂) :: r₂, hk, hnd, hl => by
    simp only [List.map_cons, List.cons.injEq] at hk
    obtain ⟨rfl, hk⟩ := hk
    simp only [List.map_cons, List.nodup_cons] at hnd
    have h0 := hl k₁ (List.mem_cons_self _ _)
    simp only [lookup, if_true, Option.some.injEq] at h0
    subst h0
    have ih := attrs_eq_of_lookup r₁ r₂ hk hnd.2 (fun k hkm => by
      have hne : k₁ ≠ k := fun hc => hnd.1 (hc ▸ hkm)
      have := hl k (List.mem_cons_of_mem _ hkm)
      simpa only [lookup, if_neg hne] using this)
    rw [ih]

/-- The text of a value of a plain type does not start with a closing bracket. -/
theorem emits_head (J : JSON) (hJ : J.Delimited) {val : Val} {t : Ty} {isItem : Bool}
    {s : String} (ht : val.type = t) (hw : val.WF) (hp : t.plain = true)
    (h : Emits J val t false isItem s) : ∃ c r, s.data = c :: r ∧ c ≠ ']' := by
  cases val with
  | str a =>
    subst ht
    obtain ⟨out, hout, hs⟩ := emits_str J h
    obtain ⟨rest, hr⟩ := hJ.head a out hout
    exact ⟨_, _, by rw [hs, hr]; rfl, by decide⟩
  | num n =>
    subst ht
    simp [Val.type, Ty.plain] at hp
  | bool v =>
    subst ht
    have := emits_bool J h
    cases v
    · exact ⟨_, _, this, by decide⟩
    · exact ⟨_, _, this, by decide⟩
  | list ety xs =>
    subst ht
    obtain ⟨texts, -, hs⟩ := emits_sequence J (Or.inl rfl)
      (show (Val.list ety xs).elementIterator = some (indexed 0 xs) from rfl) h
    exact ⟨'[', _, by rw [hs]; simp only [String.data_append]; rfl, by decide⟩
  | set ety xs =>
    subst ht
    obtain ⟨texts, -, hs⟩ := emits_sequence J (Or.inr rfl)
      (show (Val.set ety xs).elementIterator = some (xs.map fun v => (v, v)) from rfl) h
    exact ⟨'[', _, by rw [hs]; simp only [String.data_append]; rfl, by decide⟩
  | tuple xs =>
    subst ht
    obtain ⟨texts, -, -, hs⟩ := emits_tuple J
      (show (Val.tuple xs).elementIterator = some (indexed 0 xs) from rfl) h
    exact ⟨'[', _, by rw [hs]; simp only [String.data_append]; rfl, by decide⟩
  | object attrs =>
    subst ht
    obtain ⟨texts, -, hs⟩ := emits_object J h
    exact ⟨Char.ofNat 123, _, by rw [hs]; simp only [String.data_append]; rfl, by decide⟩
  | map ety xs =>
    subst ht
    simp [Val.type, Ty.plain] at hp
  | capsule name raw =>
    subst ht
    simp [Val.type, Ty.plain] at hp
  | null t' => exact absurd hw (by simp [Val.WF])
  | unknown t' => exact absurd hw (by simp [Val.WF])

theorem typeAttrs_map_fst (attrs : List (String × Val)) :
    (Val.typeAttrs attrs).map Prod.fst = attrs.map Prod.fst := by
  rw [Val.typeAttrs_eq, List.map_map]
  rfl

theorem length_typeList (xs : List Val) : (Val.typeList xs).length = xs.length := by
  rw [Val.typeList_eq, List.length_map]

/-- A text starts with the text of at most one value of a plain type: if the
texts of two well-formed values of the type, each followed by anything, are
the same text, the values are the same. -/
theorem emits_prefix_inj (J : JSON) (hJ : J.Delimited) :
    ∀ (n : Nat) (v₁ v₂ : Val) (t : Ty) (isItem : Bool) (s₁ s₂ : String) (x y : List Char),
      v₁.weight = n → v₁.type = t → v₂.type = t → v₁.WF → v₂.WF → t.plain = true →
      Emits J v₁ t false isItem s₁ → Emits J v₂ t false isItem s₂ →
      s₁.data ++ x = s₂.data ++ y → v₁ = v₂ := by
  intro n
  induction n using Nat.strong_induction_on with
  | _ n ih =>
    intro v₁ v₂ t isItem s₁ s₂ x y hn ht₁ ht₂ hw₁ hw₂ hp h₁ h₂ h
    subst hn
    subst ht₁
    cases v₁ with
    | str a =>
      cases v₂ with
      | str a' =>
        obtain ⟨o₁, ho₁, hs₁⟩ := emits_str J h₁
        obtain ⟨o₂, ho₂, hs₂⟩ := emits_str J h₂
        rw [hs₁, hs₂, List.append_assoc, List.append_assoc] at h
        rw [hJ.inj a a' o₁ o₂ _ _ ho₁ ho₂ h]
      | null t' => exact absurd hw₂ (by simp [Val.WF])
      | unknown t' => exact absurd hw₂ (by simp [Val.WF])
      | _ => simp [Val.type] at ht₂
    | num m => simp [Val.type, Ty.plain] at hp
    | bool c =>
      cases v₂ with
      | bool c' =>
        rw [emits_bool J h₁, emits_bool J h₂] at h
        cases c <;> cases c' <;> first | rfl | simp at h
      | null t' => exact absurd hw₂ (by simp [Val.WF])
      | unknown t' => exact absurd hw₂ (by simp [Val.WF])
      | _ => simp [Val.type] at ht₂
    | list ety xs =>
      cases v₂ with
      | list ety' xs' =>
        simp only [Val.type, Ty.list.injEq] at ht₂
        subst ht₂
        simp only [Val.type, Ty.plain] at hp
        simp only [Val.WF, Val.WFElems_iff] at hw₁ hw₂
        obtain ⟨texts₁, hall₁, hs₁⟩ := emits_sequence J (Or.inl rfl)
          (show (Val.list ety' xs).elementIterator = some (indexed 0 xs) from rfl) h₁
        obtain ⟨texts₂, hall₂, hs₂⟩ := emits_sequence J (Or.inl rfl)
          (show (Val.list ety' xs').elementIterator = some (indexed 0 xs') from rfl) h₂
        rw [hs₁, hs₂] at h
        simp only [String.data_append, List.append_assoc] at h
        simp only [List.cons_append, List.nil_append, List.cons.injEq, true_and,
          List.append_cancel_left_eq] at h
        have key := @listBody_inj (fun v s => v.type = ety' ∧ v.WF ∧ Emits J v ety' false true s)
          (fun v s₁ s₂ p₁ p₂ => emits_fun J p₁.2.2 p₂.2.2)
          (fun v s p => emits_head J hJ p.1 p.2.1 hp p.2.2)
          (indexed 0 xs) (indexed 0 xs') texts₁ texts₂ true _ _
          (fun e₁ he v₂ s₁ s₂ x y p₁ p₂ hxy =>
            ih e₁.2.weight
              (by
                have := (Val.elementIterator_lt
                  (show (Val.list ety' xs).elementIterator = some (indexed 0 xs) from rfl) he).1
                omega)
              e₁.2 v₂ ety' true s₁ s₂ x y rfl p₁.1 p₂.1 p₁.2.1 p₂.2.1 hp p₁.2.2 p₂.2.2 hxy)
          (forall₂_imp_mem hall₁ fun e he s hs =>
            ⟨(hw₁ e.2 (mem_indexed he).1).1, (hw₁ e.2 (mem_indexed he).1).2, hs⟩)
          (forall₂_imp_mem hall₂ fun e he s hs =>
            ⟨(hw₂ e.2 (mem_indexed he).1).1, (hw₂ e.2 (mem_indexed he).1).2, hs⟩)
          h
        rw [map_snd_indexed, map_snd_indexed] at key
        rw [key]
      | null t' => exact absurd hw₂ (by simp [Val.WF])
      | unknown t' => exact absurd hw₂ (by simp [Val.WF])
      | _ => simp [Val.type] at ht₂
    | set ety xs =>
      cases v₂ with
      | set ety' xs' =>
        simp only [Val.type, Ty.set.injEq] at ht₂
        subst ht₂
        simp only [Val.type, Ty.plain] at hp
        simp only [Val.WF, Val.WFElems_iff] at hw₁ hw₂
        obtain ⟨texts₁, hall₁, hs₁⟩ := emits_sequence J (Or.inr rfl)
          (show (Val.set ety' xs).elementIterator = some (xs.map fun v => (v, v)) from rfl) h₁
        obtain ⟨texts₂, hall₂, hs₂⟩ := emits_sequence J (Or.inr rfl)
          (show (Val.set ety' xs').elementIterator = some (xs'.map fun v => (v, v)) from rfl) h₂
        rw [hs₁, hs₂] at h
        simp only [String.data_append, List.append_assoc] at h
        simp only [List.cons_append, List.nil_append, List.cons.injEq, true_and,
          List.append_cancel_left_eq] at h
        have hmem : ∀ {zs : List Val} {e : Val × Val}, e ∈ zs.map (fun v => (v, v)) → e.2 ∈ zs := by
          intro zs e he
          obtain ⟨v, hv, rfl⟩ := List.mem_map.1 he
          exact hv
        have key := @listBody_inj (fun v s => v.type = ety' ∧ v.WF ∧ Emits J v ety' false true s)
          (fun v s₁ s₂ p₁ p₂ => emits_fun J p₁.2.2 p₂.2.2)
          (fun v s p => emits_head J hJ p.1 p.2.1 hp p.2.2)
          (xs.map fun v => (v, v)) (xs'.map fun v => (v, v)) texts₁ texts₂ true _ _
          (fun e₁ he v₂ s₁ s₂ x y p₁ p₂ hxy =>
            ih e₁.2.weight
              (by
                have := (Val.elementIterator_lt
                  (show (Val.set ety' xs).elementIterator = some (xs.map fun v => (v, v))
                    from rfl) he).1
                omega)
              e₁.2 v₂ ety' true s₁ s₂ x y rfl p₁.1 p₂.1 p₁.2.1 p₂.2.1 hp p₁.2.2 p₂.2.2 hxy)
          (forall₂_imp_mem hall₁ fun e he s hs =>
            ⟨(hw₁ e.2 (hmem he)).1, (hw₁ e.2 (hmem he)).2, hs⟩)
          (forall₂_imp_mem hall₂ fun e he s hs =>
            ⟨(hw₂ e.2 (hmem he)).1, (hw₂ e.2 (hmem he)).2, hs⟩)
          h
        simp only [List.map_map, Function.comp_def, List.map_id'] at key
        rw [key]
      | null t' => exact absurd hw₂ (by simp [Val.WF])
      | unknown t' => exact absurd hw₂ (by simp [Val.WF])
      | _ => simp [Val.type] at ht₂
    | tuple xs =>
      cases v₂ with
      | tuple xs' =>
        simp only [Val.type, Ty.tuple.injEq] at ht₂
        simp only [Val.type, Ty.plain, Ty.plainList_iff] at hp
        simp only [Val.WF, Val.WFAll_iff] at hw₁ hw₂
        obtain ⟨texts₁, hall₁, -, hs₁⟩ := emits_tuple J
          (show (Val.tuple xs).elementIterator = some (indexed 0 xs) from rfl) h₁
        obtain ⟨texts₂, hall₂, -, hs₂⟩ := emits_tuple J
          (show (Val.tuple xs').elementIterator = some (indexed 0 xs') from rfl) h₂
        rw [hs₁, hs₂] at h
        simp only [String.data_append, List.append_assoc] at h
        simp only [List.cons_append, List.nil_append, List.cons.injEq, true_and,
          List.append_cancel_left_eq] at h
        have hall₂' : List.Forall₂
            (fun (e : (Val × Val) × Ty) s => Emits J e.1.2 e.2 false true s)
            ((indexed 0 xs').zip (Val.typeList xs')) texts₂ := by
          rw [ht₂]
          exact hall₂
        have hP : ∀ (zs : List Val), (∀ v ∈ zs, v.WF) → (∀ t ∈ Val.typeList zs, t.plain = true) →
            ∀ (texts : List String),
            List.Forall₂ (fun (e : (Val × Val) × Ty) s => Emits J e.1.2 e.2 false true s)
              ((indexed 0 zs).zip (Val.typeList zs)) texts →
            List.Forall₂ (fun (e : (Val × Val) × Ty) s =>
              e.1.2.type = e.2 ∧ e.1.2.WF ∧ e.2.plain = true ∧ Emits J e.1.2 e.2 false true s)
              ((indexed 0 zs).zip (Val.typeList zs)) texts := by
          intro zs hwf hpl texts hall
          refine forall₂_imp_mem hall fun e he s hs => ?_
          have hm : e ∈ (indexed 0 zs).zip (zs.map Val.type) := by
            rw [← Val.typeList_eq]
            exact he
          have := mem_zip_indexed hm
          exact ⟨this.2.symm, hwf _ this.1, hpl _ (List.of_mem_zip he).2, hs⟩
        have key := @tupleBody_inj
          (fun v t s => v.type = t ∧ v.WF ∧ t.plain = true ∧ Emits J v t false true s)
          (fun v t s₁ s₂ p₁ p₂ => emits_fun J p₁.2.2.2 p₂.2.2.2)
          (Val.typeList xs) (indexed 0 xs) (indexed 0 xs') texts₁ texts₂ 0 _ _
          (by rw [length_indexed, length_typeList])
          (by rw [length_indexed, ← ht₂, length_typeList])
          (fun e₁ he v₂ t s₁ s₂ x y p₁ p₂ hxy =>
            ih e₁.2.weight
              (by
                have := (Val.elementIterator_lt
                  (show (Val.tuple xs).elementIterator = some (indexed 0 xs) from rfl) he).1
                omega)
              e₁.2 v₂ t true s₁ s₂ x y rfl p₁.1 p₂.1 p₁.2.1 p₂.2.1 p₁.2.2.1 p₁.2.2.2 p₂.2.2.2
              hxy)
          (hP xs hw₁ hp texts₁ hall₁)
          (by
            have := hP xs' hw₂ (by rw [ht₂]; exact hp) texts₂ hall₂'
            rw [ht₂] at this
            exact this)
          h
        rw [map_snd_indexed, map_snd_indexed] at key
        rw [key]
      | null t' => exact absurd hw₂ (by simp [Val.WF])
      | unknown t' => exact absurd hw₂ (by simp [Val.WF])
      | _ => simp [Val.type] at ht₂
    | object attrs =>
      cases v₂ with
      | object attrs' =>
        simp only [Val.type, Ty.object.injEq] at ht₂
        simp only [Val.type, Ty.plain, Ty.plainAttrs_iff] at hp
        simp only [Val.WF, Val.WFAttrs_iff] at hw₁ hw₂
        obtain ⟨texts₁, hall₁, hs₁⟩ := emits_object J h₁
        obtain ⟨texts₂, hall₂, hs₂⟩ := emits_object J h₂
        rw [hs₁, hs₂] at h
        simp only [String.data_append, List.append_assoc] at h
        simp only [List.cons_append, List.nil_append, List.cons.injEq, true_and,
          List.append_cancel_left_eq] at h
        have key := @entriesText_inj
          (fun k s => ∃ av aty, (Val.object attrs).getAttr k = some av ∧
            lookup k (Val.typeAttrs attrs) = some aty ∧ Emits J av aty false false s)
          (fun k s => ∃ av aty, (Val.object attrs').getAttr k = some av ∧
            lookup k (Val.typeAttrs attrs) = some aty ∧ Emits J av aty false false s)
          (fun k => lookup k attrs = lookup k attrs')
          (sortStrings ((Val.typeAttrs attrs).map Prod.fst)) texts₁ texts₂ _ _
          (by
            rintro k hk s₁ s₂ x y ⟨av₁, aty₁, hv₁, ha₁, he₁⟩ ⟨av₂, aty₂, hv₂, ha₂, he₂⟩ hxy
            simp only [Val.getAttr] at hv₁ hv₂
            rw [ha₁] at ha₂
            cases ha₂
            have ht₁' : av₁.type = aty₁ := by
              rw [Val.typeAttrs_eq, lookup_map_type, hv₁] at ha₁
              exact Option.some.inj ha₁
            have ht₂' : av₂.type = aty₁ := by
              rw [← ht₂, Val.typeAttrs_eq, lookup_map_type, hv₂] at ha₁
              exact Option.some.inj ha₁
            have hlt : av₁.weight < (Val.object attrs).weight := by
              have := Val.le_weightAttrs (lookup_mem hv₁)
              simp only [Val.weight]
              omega
            have hav := ih av₁.weight hlt av₁ av₂ aty₁ false s₁ s₂ x y rfl ht₁' ht₂'
              (hw₁.2 _ (lookup_mem hv₁)) (hw₂.2 _ (lookup_mem hv₂))
              (hp _ (lookup_mem ha₁)) he₁ he₂ hxy
            subst hav
            exact ⟨emits_fun J he₁ he₂, hv₁.trans hv₂.symm⟩)
          hall₁ hall₂ h
        have hkeys : attrs.map Prod.fst = attrs'.map Prod.fst := by
          rw [← typeAttrs_map_fst attrs, ← typeAttrs_map_fst attrs', ht₂]
        rw [attrs_eq_of_lookup attrs attrs' hkeys hw₁.1 fun k hk =>
          key k ((sortStrings_perm _).mem_iff.2 (by rw [typeAttrs_map_fst]; exact hk))]
      | null t' => exact absurd hw₂ (by simp [Val.WF])
      | unknown t' => exact absurd hw₂ (by simp [Val.WF])
      | _ => simp [Val.type] at ht₂
    | map ety xs => simp [Val.type, Ty.plain] at hp
    | capsule name raw => simp [Val.type, Ty.plain] at hp
    | null t' => exact absurd hw₁ (by simp [Val.WF])
    | unknown t' => exact absurd hw₁ (by simp [Val.WF])

/-! ## The reference encoder delimits its string literals -/

theorem toNat_quote : (Char.ofNat 34).toNat = 34 := by decide

theorem toNat_backslash : (Char.ofNat 92).toNat = 92 := by decide

theorem toNat_n : ('n' : Char).toNat = 110 := by decide

theorem toNat_b : ('b' : Char).toNat = 98 := by decide

theorem toNat_f : ('f' : Char).toNat = 102 := by decide

theorem toNat_r : ('r' : Char).toNat = 114 := by decide

theorem toNat_t : ('t' : Char).toNat = 116 := by decide

theorem toNat_u : ('u' : Char).toNat = 117 := by decide

theorem toNat_zero : ('0' : Char).toNat = 48 := by decide

theorem toNat_two : ('2' : Char).toNat = 50 := by decide

theorem hexChar_toNat : ∀ m, m < 16 → (hexChar m).toNat = if m < 10 then 48 + m else 87 + m := by
  decide

theorem hexChar_inj (m n : Nat) (hm : m < 16) (hn : n < 16) (h : hexChar m = hexChar n) :
    m = n := by
  have e := congrArg Char.toNat h
  rw [hexChar_toNat m hm, hexChar_toNat n hn] at e
  split_ifs at e <;> omega

theorem hexChar_pair (m n : Nat) (hm : m < 64) (hn : n < 64)
    (h₁ : hexChar (m / 16) = hexChar (n / 16)) (h₂ : hexChar (m % 16) = hexChar (n % 16)) :
    m = n := by
  have a := hexChar_inj (m / 16) (n / 16) (by omega) (by omega) h₁
  have b := hexChar_inj (m % 16) (n % 16) (by omega) (by omega) h₂
  omega

set_option maxHeartbeats 4000000 in
/-- A text starts with the escape of at most one character. -/
theorem escapeChar_inj (c c' : Char) (R R' : List Char)
    (h : escapeChar c ++ R = escapeChar c' ++ R') : c = c' := by
  unfold escapeChar at h
  split_ifs at h with h1 h2 h3 h4 h5 h6 h7 h8 g1 g2 g3 g4 g5 g6 g7 g8 <;>
    simp only [List.cons_append, List.nil_append, List.cons.injEq, true_and] at h <;>
    try first
    | exact h.1
    | (exfalso
       have e := congrArg Char.toNat h.1
       simp only [toNat_backslash, toNat_n, toNat_r, toNat_t, toNat_u, toNat_zero,
         toNat_two, toNat_b, toNat_f] at e
       omega)
    | (exfalso
       have e := congrArg Char.toNat h.2.1
       simp only [toNat_backslash, toNat_n, toNat_r, toNat_t, toNat_u, toNat_zero,
         toNat_two, toNat_b, toNat_f] at e
       omega)
    | exact Char.toNat_eq (by omega)
  · exact Char.toNat_eq (hexChar_pair c.toNat c'.toNat (by omega) (by omega) h.1 h.2.1)
  · have e := hexChar_inj (c.toNat % 16) (c'.toNat % 16) (by omega) (by omega) h.1
    clear h
    have e' : c.toNat = c'.toNat := by omega
    exact Char.toNat_eq e'

/-- No escape starts with a double quote. -/
theorem escapeChar_head (c : Char) : ∃ a tl, escapeChar c = a :: tl ∧ a ≠ Char.ofNat 34 := by
  unfold escapeChar
  split_ifs with h1 h2 h3 h4 h5 h6 h7 h8
  all_goals
    refine ⟨_, _, rfl, fun e => ?_⟩
    have e' := congrArg Char.toNat e
    simp only [toNat_backslash, toNat_quote] at e'
    omega

/-- An escaped string ends at the first double quote behind it. -/
theorem escape_inj : ∀ (a b : List Char) (x y : List Char),
    escape a ++ Char.ofNat 34 :: x = escape b ++ Char.ofNat 34 :: y → a = b
  | [], [], _, _, _ => rfl
  | [], c :: cs, x, y, h => by
    exfalso
    obtain ⟨d, tl, hd, hne⟩ := escapeChar_head c
    rw [escape, escape, hd] at h
    simp only [List.nil_append, List.cons_append, List.cons.injEq] at h
    exact hne h.1.symm
  | c :: cs, [], x, y, h => by
    exfalso
    obtain ⟨d, tl, hd, hne⟩ := escapeChar_head c
    rw [escape, escape, hd] at h
    simp only [List.nil_append, List.cons_append, List.cons.injEq] at h
    exact hne h.1
  | c :: cs, c' :: cs', x, y, h => by
    rw [escape, escape, List.append_assoc, List.append_assoc] at h
    have hc := escapeChar_inj c c' _ _ h
    subst hc
    rw [List.append_cancel_left_eq] at h
    rw [escape_inj cs cs' x y h]

/-- The string literals of the reference encoder are delimited. -/
theorem refJSON_delimited : refJSON.Delimited where
  head := by
    intro s out h
    cases h
    exact ⟨_, rfl⟩
  inj := by
    intro s₁ s₂ o₁ o₂ x y h₁ h₂ h
    cases h₁
    cases h₂
    simp only [quote, List.cons_append, List.cons.injEq, true_and, List.append_assoc,
      List.singleton_append] at h
    exact String.ext (escape_inj s₁.data s₂.data x y h)

/-! ## Round trip -/

/-- C1, as stated, fails: two different maps of strings, one of them with a key
that contains `=`, `"` and a newline, are written as the same text. -/
theorem map_texts_collide :
    marshal refJSON (.map .string [("a=\"x\"\nb", .str "y")]) (.map .string) [] "" false false
        = .ok "\x7b\na=\"x\"\nb=\"y\"\n\x7d\n" ∧
      marshal refJSON (.map .string [("a", .str "x"), ("b", .str "y")]) (.map .string) [] ""
          false false
        = .ok "\x7b\na=\"x\"\nb=\"y\"\n\x7d\n" ∧
      Val.map .string [("a=\"x\"\nb", .str "y")]
        ≠ Val.map .string [("a", .str "x"), ("b", .str "y")] := by
  refine ⟨rfl, rfl, ?_⟩
  intro h
  injection h with _ h
  simp at h

/-- The null value of type Bool is written as `false` is. -/
theorem null_bool_text :
    marshal refJSON (.null .bool) .bool [] "" false false = .ok "false\n" ∧
      marshal refJSON (.bool false) .bool [] "" false false = .ok "false\n" :=
  ⟨rfl, rfl⟩

set_option maxRecDepth 100000 in
/-- The number `cty.NumberFloatVal(0.1)` makes, with 53 bits, and the number
the JSON parser makes of `0.1`, with 512 bits, are two numbers written as
the same text. -/
theorem number_texts_collide :
    marshal refJSON (.num (.fin false 3602879701896397 (-55) 53)) .number [] "" false false
        = .ok "0.1\n" ∧
      marshal refJSON (.num (.fin false
          10726246343954077679659219998564676901983492656473914702178849154977411224058837581441499438533522742152025486549188840683003106249557255957146919204867277
          (-515) 512)) .number [] "" false false
        = .ok "0.1\n" ∧
      mulPow 2 460 3602879701896397
        ≠ 10726246343954077679659219998564676901983492656473914702178849154977411224058837581441499438533522742152025486549188840683003106249557255957146919204867277 :=
  ⟨rfl, rfl, by decide⟩

/-- C1, amended. Round trip for the types built from String, Bool, list, set,
tuple and object (no Number, no map, no capsule) and values that are known
and not null: `marshal` is injective per type. Two well-formed values of such
a type that are written, outside key position, as the same text are the same
value, so the value can be recovered from the text; this holds for every
encoder whose string literals are delimited, as those of `json.Marshal`
are. -/
theorem marshal_injective (J : JSON) (hJ : J.Delimited) (t : Ty) (v₁ v₂ : Val)
    (path₁ path₂ : Path) (b : String) (isItem : Bool) (s : String)
    (hp : t.plain = true) (ht₁ : v₁.type = t) (ht₂ : v₂.type = t) (hw₁ : v₁.WF) (hw₂ : v₂.WF)
    (h₁ : marshal J v₁ t path₁ b false isItem = .ok s)
    (h₂ : marshal J v₂ t path₂ b false isItem = .ok s) : v₁ = v₂ := by
  obtain ⟨s₁, he₁, hs₁⟩ := emits_of_marshal J h₁
  obtain ⟨s₂, he₂, hs₂⟩ := emits_of_marshal J h₂
  have hd : s₁.data ++ [] = s₂.data ++ [] := by
    have := congrArg String.data (hs₁.symm.trans hs₂)
    simpa [String.data_append] using this
  exact emits_prefix_inj J hJ _ v₁ v₂ t isItem s₁ s₂ [] [] rfl ht₁ ht₂ hw₁ hw₂ hp he₁ he₂ hd

/-- C1, amended, at an object with a string, a list of strings and a tuple. -/
theorem marshal_injective_witness :
    Val.object [("a", .str "x=\"1\"\n"), ("l", .list .string [.str "12.5"]),
        ("t", .tuple [.bool true, .set .string []])]
      = Val.object [("a", .str "x=\"1\"\n"),
        ("l", .list .string [.str "12.5"]),
        ("t", .tuple [.bool true, .set .string []])] :=
  marshal_injective refJSON refJSON_delimited
    (.object [("a", .string), ("l", .list .string), ("t", .tuple [.bool, .set .string])])
    _ _ [] [.getAttr "doc"] "" false
    "\x7b\na=\"x=\\\"1\\\"\\n\"\nl=[\n\"12.5\"\n]\nt=[\ntrue\n,\n[\n]\n\n]\n\x7d\n"
    rfl rfl rfl
    (by simp [Val.WF, Val.WFAttrs, Val.WFElems, Val.WFAll, Val.type])
    (by simp [Val.WF, Val.WFAttrs, Val.WFElems, Val.WFAll, Val.type])
    rfl rfl

/-! ## Objects without attributes, objects as elements -/

/-- C11, as stated, fails: for the object without attributes `marshal` writes
the opening brace, a newline, the closing brace and a newline, which is not
the text of the two braces alone. -/
theorem empty_object_text :
    marshal refJSON (.object []) (.object []) [] "" false false = .ok "\x7b\n\x7d\n" ∧
      marshal refJSON (.object []) (.object []) [] "" false false ≠ .ok "\x7b\x7d" := by
  refine ⟨rfl, fun h => ?_⟩
  have h' : Res.ok "\x7b\n\x7d\n" = Res.ok "\x7b\x7d" := h
  injection h' with h'
  exact absurd h' (by decide)

/-- C11, amended. Serializing against the object type without attributes
always succeeds, whatever the value, the path and the key flag, and appends no
entry: outside a list or set exactly the opening brace, a newline, the closing
brace and a newline, as an element of a list or set the same without the last
newline. -/
theorem empty_object_emission (J : JSON) (val : Val) (path : Path) (b : String)
    (isKey isItem : Bool) :
    marshal J val (.object []) path b isKey isItem
      = .ok (if isItem then b ++ "\x7b\n\x7d" else b ++ "\x7b\n\x7d\n") := by
  rw [marshal_object]
  cases isItem <;>
    simp [sortStrings, objectLoop, Res.andThen, String.append_assoc]

/-- C12. An object that serializes with `isListSetItem` unset also serializes
with it set, and the text written then is the text of the default context
without its last character, the newline behind the closing brace: it ends with
the closing brace. -/
theorem object_item_text (J : JSON) (val : Val) (atys : List (String × Ty)) (path : Path)
    (b : String) (isKey : Bool) (s : String)
    (h : marshal J val (.object atys) path b isKey false = .ok s) :
    ∃ s', marshal J val (.object atys) path b isKey true = .ok s' ∧ s = s' ++ "\n" ∧
      s'.data.getLast? = some (Char.ofNat 125) ∧ s.data.dropLast = s'.data := by
  rw [marshal_object] at h ⊢
  cases hr : objectLoop (fun k p b => marshal J (.str k) .string p b true false)
      (fun av aty p b => marshal J av aty p b false false) atys val path
      (sortStrings (atys.map Prod.fst)) (b ++ "\x7b" ++ "\n") with
  | panic => rw [hr] at h; cases h
  | error e x => rw [hr] at h; cases h
  | ok out =>
    rw [hr] at h
    simp only [Res.andThen, Bool.not_false, Bool.not_true, if_true, Bool.false_eq_true,
      if_false, Res.ok.injEq] at h ⊢
    refine ⟨out ++ "\x7d", rfl, h.symm, ?_, ?_⟩
    · simp [String.data_append]
    · rw [← h]
      simp [String.data_append, List.dropLast_append_of_ne_nil, ← List.append_assoc]

/-- C12 at an object with a number attribute, under the reference encoder. -/
theorem object_item_text_witness :
    ∃ s', marshal refJSON (.object [("a", .num (.fin false 1 0 64))])
        (.object [("a", .number)]) [] "" false true = .ok s' ∧
      "\x7b\na=1\n\x7d\n" = s' ++ "\n" ∧
      s'.data.getLast? = some (Char.ofNat 125) ∧ ("\x7b\na=1\n\x7d\n").data.dropLast = s'.data :=
  object_item_text refJSON (.object [("a", .num (.fin false 1 0 64))])
    [("a", .number)] [] "" false "\x7b\na=1\n\x7d\n" rfl

/-! ## The two flags -/

/-- Against a type that is neither String nor an object type the two flags
are not looked at. -/
theorem marshal_flags_irrelevant (J : JSON) (val : Val) (t : Ty) (path : Path) (b : String)
    (k i k' i' : Bool) (hs : t ≠ .string) (ho : ∀ atys, t ≠ .object atys) :
    marshal J val t path b k i = marshal J val t path b k' i' := by
  cases t with
  | string => exact absurd rfl hs
  | number => rw [marshal_number, marshal_number]
  | bool => rw [marshal_bool, marshal_bool]
  | list ety => rw [marshal_list, marshal_list]
  | set ety => rw [marshal_set, marshal_set]
  | map ety => rw [marshal_map, marshal_map]
  | tuple etys => rw [marshal_tuple, marshal_tuple]
  | object atys => exact absurd rfl (ho atys)
  | capsule name => rw [marshal_capsule, marshal_capsule]
  | unsupported p name => rw [marshal_unsupported, marshal_unsupported]

/-- Against an object type the item flag decides on the newline behind the
closing brace and on nothing else. -/
theorem marshal_object_flags (J : JSON) (val : Val) (atys : List (String × Ty)) (path : Path)
    (b : String) (k i : Bool) :
    marshal J val (.object atys) path b k i
      = (objectLoop (fun k p b => marshal J (.str k) .string p b true false)
          (fun av aty p b => marshal J av aty p b false false)
          atys val path (sortStrings (atys.map Prod.fst))
          (b ++ "\x7b" ++ "\n")).andThen fun b =>
        .ok (b ++ "\x7d" ++ (if i then "" else "\n")) := by
  rw [marshal_object]
  cases i <;> simp

/-- A string whose encoding succeeds is written raw in key position and
encoded outside, and followed by a newline when both flags are unset. -/
theorem marshal_string_flags (J : JSON) (val : Val) (a q : String) (path : Path) (b : String)
    (k i : Bool) (ha : val.asString = some a) (hq : J.marshalString a = .ok q) :
    marshal J val .string path b k i
      = .ok (b ++ (if k then a else q) ++ (if !k && !i then "\n" else "")) := by
  rw [marshal_string, ha]
  cases k <;> cases i <;> simp [hq, Res.andThen]

/-- C13. With an encoder that, as `json.Marshal`, returns no error on a
string: under any two settings of the two flags `marshal` returns the same
error or no error, and succeeds under the one iff it succeeds under the other.
Against a type other than String and the object types it returns the same
result under both.  Against an object type the two texts are one text
followed by the newline where `isListSetItem` is unset.  Against String the
text is the raw string in key position and its encoding outside, followed by
the newline where both flags are unset. -/
theorem flags_quoting_newline_only (J : JSON) (hS : ∀ a, ∃ q, J.marshalString a = .ok q)
    (val : Val) (t : Ty) (path : Path) (b : String) (k i k' i' : Bool) :
    (marshal J val t path b k i).err = (marshal J val t path b k' i').err ∧
      ((∃ s, marshal J val t path b k i = .ok s) ↔
        ∃ s, marshal J val t path b k' i' = .ok s) ∧
      (t ≠ .string → (∀ atys, t ≠ .object atys) →
        marshal J val t path b k i = marshal J val t path b k' i') ∧
      (∀ atys s s', t = .object atys → marshal J val t path b k i = .ok s →
        marshal J val t path b k' i' = .ok s' →
        ∃ body, s = body ++ (if i then "" else "\n") ∧
          s' = body ++ (if i' then "" else "\n")) ∧
      (∀ a, t = .string → val.asString = some a → ∃ q, J.marshalString a = .ok q ∧
        marshal J val t path b k i
          = .ok (b ++ (if k then a else q) ++ (if !k && !i then "\n" else "")) ∧
        marshal J val t path b k' i'
          = .ok (b ++ (if k' then a else q) ++ (if !k' && !i' then "\n" else ""))) := by
  have hobj : ∀ atys s s', t = .object atys → marshal J val t path b k i = .ok s →
      marshal J val t path b k' i' = .ok s' →
      ∃ body, s = body ++ (if i then "" else "\n") ∧
        s' = body ++ (if i' then "" else "\n") := by
    intro atys s s' ht h h'
    subst ht
    rw [marshal_object_flags] at h h'
    cases hr : objectLoop (fun k p b => marshal J (.str k) .string p b true false)
        (fun av aty p b => marshal J av aty p b false false) atys val path
        (sortStrings (atys.map Prod.fst)) (b ++ "\x7b" ++ "\n") with
    | panic => rw [hr] at h; cases h
    | error e x => rw [hr] at h; cases h
    | ok out =>
      rw [hr] at h h'
      simp only [Res.andThen, Res.ok.injEq] at h h'
      exact ⟨out ++ "\x7d", h.symm, h'.symm⟩
  have hstr : ∀ a, t = .string → val.asString = some a → ∃ q, J.marshalString a = .ok q ∧
      marshal J val t path b k i
        = .ok (b ++ (if k then a else q) ++ (if !k && !i then "\n" else "")) ∧
      marshal J val t path b k' i'
        = .ok (b ++ (if k' then a else q) ++ (if !k' && !i' then "\n" else "")) := by
    intro a ht ha
    subst ht
    obtain ⟨q, hq⟩ := hS a
    exact ⟨q, hq, marshal_string_flags J val a q path b k i ha hq,
      marshal_string_flags J val a q path b k' i' ha hq⟩
  have hrest : t ≠ .string → (∀ atys, t ≠ .object atys) →
      marshal J val t path b k i = marshal J val t path b k' i' :=
    fun hs ho => marshal_flags_irrelevant J val t path b k i k' i' hs ho
  refine ⟨?_, ?_, hrest, hobj, hstr⟩
  · by_cases hs : t = .string
    · subst hs
      cases ha : val.asString with
      | none => simp only [marshal_string, ha]
      | some a =>
        obtain ⟨q, -, h, h'⟩ := hstr a rfl ha
        rw [h, h']
        rfl
    · by_cases ho : ∃ atys, t = .object atys
      · obtain ⟨atys, rfl⟩ := ho
        rw [marshal_object_flags, marshal_object_flags]
        cases objectLoop (fun k p b => marshal J (.str k) .string p b true false)
          (fun av aty p b => marshal J av aty p b false false) atys val path
          (sortStrings (atys.map Prod.fst)) (b ++ "\x7b" ++ "\n") <;> rfl
      · rw [hrest hs fun atys h => ho ⟨atys, h⟩]
  · by_cases hs : t = .string
    · subst hs
      cases ha : val.asString with
      | none => simp only [marshal_string, ha]
      | some a =>
        obtain ⟨q, -, h, h'⟩ := hstr a rfl ha
        rw [h, h']
        exact ⟨fun _ => ⟨_, rfl⟩, fun _ => ⟨_, rfl⟩⟩
    · by_cases ho : ∃ atys, t = .object atys
      · obtain ⟨atys, rfl⟩ := ho
        rw [marshal_object_flags, marshal_object_flags]
        cases objectLoop (fun k p b => marshal J (.str k) .string p b true false)
          (fun av aty p b => marshal J av aty p b false false) atys val path
          (sortStrings (atys.map Prod.fst)) (b ++ "\x7b" ++ "\n") with
        | ok out => exact ⟨fun _ => ⟨_, rfl⟩, fun _ => ⟨_, rfl⟩⟩
        | error e x =>
          constructor <;> (rintro ⟨s, h⟩; cases h)
        | panic =>
          constructor <;> (rintro ⟨s, h⟩; cases h)
      · rw [hrest hs fun atys h => ho ⟨atys, h⟩]

/-- C13 at the string `a"b` under the reference encoder, both flags unset
against both flags set. -/
theorem flags_quoting_newline_only_witness :
    (marshal refJSON (.str "a\"b") .string [] "" false false).err
        = (marshal refJSON (.str "a\"b") .string [] "" true true).err ∧
      ((∃ s, marshal refJSON (.str "a\"b") .string [] "" false false = .ok s) ↔
        ∃ s, marshal refJSON (.str "a\"b") .string [] "" true true = .ok s) ∧
      (Ty.string ≠ .string → (∀ atys, Ty.string ≠ .object atys) →
        marshal refJSON (.str "a\"b") .string [] "" false false
          = marshal refJSON (.str "a\"b") .string [] "" true true) ∧
      (∀ atys s s', Ty.string = .object atys →
        marshal refJSON (.str "a\"b") .string [] "" false false = .ok s →
        marshal refJSON (.str "a\"b") .string [] "" true true = .ok s' →
        ∃ body, s = body ++ (if false then "" else "\n") ∧
          s' = body ++ (if true then "" else "\n")) ∧
      (∀ a, Ty.string = .string → (Val.str "a\"b").asString = some a →
        ∃ q, refJSON.marshalString a = .ok q ∧
          marshal refJSON (.str "a\"b") .string [] "" false false
            = .ok ("" ++ (if false then a else q) ++ (if !false && !false then "\n" else "")) ∧
          marshal refJSON (.str "a\"b") .string [] "" true true
            = .ok ("" ++ (if true then a else q) ++ (if !true && !true then "\n" else ""))) :=
  flags_quoting_newline_only refJSON (fun a => ⟨quote a, rfl⟩) (.str "a\"b") .string [] ""
    false false true true

/-! ## The first failure ends the call -/

/-- A child that fails on the empty buffer fails on every buffer, with the
same error and with what it wrote behind the buffer. -/
theorem marshal_error_prepend (J : JSON) {val : Val} {t : Ty} {path : Path} {isKey isItem : Bool}
    {e : PathError} {c : String} (h : marshal J val t path "" isKey isItem = .error e c)
    (b : String) : marshal J val t path b isKey isItem = .error e (b ++ c) := by
  rw [marshal_prepend, h]
  rfl

theorem listLoop_abort (J : JSON) (ety : Ty) (path : Path) (ek ev : Val)
    (post : List (Val × Val)) (e : PathError) (c : String)
    (hc : marshal J ev ety (path ++ [.index ek]) "" false true = .error e c) :
    ∀ (pre : List (Val × Val)) (texts : List String) (first : Bool) (b : String),
      List.Forall₂ (fun x s => Emits J x.2 ety false true s) pre texts →
      listLoop (fun ev p b => marshal J ev ety p b false true) path
          (pre ++ (ek, ev) :: post) first b
        = .error e (b ++ listBody first texts
            ++ (if first && pre.isEmpty then "" else ",\n") ++ c)
  | _, _, first, b, .nil => by
    simp only [List.nil_append, listLoop, marshal_error_prepend J hc, Res.andThen_error,
      listBody]
    cases first <;> simp [String.append_assoc]
  | (xk, xv) :: pre, s :: texts, first, b, .cons h hrest => by
    have ih := fun b => listLoop_abort J ety path ek ev post e c hc pre texts false b hrest
    rw [List.cons_append]
    simp only [listLoop, marshal_of_emits J h, Res.andThen_ok, ih, listBody]
    cases first <;> simp [String.append_assoc]

theorem mapLoop_abort (J : JSON) (ety : Ty) (path : Path) (k : String) (ev : Val)
    (post : List (Val × Val)) (e : PathError) (c : String)
    (hc : marshal J ev ety (path ++ [.index (.str k)]) "" false false = .error e c) :
    ∀ (pre : List (String × Val)) (texts : List String) (b : String),
      List.Forall₂ (fun kv s => Emits J kv.2 ety false false s) pre texts →
      mapLoop (fun ek p b => marshal J ek ek.type p b true false)
          (fun ev p b => marshal J ev ety p b false false) path
          ((pre.map fun kv => (.str kv.1, kv.2)) ++ (.str k, ev) :: post) b
        = .error e (b ++ entriesText (pre.map Prod.fst) texts ++ k ++ "=" ++ c)
  | _, _, b, .nil => by
    simp only [List.map_nil, List.nil_append, mapLoop, Val.type, marshal_key, Res.andThen_ok,
      marshal_error_prepend J hc, Res.andThen_error, entriesText]
    simp [String.append_assoc]
  | (xk, xv) :: pre, s :: texts, b, .cons h hrest => by
    have ih := fun b => mapLoop_abort J ety path k ev post e c hc pre texts b hrest
    rw [List.map_cons, List.cons_append]
    simp only [mapLoop, Val.type, marshal_key,
      marshal_of_emits J h, Res.andThen_ok, ih, entriesText]
    simp [String.append_assoc]

theorem tupleLoop_abort (J : JSON) (etys : List Ty) (path : Path) (ek ev : Val) (ety : Ty)
    (post : List (Val × Val)) (e : PathError) (c : String)
    (hc : marshal J ev ety (path ++ [.index ek]) "" false true = .error e c) :
    ∀ (pre : List (Val × Val)) (texts : List String) (i : Nat) (b : String),
      List.Forall₂ (fun (x : (Val × Val) × Ty) s => Emits J x.1.2 x.2 false true s)
        (pre.zip (etys.drop i)) texts →
      pre.length ≤ (etys.drop i).length →
      etys[i + pre.length]? = some ety →
      tupleLoop (fun ev ety p b => marshal J ev ety p b false true) etys path
          (pre ++ (ek, ev) :: post) i b
        = .error e (b ++ tupleBody i texts
            ++ (if i + pre.length > 0 then ",\n" else "") ++ c)
  | [], texts, i, b, h, _, hi => by
    simp only [List.zip_nil_left] at h
    cases h
    simp only [List.length_nil, Nat.add_zero] at hi
    simp only [List.nil_append, tupleLoop, hi, marshal_error_prepend J hc, Res.andThen_error,
      tupleBody, List.length_nil, Nat.add_zero]
    by_cases h0 : i > 0 <;> simp [h0, String.append_assoc]
  | (xk, xv) :: pre, texts, i, b, h, hlen, hi => by
    cases hd : etys.drop i with
    | nil => simp [hd] at hlen
    | cons xty tl =>
      have hil : i < etys.length := by
        by_contra hcon
        rw [List.drop_eq_nil_of_le (by omega)] at hd
        cases hd
      have hcons := List.drop_eq_getElem_cons hil
      rw [hd] at hcons
      have hget : etys[i]? = some xty := by
        rw [List.getElem?_eq_getElem hil, (List.cons.inj hcons).1]
      have htl : etys.drop (i + 1) = tl := (List.cons.inj hcons).2.symm
      rw [hd] at h hlen
      simp only [List.zip_cons_cons] at h
      cases h with
      | cons h hrest =>
        rename_i s texts
        have ih := fun b => tupleLoop_abort J etys path ek ev ety post e c hc pre texts (i + 1) b
          (by rwa [htl]) (by rw [htl]; simpa using hlen)
          (by rw [← hi]; congr 1; simp only [List.length_cons]; omega)
        rw [List.cons_append]
        simp only [tupleLoop, hget, marshal_of_emits J h, Res.andThen_ok, ih,
          tupleBody, List.length_cons]
        have hpos : i + 1 + pre.length > 0 := by omega
        have hpos' : i + (pre.length + 1) > 0 := by omega
        by_cases h0 : i > 0 <;> simp [h0, hpos, hpos', String.append_assoc]

theorem objectLoop_abort (J : JSON) (atys : List (String × Ty)) (val : Val) (path : Path)
    (k : String) (av : Val) (aty : Ty) (post : List String) (e : PathError) (c : String)
    (hv : val.getAttr k = some av) (ht : lookup k atys = some aty)
    (hc : marshal J av aty (path ++ [.getAttr k]) "" false false = .error e c) :
    ∀ (pre : List String) (texts : List String) (b : String),
      List.Forall₂ (fun k' s => ∃ av' aty', val.getAttr k' = some av' ∧
        lookup k' atys = some aty' ∧ Emits J av' aty' false false s) pre texts →
      objectLoop (fun k p b => marshal J (.str k) .string p b true false)
          (fun av aty p b => marshal J av aty p b false false) atys val path
          (pre ++ k :: post) b
        = .error e (b ++ entriesText pre texts ++ k ++ "=" ++ c)
  | _, _, b, .nil => by
    simp only [List.nil_append, objectLoop, hv, ht, marshal_key, Res.andThen_ok,
      marshal_error_prepend J hc, Res.andThen_error, entriesText]
    simp [String.append_assoc]
  | x :: pre, s :: texts, b, .cons h hrest => by
    obtain ⟨av', aty', hv', ht', h⟩ := h
    have ih := fun b => objectLoop_abort J atys val path k av aty post e c hv ht hc pre texts b
      hrest
    rw [List.cons_append, objectLoop, ht', hv']
    simp only []
    rw [marshal_key, Res.andThen_ok, marshal_of_emits J h, Res.andThen_ok, ih]
    simp [entriesText, String.append_assoc]

theorem hclconvLoop_abort (J : JSON) (name : String) (v : Val)
    (post : List (String × Except String Val)) (e : PathError) (c : String)
    (hc : marshal J v v.type [] "" false false = .error e c) :
    ∀ (pre : List (String × Except String Val)) (texts : List String) (content : String),
      List.Forall₂ (fun a s => ∃ w, a.2 = .ok w ∧ Emits J w w.type false false s) pre texts →
      hclconvLoop J (pre ++ (name, .ok v) :: post) content
        = some ("", some ("error while marshalling JSON value to HCL: " ++ e.msg))
  | _, _, content, .nil => by
    simp only [List.nil_append, hclconvLoop, hc]
  | (n, x) :: pre, s :: texts, content, .cons h hrest => by
    obtain ⟨w, hw, h⟩ := h
    have hx : x = .ok w := hw
    subst hx
    have h' : marshal J w w.type [] "" false false = .ok s := h
    rw [List.cons_append, hclconvLoop]
    simp only [h']
    exact hclconvLoop_abort J name v post e c hc pre texts _ hrest

theorem hclconvLoop_fail (J : JSON) (name : String) (v : Val) (e : PathError) (c : String)
    (hc : marshal J v v.type [] "" false false = .error e c) :
    ∀ (attributes : List (String × Except String Val)) (content : String),
      (name, .ok v) ∈ attributes →
      hclconvLoop J attributes content = none ∨
        ∃ msg, hclconvLoop J attributes content = some ("", some msg)
  | [], _, h => by simp at h
  | (n, x) :: rest, content, h => by
    cases x with
    | error d => exact Or.inr ⟨_, rfl⟩
    | ok w =>
      cases hr : marshal J w w.type [] "" false false with
      | panic => exact Or.inl (by simp only [hclconvLoop, hr])
      | error e' c' =>
        exact Or.inr ⟨"error while marshalling JSON value to HCL: " ++ e'.msg,
          by simp only [hclconvLoop, hr]⟩
      | ok out =>
        have hstep : hclconvLoop J ((n, .ok w) :: rest) content
            = hclconvLoop J rest (content ++ (n ++ " = " ++ out)) := by
          simp only [hclconvLoop, hr]
        rw [hstep]
        rcases List.mem_cons.1 h with heq | hmem
        · have hvw : v = w := by
            have := (Prod.mk.inj heq).2
            injection this
          subst hvw
          rw [hc] at hr
          cases hr
        · exact hclconvLoop_fail J name v e c hc rest _ hmem

/-- C14. When a child of a list, set, map, tuple or object fails and the
children in front of it in iteration order have been written, `marshal`
returns the error of that child, and the buffer holds what was written up to
the failure and nothing behind it, whatever siblings follow.  When `marshal`
fails for a top-level attribute and has succeeded for those in front of it,
`hclconv` returns the empty string and the error with the message of that
failure; and whenever `marshal` fails for one of the top-level attributes,
`hclconv` returns the empty string and an error, unless it has panicked
before. -/
theorem first_failure_aborts (J : JSON) :
    (∀ (val : Val) (t ety : Ty) (path : Path) (b : String) (isKey isItem : Bool)
        (pre post : List (Val × Val)) (ek ev : Val) (texts : List String) (e : PathError)
        (c : String),
      (t = .list ety ∨ t = .set ety) →
      val.elementIterator = some (pre ++ (ek, ev) :: post) →
      List.Forall₂ (fun x s => Emits J x.2 ety false true s) pre texts →
      marshal J ev ety (path ++ [.index ek]) "" false true = .error e c →
      marshal J val t path b isKey isItem
        = .error e (b ++ "[\n" ++ listBody true texts
            ++ (if pre.isEmpty then "" else ",\n") ++ c)) ∧
    (∀ (val : Val) (ety : Ty) (path : Path) (b : String) (isKey isItem : Bool)
        (pre : List (String × Val)) (post : List (Val × Val)) (k : String) (ev : Val)
        (texts : List String) (e : PathError) (c : String),
      val.elementIterator
        = some ((pre.map fun kv => (.str kv.1, kv.2)) ++ (.str k, ev) :: post) →
      List.Forall₂ (fun kv s => Emits J kv.2 ety false false s) pre texts →
      marshal J ev ety (path ++ [.index (.str k)]) "" false false = .error e c →
      marshal J val (.map ety) path b isKey isItem
        = .error e (b ++ "\x7b\n" ++ entriesText (pre.map Prod.fst) texts ++ k ++ "=" ++ c)) ∧
    (∀ (val : Val) (etys : List Ty) (ety : Ty) (path : Path) (b : String)
        (isKey isItem : Bool) (pre post : List (Val × Val)) (ek ev : Val)
        (texts : List String) (e : PathError) (c : String),
      val.elementIterator = some (pre ++ (ek, ev) :: post) →
      List.Forall₂ (fun (x : (Val × Val) × Ty) s => Emits J x.1.2 x.2 false true s)
        (pre.zip etys) texts →
      etys[pre.length]? = some ety →
      marshal J ev ety (path ++ [.index ek]) "" false true = .error e c →
      marshal J val (.tuple etys) path b isKey isItem
        = .error e (b ++ "[\n" ++ tupleBody 0 texts
            ++ (if pre.isEmpty then "" else ",\n") ++ c)) ∧
    (∀ (val : Val) (atys : List (String × Ty)) (path : Path) (b : String)
        (isKey isItem : Bool) (pre post : List String) (k : String) (av : Val) (aty : Ty)
        (texts : List String) (e : PathError) (c : String),
      sortStrings (atys.map Prod.fst) = pre ++ k :: post →
      List.Forall₂ (fun k' s => ∃ av' aty', val.getAttr k' = some av' ∧
        lookup k' atys = some aty' ∧ Emits J av' aty' false false s) pre texts →
      val.getAttr k = some av → lookup k atys = some aty →
      marshal J av aty (path ++ [.getAttr k]) "" false false = .error e c →
      marshal J val (.object atys) path b isKey isItem
        = .error e (b ++ "\x7b\n" ++ entriesText pre texts ++ k ++ "=" ++ c)) ∧
    (∀ (pre post : List (String × Except String Val)) (name : String) (v : Val)
        (texts : List String) (e : PathError) (c : String),
      List.Forall₂ (fun a s => ∃ w, a.2 = .ok w ∧ Emits J w w.type false false s) pre texts →
      marshal J v v.type [] "" false false = .error e c →
      hclconv J (pre ++ (name, .ok v) :: post)
        = some ("", some ("error while marshalling JSON value to HCL: " ++ e.msg))) ∧
    (∀ (attributes : List (String × Except String Val)) (name : String) (v : Val)
        (e : PathError) (c : String),
      (name, .ok v) ∈ attributes →
      marshal J v v.type [] "" false false = .error e c →
      hclconv J attributes = none ∨ ∃ msg, hclconv J attributes = some ("", some msg)) := by
  refine ⟨?_, ?_, ?_, ?_, ?_, ?_⟩
  · intro val t ety path b isKey isItem pre post ek ev texts e c ht he hpre hc
    have key : (listLoop (fun ev p b => marshal J ev ety p b false true) path
        (pre ++ (ek, ev) :: post) true (b ++ "[" ++ "\n")).andThen
          (fun b => Res.ok (b ++ "]" ++ "\n"))
        = .error e (b ++ "[\n" ++ listBody true texts
            ++ (if pre.isEmpty then "" else ",\n") ++ c) := by
      rw [listLoop_abort J ety path ek ev post e c hc pre texts true _ hpre, Res.andThen_error,
        Bool.true_and]
      simp [String.append_assoc]
    rcases ht with rfl | rfl
    · rw [marshal_list, he]
      exact key
    · rw [marshal_set, he]
      exact key
  · intro val ety path b isKey isItem pre post k ev texts e c he hpre hc
    rw [marshal_map, he]
    simp only []
    rw [mapLoop_abort J ety path k ev post e c hc pre texts _ hpre, Res.andThen_error]
    simp [String.append_assoc]
  · intro val etys ety path b isKey isItem pre post ek ev texts e c he hpre hi hc
    have hlen : pre.length ≤ etys.length := by
      by_contra hcon
      rw [List.getElem?_eq_none (by omega)] at hi
      cases hi
    rw [marshal_tuple, he]
    simp only []
    rw [tupleLoop_abort J etys path ek ev ety post e c hc pre texts 0 _
      (by simpa using hpre) (by simpa using hlen) (by simpa using hi), Res.andThen_error]
    cases pre <;> simp [String.append_assoc]
  · intro val atys path b isKey isItem pre post k av aty texts e c hn hpre hv ht hc
    rw [marshal_object, hn,
      objectLoop_abort J atys val path k av aty post e c hv ht hc pre texts _ hpre,
      Res.andThen_error]
    simp [String.append_assoc]
  · intro pre post name v texts e c hpre hc
    exact hclconvLoop_abort J name v post e c hc pre texts "" hpre
  · intro attributes name v e c hmem hc
    exact hclconvLoop_fail J name v e c hc attributes "" hmem

/-- C14 at a list of three capsules under the reference encoder, of which the
second, a `NaN`, and the third, a channel, are rejected, and at a document
whose second attribute is that list. -/
theorem first_failure_aborts_witness :
    marshal refJSON
        (.list (.capsule "c") [.capsule "c" (.int 1), .capsule "c" .nan,
          .capsule "c" (.chan "int")])
        (.list (.capsule "c")) [] "" false false
      = .error ⟨"json: unsupported value: NaN", [.index (.num (Number.ofNat 1))]⟩
          "[\n1\n,\n" ∧
    hclconv refJSON [("a", .ok (.bool true)),
        ("b", .ok (.list (.capsule "c") [.capsule "c" (.int 1), .capsule "c" .nan,
          .capsule "c" (.chan "int")])),
        ("c", .ok (.str "x"))]
      = some ("", some "error while marshalling JSON value to HCL: json: unsupported value: NaN") :=
  ⟨(first_failure_aborts refJSON).1 _ (.list (.capsule "c")) (.capsule "c") [] "" false false
      [(.num (Number.ofNat 0), .capsule "c" (.int 1))]
      [(.num (Number.ofNat 2), .capsule "c" (.chan "int"))]
      (.num (Number.ofNat 1)) (.capsule "c" .nan) ["1"]
      ⟨"json: unsupported value: NaN", [.index (.num (Number.ofNat 1))]⟩ ""
      (Or.inl rfl) rfl (.cons rfl .nil) rfl,
    (first_failure_aborts refJSON).2.2.2.2.1 [("a", .ok (.bool true))] [("c", .ok (.str "x"))]
      "b" (.list (.capsule "c") [.capsule "c" (.int 1), .capsule "c" .nan,
          .capsule "c" (.chan "int")]) ["true\n"]
      ⟨"json: unsupported value: NaN", [.index (.num (Number.ofNat 1))]⟩ "[\n1\n,\n"
      (.cons ⟨_, rfl, rfl⟩ .nil) rfl⟩

/-! ## Unsupported types fail, values that fit their type are written -/

theorem forall₂_of_forall_exists {α β : Type} {R : α → β → Prop} :
    ∀ (xs : List α), (∀ x ∈ xs, ∃ s, R x s) → ∃ texts, List.Forall₂ R xs texts
  | [], _ => ⟨[], .nil⟩
  | x :: xs, h => by
    obtain ⟨s, hs⟩ := h x (List.mem_cons_self _ _)
    obtain ⟨texts, ht⟩ := forall₂_of_forall_exists xs fun y hy => h y (List.mem_cons_of_mem _ hy)
    exact ⟨s :: texts, .cons hs ht⟩

theorem forall₂_indexed_zip (R : Val → Ty → String → Prop) :
    ∀ (xs : List Val) (etys : List Ty) (texts : List String) (i : Nat),
      List.Forall₂ (fun (p : Val × Ty) s => R p.1 p.2 s) (xs.zip etys) texts →
      List.Forall₂ (fun (e : (Val × Val) × Ty) s => R e.1.2 e.2 s)
        ((indexed i xs).zip etys) texts
  | [], _, _, _, h => by
    simp only [List.zip_nil_left] at h
    cases h
    simp only [indexed, List.zip_nil_left]
    exact .nil
  | _ :: _, [], _, _, h => by
    simp only [List.zip_nil_right] at h
    cases h
    simp only [indexed, List.zip_nil_right]
    exact .nil
  | x :: xs, ety :: etys, _, i, h => by
    simp only [List.zip_cons_cons] at h
    cases h with
    | cons h hrest =>
      simp only [indexed, List.zip_cons_cons]
      exact .cons h (forall₂_indexed_zip R xs etys _ (i + 1) hrest)

theorem lookup_of_mem_keys {α : Type} {k : String} :
    ∀ {l : List (String × α)}, k ∈ l.map Prod.fst → ∃ v, lookup k l = some v
  | [], h => by simp at h
  | (k', v') :: rest, h => by
    unfold lookup
    by_cases hk : k' = k
    · exact ⟨v', by simp [hk]⟩
    · simp only [hk, if_false]
      simp only [List.map_cons, List.mem_cons] at h
      rcases h with h | h
      · exact absurd h.symm hk
      · exact lookup_of_mem_keys h

theorem objectLoop_emits (J : JSON) (atys : List (String × Ty)) (val : Val) (path : Path) :
    ∀ (names : List String) (texts : List String) (b : String),
      List.Forall₂ (fun k s => ∃ av aty, val.getAttr k = some av ∧ lookup k atys = some aty ∧
        Emits J av aty false false s) names texts →
      objectLoop (fun k p b => marshal J (.str k) .string p b true false)
          (fun av aty p b => marshal J av aty p b false false) atys val path names b
        = .ok (b ++ entriesText names texts)
  | _, _, b, .nil => by simp [objectLoop, entriesText]
  | k :: names, s :: texts, b, .cons h hrest => by
    obtain ⟨av, aty, hv, ht, h⟩ := h
    rw [objectLoop, ht, hv]
    simp only []
    rw [marshal_key, Res.andThen_ok, marshal_of_emits J h, Res.andThen_ok,
      objectLoop_emits J atys val path names texts _ hrest]
    simp [entriesText, String.append_assoc]

theorem Ty.supportedList_iff : ∀ {ts : List Ty},
    Ty.supportedList ts = true ↔ ∀ t ∈ ts, t.supported = true
  | [] => by simp [Ty.supportedList]
  | t :: ts => by simp [Ty.supportedList, @Ty.supportedList_iff ts]

theorem Ty.supportedAttrs_iff : ∀ {ts : List (String × Ty)},
    Ty.supportedAttrs ts = true ↔ ∀ kt ∈ ts, kt.2.supported = true
  | [] => by simp [Ty.supportedAttrs]
  | (k, t) :: ts => by simp [Ty.supportedAttrs, @Ty.supportedAttrs_iff ts]

theorem Val.WFEntries_iff (ety : Ty) : ∀ {vs : List (String × Val)},
    Val.WFEntries ety vs ↔ ∀ kv ∈ vs, kv.2.type = ety ∧ kv.2.WF
  | [] => by simp [Val.WFEntries]
  | (k, v) :: vs => by simp [Val.WFEntries, @Val.WFEntries_iff ety vs, and_assoc]

theorem mem_zip_map_type {p : Val × Ty} :
    ∀ {xs : List Val}, p ∈ xs.zip (xs.map Val.type) → p.1 ∈ xs ∧ p.2 = p.1.type
  | [], h => by simp at h
  | x :: xs, h => by
    rw [List.map_cons, List.zip_cons_cons] at h
    rcases List.mem_cons.1 h with rfl | h
    · exact ⟨List.mem_cons_self _ _, rfl⟩
    · exact ⟨List.mem_cons_of_mem _ (mem_zip_map_type h).1, (mem_zip_map_type h).2⟩

/-- A well-formed value whose type is built from the supported shapes fits
its type. -/
theorem fits_of_wf : ∀ (n : Nat) (val : Val), val.weight ≤ n → val.WF →
    val.type.supported = true → Fits val val.type
  | n, .str s, _, _, _ => .str s
  | n, .num x, _, _, _ => .num x
  | n, .bool v, _, _, _ => .bool v
  | n, .capsule name raw, _, _, hs => by simp [Val.type, Ty.supported] at hs
  | n, .null t, _, hw, _ => by simp [Val.WF] at hw
  | n, .unknown t, _, hw, _ => by simp [Val.WF] at hw
  | 0, .list ety elems, hn, _, _ => by simp [Val.weight] at hn
  | 0, .set ety elems, hn, _, _ => by simp [Val.weight] at hn
  | 0, .map ety elems, hn, _, _ => by simp [Val.weight] at hn
  | 0, .tuple elems, hn, _, _ => by simp [Val.weight] at hn
  | 0, .object attrs, hn, _, _ => by simp [Val.weight] at hn
  | n + 1, .list ety elems, hn, hw, hs => by
    simp only [Val.weight] at hn
    simp only [Val.WF, Val.WFElems_iff] at hw
    simp only [Val.type, Ty.supported] at hs
    refine .list ety ety elems fun x hx => ?_
    have hle := Val.le_weightList hx
    have := fits_of_wf n x (by omega) (hw x hx).2 (by rw [(hw x hx).1]; exact hs)
    rwa [(hw x hx).1] at this
  | n + 1, .set ety elems, hn, hw, hs => by
    simp only [Val.weight] at hn
    simp only [Val.WF, Val.WFElems_iff] at hw
    simp only [Val.type, Ty.supported] at hs
    refine .set ety ety elems fun x hx => ?_
    have hle := Val.le_weightList hx
    have := fits_of_wf n x (by omega) (hw x hx).2 (by rw [(hw x hx).1]; exact hs)
    rwa [(hw x hx).1] at this
  | n + 1, .map ety elems, hn, hw, hs => by
    simp only [Val.weight] at hn
    simp only [Val.WF, Val.WFEntries_iff] at hw
    simp only [Val.type, Ty.supported] at hs
    refine .map ety ety elems fun kv hkv => ?_
    have hle := @Val.le_weightAttrs kv.1 kv.2 elems hkv
    have := fits_of_wf n kv.2 (by omega) (hw.2 kv hkv).2 (by rw [(hw.2 kv hkv).1]; exact hs)
    rwa [(hw.2 kv hkv).1] at this
  | n + 1, .tuple elems, hn, hw, hs => by
    simp only [Val.weight] at hn
    simp only [Val.WF, Val.WFAll_iff] at hw
    simp only [Val.type, Ty.supported, Val.typeList_eq, Ty.supportedList_iff] at hs
    rw [Val.type, Val.typeList_eq]
    refine .tuple elems _ (by simp) fun p hp => ?_
    obtain ⟨hmem, hty⟩ := mem_zip_map_type hp
    have hle := Val.le_weightList hmem
    have := fits_of_wf n p.1 (by omega) (hw p.1 hmem)
      (hs _ (List.mem_map.2 ⟨p.1, hmem, rfl⟩))
    rwa [← hty] at this
  | n + 1, .object attrs, hn, hw, hs => by
    simp only [Val.weight] at hn
    simp only [Val.WF, Val.WFAttrs_iff] at hw
    simp only [Val.type, Ty.supported, Val.typeAttrs_eq, Ty.supportedAttrs_iff] at hs
    rw [Val.type, Val.typeAttrs_eq]
    refine .object attrs _ (fun k aty h => ?_) (fun k aty av h hav => ?_)
    · rw [lookup_map_type] at h
      cases hl : lookup k attrs with
      | none => rw [hl] at h; cases h
      | some av => rfl
    · rw [lookup_map_type, hav] at h
      have haty : av.type = aty := by simpa using h
      have hmem := lookup_mem hav
      have hle := Val.le_weightAttrs hmem
      have := fits_of_wf n av (by omega) (hw.2 _ hmem)
        (hs _ (List.mem_map.2 ⟨(k, av), hmem, rfl⟩))
      rwa [haty] at this

/-- A value that fits its type is written, under both flags, by every encoder
that returns no error on a string. -/
theorem fits_emits (J : JSON) (hS : ∀ a, ∃ q, J.marshalString a = .ok q) {val : Val} {t : Ty}
    (h : Fits val t) : ∀ isKey isItem : Bool, ∃ s, Emits J val t isKey isItem s := by
  induction h with
  | str a =>
    intro isKey isItem
    obtain ⟨q, hq⟩ := hS a
    exact ⟨_, (marshal_string_flags J (.str a) a q [] "" isKey isItem rfl hq)⟩
  | num n => exact fun _ _ => ⟨_, rfl⟩
  | bool v => exact fun _ _ => ⟨_, rfl⟩
  | list ety ety' elems _ ih =>
    intro isKey isItem
    obtain ⟨texts, ht⟩ := forall₂_of_forall_exists elems fun x hx => ih x hx false true
    exact ⟨_, by
      unfold Emits
      rw [marshal_list]
      simp only [Val.elementIterator]
      rw [listLoop_emits J ety [] _ texts true _ (forall₂_indexed elems texts 0 ht)]
      rfl⟩
  | set ety ety' elems _ ih =>
    intro isKey isItem
    obtain ⟨texts, ht⟩ := forall₂_of_forall_exists elems fun x hx => ih x hx false true
    exact ⟨_, by
      unfold Emits
      rw [marshal_set]
      simp only [Val.elementIterator]
      rw [listLoop_emits J ety [] _ texts true _ (List.forall₂_map_left_iff.2 ht)]
      rfl⟩
  | map ety ety' elems _ ih =>
    intro isKey isItem
    obtain ⟨texts, ht⟩ := forall₂_of_forall_exists elems fun x hx => ih x hx false false
    exact ⟨_, by
      unfold Emits
      rw [marshal_map]
      simp only [Val.elementIterator]
      rw [mapLoop_emits J ety [] elems texts _ ht]
      rfl⟩
  | tuple elems etys hlen _ ih =>
    intro isKey isItem
    obtain ⟨texts, ht⟩ := forall₂_of_forall_exists (elems.zip etys)
      fun p hp => ih p hp false true
    have ht' := forall₂_indexed_zip (fun x t s => Emits J x t false true s)
      elems etys texts 0 ht
    exact ⟨_, by
      unfold Emits
      rw [marshal_tuple]
      simp only [Val.elementIterator]
      rw [tupleLoop_emits J etys [] _ texts 0 _ (by simpa using ht')
        (by simp [length_indexed, hlen])]
      rfl⟩
  | object attrs atys hdom _ ih =>
    intro isKey isItem
    have hall : ∀ k ∈ sortStrings (atys.map Prod.fst), ∃ s, ∃ av aty,
        (Val.object attrs).getAttr k = some av ∧ lookup k atys = some aty ∧
          Emits J av aty false false s := by
      intro k hk
      have hk' : k ∈ atys.map Prod.fst := (sortStrings_perm _).mem_iff.1 hk
      obtain ⟨aty, haty⟩ := lookup_of_mem_keys hk'
      have hsome := hdom k aty haty
      cases hav : lookup k attrs with
      | none => rw [hav] at hsome; cases hsome
      | some av =>
        obtain ⟨s, hs⟩ := ih k aty av haty hav false false
        exact ⟨s, av, aty, hav, haty, hs⟩
    obtain ⟨texts, ht⟩ := forall₂_of_forall_exists _ hall
    exact ⟨_, by
      unfold Emits
      rw [marshal_object, objectLoop_emits J atys _ [] _ texts _ ht]
      rfl⟩

/-- C15. Against a type that is none of String, Number, Bool, list, set, map,
tuple, object and capsule `marshal` returns an error that carries the path it
was given, and leaves the buffer as it was.  With an encoder that, as
`json.Marshal`, returns no error on a string, every value that fits a type
built from String, Number, Bool, list, set, map, tuple and object is written:
`marshal` returns no error, under both flags, whatever the path and the
buffer.  So is, against its own type, every well-formed value whose type is
built from these shapes. -/
theorem unsupported_fails_fitting_succeeds (J : JSON)
    (hS : ∀ a, ∃ q, J.marshalString a = .ok q) :
    (∀ (val : Val) (isPrimitive : Bool) (name : String) (path : Path) (b : String)
        (isKey isItem : Bool),
      marshal J val (.unsupported isPrimitive name) path b isKey isItem
        = .error ⟨(if isPrimitive then "value has unsupported primitive type: "
            else "cannot convert to HCL ") ++ name, path⟩ b) ∧
    (∀ (val : Val) (t : Ty), Fits val t → ∀ (path : Path) (b : String) (isKey isItem : Bool),
      ∃ s, marshal J val t path b isKey isItem = .ok (b ++ s)) ∧
    (∀ (val : Val), val.WF → val.type.supported = true →
      ∀ (path : Path) (b : String) (isKey isItem : Bool),
      ∃ s, marshal J val val.type path b isKey isItem = .ok (b ++ s)) := by
  refine ⟨fun val isPrimitive name path b isKey isItem =>
    marshal_unsupported J val isPrimitive name path b isKey isItem, ?_, ?_⟩
  · intro val t h path b isKey isItem
    obtain ⟨s, hs⟩ := fits_emits J hS h isKey isItem
    exact ⟨s, marshal_of_emits J hs path b⟩
  · intro val hw ht path b isKey isItem
    obtain ⟨s, hs⟩ := fits_emits J hS (fits_of_wf val.weight val (Nat.le_refl _) hw ht)
      isKey isItem
    exact ⟨s, marshal_of_emits J hs path b⟩

/-- C15 under the reference encoder, at the dynamic pseudo-type and at a tuple
of a list of numbers and a string, once against the type written out and once
against its own type. -/
theorem unsupported_fails_fitting_succeeds_witness :
    marshal refJSON (.null Ty.dynamic) Ty.dynamic [.getAttr "a"] "x" false false
        = .error ⟨"cannot convert to HCL dynamic", [.getAttr "a"]⟩ "x" ∧
      (∃ s, marshal refJSON (.tuple [.list .number [.num (.fin false 3 (-1) 53)], .str "x"])
        (.tuple [.list .number, .string]) [] "" false false = .ok ("" ++ s)) ∧
      ∃ s, marshal refJSON (.tuple [.list .number [.num (.fin false 3 (-1) 53)], .str "x"])
        (Val.tuple [.list .number [.num (.fin false 3 (-1) 53)], .str "x"]).type [] "" false
        false = .ok ("" ++ s) :=
  ⟨(unsupported_fails_fitting_succeeds refJSON fun a => ⟨quote a, rfl⟩).1 (.null Ty.dynamic) false
      "dynamic" [.getAttr "a"] "x" false false,
    (unsupported_fails_fitting_succeeds refJSON fun a => ⟨quote a, rfl⟩).2.1 _ _
      (.tuple [.list .number [.num (.fin false 3 (-1) 53)], .str "x"] [.list .number, .string]
        rfl (by
          intro p hp
          simp only [List.zip_cons_cons, List.zip_nil_left, List.mem_cons, List.mem_singleton,
            List.not_mem_nil, or_false] at hp
          rcases hp with rfl | rfl
          · exact .list .number .number _ (by
              intro x hx
              simp only [List.mem_singleton] at hx
              subst hx
              exact .num _)
          · exact .str _))
      [] "" false false,
    (unsupported_fails_fitting_succeeds refJSON fun a => ⟨quote a, rfl⟩).2.2
      (.tuple [.list .number [.num (.fin false 3 (-1) 53)], .str "x"])
      (by simp [Val.WF, Val.WFAll, Val.WFElems, Val.type])
      rfl [] "" false false⟩

/-! ## Tuples of the declared arity -/

theorem tupleLoop_eq_pairLoop (f : Val → Ty → Path → String → Res) (etys : List Ty)
    (path : Path) :
    ∀ (xs : List Val) (i : Nat) (b : String), xs.length ≤ (etys.drop i).length →
      tupleLoop f etys path (indexed i xs) i b = pairLoop f path (xs.zip (etys.drop i)) i b
  | [], _, _, _ => rfl
  | x :: xs, i, b, hlen => by
    cases hd : etys.drop i with
    | nil => simp [hd] at hlen
    | cons ety tl =>
      have hil : i < etys.length := by
        by_contra hcon
        rw [List.drop_eq_nil_of_le (by omega)] at hd
        cases hd
      have hcons := List.drop_eq_getElem_cons hil
      rw [hd] at hcons
      have hget : etys[i]? = some ety := by
        rw [List.getElem?_eq_getElem hil, (List.cons.inj hcons).1]
      have htl : etys.drop (i + 1) = tl := (List.cons.inj hcons).2.symm
      rw [hd] at hlen
      rw [indexed, tupleLoop, hget, List.zip_cons_cons, pairLoop]
      simp only []
      refine Res.andThen_congr _ _ _ fun b => ?_
      rw [← htl]
      exact tupleLoop_eq_pairLoop f etys path xs (i + 1) b (by rw [htl]; simpa using hlen)

/-- C16. For a tuple with as many elements as its tuple type declares element
types, every position of the tuple has a declared type, so the lookup
`etys[i]` of the loop never leaves the range, and `marshal` is the loop over
the pairs of the `i`-th element and the `i`-th declared type: each element is
serialized against the type at its position with `isListSetItem` set and the
key flag unset, with the index step of its position as the last step of the
path. -/
theorem tuple_positional_typing (J : JSON) (xs : List Val) (etys : List Ty) (path : Path)
    (b : String) (isKey isItem : Bool) (hlen : xs.length = etys.length) :
    (∀ (i : Nat) (hi : i < xs.length), ∃ ety, etys[i]? = some ety ∧
      (xs.zip etys)[i]? = some (xs[i], ety)) ∧
      marshal J (.tuple xs) (.tuple etys) path b isKey isItem
        = (pairLoop (fun ev ety p b => marshal J ev ety p b false true) path (xs.zip etys) 0
            (b ++ "[" ++ "\n")).andThen fun b => .ok (b ++ "\n" ++ "]" ++ "\n") := by
  refine ⟨fun i hi => ?_, ?_⟩
  · have hi' : i < etys.length := by omega
    have hz : i < (xs.zip etys).length := by simp [List.length_zip, hlen, hi']
    refine ⟨etys[i], List.getElem?_eq_getElem hi', ?_⟩
    rw [List.getElem?_eq_getElem hz, List.getElem_zip]
  · rw [marshal_tuple]
    simp only [Val.elementIterator]
    rw [tupleLoop_eq_pairLoop _ etys path xs 0 _ (by simp [hlen])]
    rfl

/-- C16 at a tuple of a number and a string under the reference encoder. -/
theorem tuple_positional_typing_witness :
    (∀ (i : Nat) (hi : i < [Val.num (.fin false 7 0 64), Val.str "x"].length),
      ∃ ety, [Ty.number, Ty.string][i]? = some ety ∧
        ([Val.num (.fin false 7 0 64), Val.str "x"].zip [Ty.number, Ty.string])[i]?
          = some ([Val.num (.fin false 7 0 64), Val.str "x"][i], ety)) ∧
      marshal refJSON (.tuple [.num (.fin false 7 0 64), .str "x"]) (.tuple [.number, .string])
          [.getAttr "t"] "t=" false false
        = (pairLoop (fun ev ety p b => marshal refJSON ev ety p b false true) [.getAttr "t"]
            ([Val.num (.fin false 7 0 64), Val.str "x"].zip [Ty.number, Ty.string]) 0
            ("t=" ++ "[" ++ "\n")).andThen fun b => .ok (b ++ "\n" ++ "]" ++ "\n") :=
  tuple_positional_typing refJSON [.num (.fin false 7 0 64), .str "x"] [.number, .string]
    [.getAttr "t"] "t=" false false rfl

/-! ## Entries end with a newline -/

theorem Res.andThen_eq_ok {r : Res} {k : String → Res} {s : String}
    (h : r.andThen k = .ok s) : ∃ b, r = .ok b ∧ k b = .ok s := by
  cases r with
  | ok b => exact ⟨b, rfl, h⟩
  | error e b => cases h
  | panic => cases h

theorem endsWithNewline_append (x : String) {s : String} (h : EndsWithNewline s) :
    EndsWithNewline (x ++ s) := by
  unfold EndsWithNewline at h ⊢
  rw [String.data_append]
  cases hs : s.data with
  | nil => rw [hs] at h; cases h
  | cons c cs =>
    rw [hs] at h
    rw [List.getLast?_append_of_ne_nil _ (List.cons_ne_nil c cs)]
    exact h

theorem endsWithNewline_newline (x : String) : EndsWithNewline (x ++ "\n") :=
  endsWithNewline_append x rfl

theorem ne_empty_of_endsWithNewline {s : String} (h : EndsWithNewline s) : s ≠ "" := by
  intro hs
  subst hs
  cases h

/-- Outside key position and outside a list or set, whatever is written
against a type that is no capsule type ends with a newline. -/
theorem marshal_default_newline (J : JSON) {val : Val} {t : Ty} {path : Path} {b s : String}
    (ht : ∀ name, t ≠ .capsule name) (h : marshal J val t path b false false = .ok s) :
    ∃ x, s = x ++ "\n" := by
  cases t with
  | string =>
    rw [marshal_string] at h
    cases ha : val.asString with
    | none => rw [ha] at h; cases h
    | some a =>
      rw [ha] at h
      obtain ⟨b', -, hb⟩ := Res.andThen_eq_ok h
      simp only [Bool.not_false, Bool.and_self, if_true, Res.ok.injEq] at hb
      exact ⟨b', hb.symm⟩
  | number =>
    rw [marshal_number] at h
    cases ha : val.asBigFloat with
    | none => rw [ha] at h; cases h
    | some n =>
      rw [ha] at h
      simp only [Res.ok.injEq] at h
      exact ⟨_, h.symm⟩
  | bool =>
    rw [marshal_bool] at h
    cases ha : val.isTrue with
    | none => rw [ha] at h; cases h
    | some v =>
      rw [ha] at h
      simp only [Res.ok.injEq] at h
      exact ⟨_, h.symm⟩
  | list ety =>
    rw [marshal_list] at h
    cases he : val.elementIterator with
    | none => rw [he] at h; cases h
    | some elems =>
      rw [he] at h
      obtain ⟨b', -, hb⟩ := Res.andThen_eq_ok h
      simp only [Res.ok.injEq] at hb
      exact ⟨_, hb.symm⟩
  | set ety =>
    rw [marshal_set] at h
    cases he : val.elementIterator with
    | none => rw [he] at h; cases h
    | some elems =>
      rw [he] at h
      obtain ⟨b', -, hb⟩ := Res.andThen_eq_ok h
      simp only [Res.ok.injEq] at hb
      exact ⟨_, hb.symm⟩
  | map ety =>
    rw [marshal_map] at h
    cases he : val.elementIterator with
    | none => rw [he] at h; cases h
    | some elems =>
      rw [he] at h
      obtain ⟨b', -, hb⟩ := Res.andThen_eq_ok h
      simp only [Res.ok.injEq] at hb
      exact ⟨_, hb.symm⟩
  | tuple etys =>
    rw [marshal_tuple] at h
    cases he : val.elementIterator with
    | none => rw [he] at h; cases h
    | some elems =>
      rw [he] at h
      obtain ⟨b', -, hb⟩ := Res.andThen_eq_ok h
      simp only [Res.ok.injEq] at hb
      exact ⟨_, hb.symm⟩
  | object atys =>
    rw [marshal_object] at h
    obtain ⟨b', -, hb⟩ := Res.andThen_eq_ok h
    simp only [Bool.not_false, if_true, Res.ok.injEq] at hb
    exact ⟨_, hb.symm⟩
  | capsule name => exact absurd rfl (ht name)
  | unsupported p name =>
    rw [marshal_unsupported] at h
    cases h

theorem emits_default_newline (J : JSON) {val : Val} {t : Ty} {s : String}
    (ht : t.noCapsule = true) (h : Emits J val t false false s) : EndsWithNewline s := by
  obtain ⟨x, rfl⟩ := marshal_default_newline J
    (fun name hn => by rw [hn] at ht; simp [Ty.noCapsule] at ht) h
  exact endsWithNewline_newline x

theorem Ty.noCapsule_of_mem :
    ∀ {atys : List (String × Ty)} {k : String} {aty : Ty},
      Ty.noCapsuleAttrs atys = true → (k, aty) ∈ atys → aty.noCapsule = true
  | [], _, _, _, h => by simp at h
  | (k', t) :: rest, k, aty, hn, h => by
    simp only [Ty.noCapsuleAttrs, Bool.and_eq_true] at hn
    rcases List.mem_cons.1 h with heq | hmem
    · cases heq
      exact hn.1
    · exact Ty.noCapsule_of_mem hn.2 hmem

theorem mapLoop_ok (J : JSON) (ety : Ty) (path : Path) :
    ∀ (entries : List (String × Val)) (b out : String),
      mapLoop (fun ek p b => marshal J ek ek.type p b true false)
          (fun ev p b => marshal J ev ety p b false false) path
          (entries.map fun kv => (.str kv.1, kv.2)) b = .ok out →
      ∃ texts, List.Forall₂ (fun kv s => Emits J kv.2 ety false false s) entries texts ∧
        out = b ++ entriesText (entries.map Prod.fst) texts
  | [], b, out, h => by
    simp only [List.map_nil, mapLoop, Res.ok.injEq] at h
    exact ⟨[], .nil, by simp [entriesText, h]⟩
  | (k, v) :: rest, b, out, h => by
    rw [List.map_cons, mapLoop] at h
    simp only [Val.type] at h
    rw [marshal_key, Res.andThen_ok] at h
    obtain ⟨b₁, h₁, h₂⟩ := Res.andThen_eq_ok h
    obtain ⟨s, hs, rfl⟩ := emits_of_marshal J h₁
    obtain ⟨texts, ht, rfl⟩ := mapLoop_ok J ety path rest _ out h₂
    exact ⟨s :: texts, .cons hs ht, by simp [entriesText, String.append_assoc]⟩

theorem hclconvLoop_ok (J : JSON) :
    ∀ (attributes : List (String × Except String Val)) (content out : String),
      hclconvLoop J attributes content = some (out, none) →
      ∃ texts, List.Forall₂ (fun a s => ∃ v, a.2 = .ok v ∧ Emits J v v.type false false s)
          attributes texts ∧
        out = content ++ linesText (attributes.map Prod.fst) texts
  | [], content, out, h => by
    simp only [hclconvLoop, Option.some.injEq, Prod.mk.injEq, and_true] at h
    exact ⟨[], .nil, by simp [linesText, h]⟩
  | (name, x) :: rest, content, out, h => by
    cases x with
    | error d => simp [hclconvLoop] at h
    | ok v =>
      cases hr : marshal J v v.type [] "" false false with
      | panic => simp [hclconvLoop, hr] at h
      | error e c => simp [hclconvLoop, hr] at h
      | ok s =>
        simp only [hclconvLoop, hr] at h
        obtain ⟨texts, ht, rfl⟩ := hclconvLoop_ok J rest _ out h
        exact ⟨s :: texts, .cons ⟨v, rfl, hr⟩ ht, by simp [linesText, String.append_assoc]⟩

/-- C17. A text written with both flags unset against a type without capsule
is not empty and ends with a newline.  Hence, with element, attribute and
top-level types without capsule: the text of a map is the opening line, the
entries `key=value` one after the other, each ending with a newline, and the
closing line; the text of an object likewise, with an entry per attribute in
ascending order of the names; and the string `hclconv` returns is the lines
`name = value` one after the other, each ending with a newline. -/
theorem entries_end_with_newline (J : JSON) :
    (∀ (val : Val) (t : Ty) (s : String), t.noCapsule = true →
      Emits J val t false false s → s ≠ "" ∧ EndsWithNewline s) ∧
    (∀ (ety' ety : Ty) (entries : List (String × Val)) (isKey isItem : Bool) (s : String),
      ety.noCapsule = true → Emits J (.map ety' entries) (.map ety) isKey isItem s →
      ∃ texts, List.Forall₂ (fun kv e => Emits J kv.2 ety false false e ∧
          EndsWithNewline (kv.1 ++ "=" ++ e)) entries texts ∧
        s = "\x7b\n" ++ entriesText (entries.map Prod.fst) texts ++ "\x7d\n") ∧
    (∀ (val : Val) (atys : List (String × Ty)) (isKey isItem : Bool) (s : String),
      Ty.noCapsuleAttrs atys = true → Emits J val (.object atys) isKey isItem s →
      ∃ texts, List.Forall₂ (fun k e => (∃ av aty, val.getAttr k = some av ∧
          lookup k atys = some aty ∧ Emits J av aty false false e) ∧
          EndsWithNewline (k ++ "=" ++ e)) (sortStrings (atys.map Prod.fst)) texts ∧
        s = "\x7b\n" ++ entriesText (sortStrings (atys.map Prod.fst)) texts
          ++ (if isItem then "\x7d" else "\x7d\n")) ∧
    (∀ (attributes : List (String × Except String Val)) (content : String),
      (∀ a ∈ attributes, ∀ v, a.2 = .ok v → v.type.noCapsule = true) →
      hclconv J attributes = some (content, none) →
      ∃ texts, List.Forall₂ (fun a e => (∃ v, a.2 = .ok v ∧ Emits J v v.type false false e) ∧
          EndsWithNewline (a.1 ++ " = " ++ e)) attributes texts ∧
        content = linesText (attributes.map Prod.fst) texts) := by
  refine ⟨?_, ?_, ?_, ?_⟩
  · intro val t s ht h
    have := emits_default_newline J ht h
    exact ⟨ne_empty_of_endsWithNewline this, this⟩
  · intro ety' ety entries isKey isItem s ht h
    unfold Emits at h
    rw [marshal_map] at h
    simp only [Val.elementIterator] at h
    obtain ⟨b₁, h₁, h₂⟩ := Res.andThen_eq_ok h
    obtain ⟨texts, hf, rfl⟩ := mapLoop_ok J ety [] entries _ b₁ h₁
    refine ⟨texts, forall₂_imp_mem hf fun kv _ e he =>
      ⟨he, endsWithNewline_append _ (emits_default_newline J ht he)⟩, ?_⟩
    simp only [Res.ok.injEq] at h₂
    rw [← h₂]
    simp [String.append_assoc]
  · intro val atys isKey isItem s ht h
    obtain ⟨texts, hf, hs⟩ := emits_object J h
    refine ⟨texts, forall₂_imp_mem hf fun k _ e he => ⟨he, ?_⟩, hs⟩
    obtain ⟨av, aty, -, haty, he⟩ := he
    exact endsWithNewline_append _
      (emits_default_newline J (Ty.noCapsule_of_mem ht (lookup_mem haty)) he)
  · intro attributes content ht h
    obtain ⟨texts, hf, hs⟩ := hclconvLoop_ok J attributes "" content h
    refine ⟨texts, forall₂_imp_mem hf fun a ha e he => ⟨he, ?_⟩, by simpa using hs⟩
    obtain ⟨v, hv, he⟩ := he
    exact endsWithNewline_append _ (emits_default_newline J (ht a ha v hv) he)

/-- C17 under the reference encoder: the text of an empty list, and a
document of two attributes. -/
theorem entries_end_with_newline_witness :
    ("[\n]\n" ≠ "" ∧ EndsWithNewline "[\n]\n") ∧
      ∃ texts, List.Forall₂ (fun (a : String × Except String Val) e =>
          (∃ v, a.2 = .ok v ∧ Emits refJSON v v.type false false e) ∧
            EndsWithNewline (a.1 ++ " = " ++ e))
          [("a", .ok (.bool true)), ("b", .ok (.str "x"))] texts ∧
        "a = true\nb = \"x\"\n" = linesText ["a", "b"] texts :=
  ⟨(entries_end_with_newline refJSON).1 (.list .string []) (.list .string) "[\n]\n" rfl rfl,
    (entries_end_with_newline refJSON).2.2.2 [("a", .ok (.bool true)), ("b", .ok (.str "x"))]
      "a = true\nb = \"x\"\n"
      (by
        intro a ha v hv
        simp only [List.mem_cons, List.mem_singleton, List.not_mem_nil, or_false] at ha
        rcases ha with rfl | rfl
        · cases hv
          rfl
        · cases hv
          rfl)
      rfl⟩

/-! ## The document `jsonconv` assembles -/

theorem jsonconvLoop_ok (L : JSONLib) :
    ∀ (attributes : List (String × Except String Val)) (texts : List String) (i : Nat)
      (content : String),
      List.Forall₂ (fun a j => ∃ v, a.2 = .ok v ∧ L.ctyMarshal v v.type = .ok j)
        attributes texts →
      jsonconvLoop L (i + attributes.length) attributes i content
        = .ok (content ++ String.intercalate ","
            (List.zipWith (fun name j => "\"" ++ name ++ "\":" ++ j)
              (attributes.map Prod.fst) texts))
  | _, _, i, content, .nil => by
    simp [jsonconvLoop, String.intercalate]
  | (name, x) :: rest, j :: texts, i, content, .cons h hrest => by
    obtain ⟨v, hv, hj⟩ := h
    have hx : x = .ok v := hv
    subst hx
    have ih := jsonconvLoop_ok L rest texts (i + 1)
    have hn : i + ((name, Except.ok v) :: rest).length = i + 1 + rest.length := by
      simp only [List.length_cons]
      omega
    rw [jsonconvLoop]
    simp only [hj]
    rw [hn, ih _ hrest]
    cases hrest with
    | nil =>
      simp [String.intercalate, String.intercalate.go]
    | cons h' hrest' =>
      rename_i a' j' rest' texts'
      have hne : (i != i + 1 + (a' :: rest').length - 1) = true := by
        simp only [List.length_cons, bne_iff_ne, ne_eq]
        omega
      simp only [hne, if_true, List.map_cons, List.zipWith_cons_cons, intercalate_cons_cons,
        String.append_assoc]

/-- C18. When every attribute has a value and `ctyjson.Marshal` encodes it,
the text `jsonconv` hands to `json.Indent` is the opening brace, the entries
`"name":json` in the order of the attribute names with one comma between
consecutive entries and none behind the last, and the closing brace; without
attributes it is the two braces.  What `jsonconv` returns is what
`json.Indent` makes of that text. -/
theorem jsonconv_assembly (L : JSONLib) (attributes : List (String × Except String Val))
    (texts : List String)
    (h : List.Forall₂ (fun a j => ∃ v, a.2 = .ok v ∧ L.ctyMarshal v v.type = .ok j)
      attributes texts) :
    jsonconvContent L attributes
        = .ok ("\x7b" ++ String.intercalate ","
            (List.zipWith (fun name j => "\"" ++ name ++ "\":" ++ j)
              (attributes.map Prod.fst) texts) ++ "\x7d") ∧
      jsonconvContent L [] = .ok "\x7b\x7d" ∧
      jsonconv L attributes
        = match L.indent ("\x7b" ++ String.intercalate ","
            (List.zipWith (fun name j => "\"" ++ name ++ "\":" ++ j)
              (attributes.map Prod.fst) texts) ++ "\x7d") with
          | .error err => ("", some ("error while formatting JSON content: " ++ err))
          | .ok out => (out, none) := by
  have hc : jsonconvContent L attributes
      = .ok ("\x7b" ++ String.intercalate ","
          (List.zipWith (fun name j => "\"" ++ name ++ "\":" ++ j)
            (attributes.map Prod.fst) texts) ++ "\x7d") := by
    have := jsonconvLoop_ok L attributes texts 0 "\x7b" h
    rw [Nat.zero_add] at this
    rw [jsonconvContent, this]
  refine ⟨hc, rfl, ?_⟩
  rw [jsonconv, hc]

/-- C18 at a document of a boolean and a string attribute. -/
theorem jsonconv_assembly_witness :
    jsonconvContent plainJSONLib [("a", .ok (.bool true)), ("b", .ok (.str "x"))]
        = .ok "\x7b\"a\":true,\"b\":\"x\"\x7d" ∧
      jsonconvContent plainJSONLib [] = .ok "\x7b\x7d" ∧
      jsonconv plainJSONLib [("a", .ok (.bool true)), ("b", .ok (.str "x"))]
        = ("\x7b\"a\":true,\"b\":\"x\"\x7d", none) :=
  jsonconv_assembly plainJSONLib [("a", .ok (.bool true)), ("b", .ok (.str "x"))]
    ["true", "\"x\""] (.cons ⟨_, rfl, rfl⟩ (.cons ⟨_, rfl, rfl⟩ .nil))

end Hclconv
